import Mathlib

/-!
# liblz_json: a shallow embedding of `src/lz_json.c`

The value tree, the byte-level parsers, the buffer serializer, the path query
and the comparator of `lz_json.c` are translated to Lean functions, and the
properties stated about them are proved (or refuted at a concrete input).

Conventions of the embedding

* A byte is a `Nat` (an `unsigned char`, so below 256 in every real input); a
  span `(data, len)` is the `List Nat` of its `len` bytes, and the sub-span
  `(&data[i], len - i)` is `data.drop i`.
* A parser returns the pair `(value or none, amount added to *n_read)`;
  `none` is the C `NULL`.
* `size_t` is taken to be 64 bits wide and `unsigned int` 32 bits wide.
-/

namespace LzJson

/-! ## Data model -/

/-- The value tree `struct lz_json_s`: the tag `type` together with the union
payload.  A String carries its bytes (`slen` is the length of the list); an
Object carries the entries of its `lz_kvmap` in iteration order; an Array
carries the elements of its `lz_tailq` in order. -/
inductive lz_json where
  | object (ents : List (List Nat × lz_json))
  | array (elems : List lz_json)
  | string (s : List Nat)
  | number (n : Nat)
  | boolean (b : Bool)
  | null

/-- The tag `lz_json_vtype`. -/
inductive lz_json_vtype where
  | lz_json_vtype_object
  | lz_json_vtype_array
  | lz_json_vtype_string
  | lz_json_vtype_number
  | lz_json_vtype_bool
  | lz_json_vtype_null
  deriving DecidableEq, Repr

/-- The states of the top-level scanner, `enum lz_j_state`. -/
inductive lz_j_state where
  | lz_j_s_start
  | lz_j_s_end
  deriving DecidableEq, Repr

/-- The states of the array scanner, `enum lz_j_arr_state`. -/
inductive lz_j_arr_state where
  | lz_j_arr_s_val
  | lz_j_arr_s_comma
  | lz_j_arr_s_end
  deriving DecidableEq, Repr

/-- The states of the object scanner, `enum lz_j_obj_state`. -/
inductive lz_j_obj_state where
  | lz_j_obj_s_key
  | lz_j_obj_s_delim
  | lz_j_obj_s_val
  | lz_j_obj_s_comma
  | lz_j_obj_s_end
  deriving DecidableEq, Repr

/-- The bytes of a text, used to write inputs down readably (all inputs below
are ASCII, where a character is one byte). -/
def bytes (s : String) : List Nat := s.toList.map Char.toNat

/-- The C string that starts at the first byte of `s`: the bytes before the
first zero byte. -/
def cstr (s : List Nat) : List Nat := s.takeWhile (fun c => c != 0)

/-- The width of `size_t` arithmetic: values wrap modulo `2 ^ 64`. -/
def SIZE_MOD : Nat := 2 ^ 64

/-- The width of `unsigned int` arithmetic: values wrap modulo `2 ^ 32`. -/
def UINT_MOD : Nat := 2 ^ 32

/-! ## Collaborators that are not part of `src/` -/

/-- `isspace` of `<ctype.h>` in the C locale: space, and `\t \n \v \f \r`. -/
def isspace (ch : Nat) : Bool := ch == 32 || (decide (9 ≤ ch) && decide (ch ≤ 13))

/-- `isdigit` of `<ctype.h>`: the bytes `'0'` to `'9'`. -/
def isdigit (ch : Nat) : Bool := decide (48 ≤ ch) && decide (ch ≤ 57)

/-- Modelled from the spec: the macro `lz_isascii` comes from liblz
(`lzapi.h`) and is not under src/.  Spec 4.2: the string parser "rejects
non-ASCII bytes"; a byte is ASCII when it is below `0x80`. -/
def lz_isascii (ch : Nat) : Bool := decide (ch < 128)

/-- Modelled from the spec: the helper `lz_atoi(buf, n)` comes from liblz
(`lzapi.h`) and is not under src/.  Spec 4.2: "the value is the unsigned
decimal integer formed from the run, computed digit-by-digit".  The spec says
nothing about a byte outside `'0'..'9'`; no result below depends on the value
given here for such a byte. -/
def lz_atoi (buf : List Nat) : Nat :=
  buf.foldl (fun value ch => value * 10 + (ch - 48)) 0

/-- Modelled from the spec: the macro `lz_str30_cmp(m, c0, c1, c2, c3)` comes
from liblz (`lzapi.h`) and is not under src/.  Spec 4.2 (null parser):
"requires 4 bytes exactly matching `null`", so it holds when the four bytes at
`m` are `c0 c1 c2 c3`. -/
def lz_str30_cmp (m : List Nat) (c0 c1 c2 c3 : Nat) : Bool :=
  m.take 4 == [c0, c1, c2, c3]

/-- Modelled from the spec: `lz_kvmap_add` of the string-keyed map
collaborator (liblz, not under src/).  Spec 3: "owning map: key (string) →
Value"; spec 9: iteration order is the collaborator's.  The map is kept as
the list of its entries in insertion order and a new entry goes to the end.
The key is passed as a C string. -/
def lz_kvmap_add (m : List (List Nat × lz_json)) (key : List Nat) (val : lz_json) :
    List (List Nat × lz_json) :=
  m ++ [(cstr key, val)]

/-- Modelled from the spec: `lz_kvmap_find` of the map collaborator (liblz,
not under src/): the value of the first entry stored under `key`, `none`
(`NULL`) when there is none. -/
def lz_kvmap_find : List (List Nat × lz_json) → List Nat → Option lz_json
  | [], _ => none
  | (k, v) :: rest, key => if k = key then some v else lz_kvmap_find rest key

/-- Modelled from the spec: `lz_tailq_get_at_index` of the ordered-sequence
collaborator (liblz, not under src/): "indexed access", `none` (`NULL`) when
the index is out of range. -/
def lz_tailq_get_at_index : List lz_json → Nat → Option lz_json
  | [], _ => none
  | v :: _, 0 => some v
  | _ :: rest, n + 1 => lz_tailq_get_at_index rest n

/-! ## Accessors -/

/-- `lz_json_get_type` on a non-null value. -/
def lz_json_get_type : lz_json → lz_json_vtype
  | .object _ => .lz_json_vtype_object
  | .array _ => .lz_json_vtype_array
  | .string _ => .lz_json_vtype_string
  | .number _ => .lz_json_vtype_number
  | .boolean _ => .lz_json_vtype_bool
  | .null => .lz_json_vtype_null

/-- `lz_json_get_size`: string length, array length, map size, 0 otherwise. -/
def lz_json_get_size : lz_json → Nat
  | .string s => s.length
  | .array es => es.length
  | .object ents => ents.length
  | _ => 0

/-- `lz_json_get_object`: the map of an Object, `none` otherwise. -/
def lz_json_get_object : lz_json → Option (List (List Nat × lz_json))
  | .object ents => some ents
  | _ => none

/-- `lz_json_get_array`: the sequence of an Array, `none` otherwise. -/
def lz_json_get_array : lz_json → Option (List lz_json)
  | .array es => some es
  | _ => none

/-- `lz_json_get_number`: the number of a Number, 0 otherwise. -/
def lz_json_get_number : lz_json → Nat
  | .number n => n
  | _ => 0

/-- `lz_json_get_string`: the byte buffer of a String, `none` otherwise. -/
def lz_json_get_string : lz_json → Option (List Nat)
  | .string s => some s
  | _ => none

/-- `lz_json_get_boolean`: the bit of a Boolean, `false` otherwise. -/
def lz_json_get_boolean : lz_json → Bool
  | .boolean b => b
  | _ => false

/-! ## Parser -/

/-- The escape switch of `lz_json_parse_string`: the bytes accepted after a
backslash, `" / b f n r t \`. -/
def is_escape_char (ch : Nat) : Bool :=
  ch == 34 || ch == 47 || ch == 98 || ch == 102 || ch == 110 || ch == 114 || ch == 116 || ch == 92

/-- The `for` loop of `lz_json_parse_string`, after `len--; data++`.  The list
is `data[i .. len)`, `buf` is the scratch buffer up to `buf_idx`.  The result
is `(js, i)` at the label `end` (with `js = NULL` when `error` is set).  The
write index `buf_idx` is read off as `length buf`, which is what the `int` of
the source holds as long as fewer than `2 ^ 31` bytes are stored;
`lz_json_parse_string_loop_int` carries the `int` itself. -/
def lz_json_parse_string_loop (buflen : Nat) :
    List Nat → Nat → List Nat → Bool → Option lz_json × Nat
  | [], i, _, _ => (none, i)
  | ch :: rest, i, buf, escaped =>
    if buf.length ≥ buflen then (none, i)
    else if !lz_isascii ch then (none, i)
    else if escaped then
      if is_escape_char ch then lz_json_parse_string_loop buflen rest (i + 1) (buf ++ [ch]) false
      else (none, i)
    else if ch = 92 then lz_json_parse_string_loop buflen rest (i + 1) buf true
    else if ch = 34 then (some (.string buf), i + 1)
    else lz_json_parse_string_loop buflen rest (i + 1) (buf ++ [ch]) false

/-- `lz_json_parse_string(data, len, n_read)`. -/
def lz_json_parse_string (data : List Nat) : Option lz_json × Nat :=
  match data with
  | [] => (none, 0)
  | c :: rest =>
    if c ≠ 34 then (none, 0)
    else lz_json_parse_string_loop (data.length + 128) rest 0 [] false

/-- `lz_json_parse_key` is `lz_json_parse_string`. -/
def lz_json_parse_key (data : List Nat) : Option lz_json × Nat :=
  lz_json_parse_string data

/-- The `for` loop of `lz_json_parse_number`.  The list is `data[i .. len)`,
`buf` is the digit buffer up to `buf_idx`.  The result is `(js, i)` after the
loop. -/
def lz_json_parse_number_loop (len : Nat) :
    List Nat → Nat → List Nat → Option lz_json × Nat
  | [], i, _ => (none, i)
  | ch :: rest, i, buf =>
    if !isdigit ch || (decide (len = 1) && isdigit ch) then
      (some (.number (lz_atoi buf % UINT_MOD)), i)
    else lz_json_parse_number_loop len rest (i + 1) (buf ++ [ch])

/-- `lz_json_parse_number(data, len, n_read)`; the amount added to `*n_read`
is `(len == 1) ? 1 : i - 1` in `size_t` arithmetic. -/
def lz_json_parse_number (data : List Nat) : Option lz_json × Nat :=
  match data with
  | [] => (none, 0)
  | _ :: _ =>
    let r := lz_json_parse_number_loop data.length data 0 []
    (r.1, if data.length = 1 then 1 else (r.2 + SIZE_MOD - 1) % SIZE_MOD)

def J_TRUE_CMP : Nat := 0x657572
def J_FALSE_CMP : Nat := 0x65736c61
def J_TRUE_MASK : Nat := 0xFFFFFF
def J_FALSE_MASK : Nat := 0xFFFFFFFF

/-- The load `*((uint32_t*)(data + off))` on a little-endian machine.  A byte
past the end of the span is read as 0 here. -/
def load_u32 (data : List Nat) (off : Nat) : Nat :=
  data.getD off 0 + 256 * data.getD (off + 1) 0 + 65536 * data.getD (off + 2) 0
    + 16777216 * data.getD (off + 3) 0

/-- `lz_json_parse_boolean(data, len, n_read)`. -/
def lz_json_parse_boolean (data : List Nat) : Option lz_json × Nat :=
  if data.length < 4 then (none, 0)
  else
    match data with
    | [] => (none, 0)
    | c :: _ =>
      if c = 116 then
        if load_u32 data 1 &&& J_TRUE_MASK = J_TRUE_CMP then (some (.boolean true), 3)
        else (none, 0)
      else if c = 102 then
        if data.length < 5 then (none, 0)
        else if load_u32 data 1 &&& J_FALSE_MASK = J_FALSE_CMP then (some (.boolean false), 4)
        else (none, 0)
      else (none, 0)

/-- `lz_json_parse_null(data, len, n_read)`. -/
def lz_json_parse_null (data : List Nat) : Option lz_json × Nat :=
  if data.length < 4 then (none, 0)
  else if !lz_str30_cmp data 110 117 108 108 then (none, 0)
  else (some .null, 4)

/-- The label `end` of `lz_json_parse_array`: `*n_read += i`, and the array is
returned only when `end_ch` is `']'` (callers jump here with `error` set by
returning `(none, i)` directly). -/
def lz_json_parse_array_end (i : Nat) (js : List lz_json) (end_ch : Nat) :
    Option lz_json × Nat :=
  if end_ch ≠ 93 then (none, i) else (some (.array js), i)

/-- The `for` loop of `lz_json_parse_array`, after `data++; len--`.  `pv` is
the value dispatcher the loop calls on `(&data[i], len - i)`; `js` holds the
elements appended so far.  One unit of fuel is one iteration; `i` grows in
every iteration, so `len` units are never used up before `i < len` fails. -/
def lz_json_parse_array_loop (pv : List Nat → Option lz_json × Nat) (data : List Nat)
    (len : Nat) : Nat → Nat → lz_j_arr_state → List lz_json → Nat → Option lz_json × Nat
  | 0, i, _, js, end_ch => lz_json_parse_array_end i js end_ch
  | fuel + 1, i, state, js, end_ch =>
    if i < len then
      let ch := data.getD i 0
      if isspace ch then lz_json_parse_array_loop pv data len fuel (i + 1) state js end_ch
      else
        match state with
        | .lz_j_arr_s_val =>
          if ch = 93 then
            lz_json_parse_array_loop pv data len fuel (i + 1) .lz_j_arr_s_end js ch
          else
            match pv (data.drop i) with
            | (none, _) => (none, i)
            | (some val, b_read) =>
              lz_json_parse_array_loop pv data len fuel (i + b_read + 1) .lz_j_arr_s_comma
                (js ++ [val]) (if i + b_read + 1 = len then data.getD (i + b_read) 0 else end_ch)
        | .lz_j_arr_s_comma =>
          if ch = 44 then
            lz_json_parse_array_loop pv data len fuel (i + 1) .lz_j_arr_s_val js end_ch
          else if ch = 93 then
            lz_json_parse_array_loop pv data len fuel (i + 1) .lz_j_arr_s_end js ch
          else (none, i)
        | .lz_j_arr_s_end => lz_json_parse_array_end i js end_ch
    else lz_json_parse_array_end i js end_ch

/-- The body of `lz_json_parse_array(data, len, n_read)` with the value
dispatcher it calls as the parameter `pv`. -/
def lz_json_parse_array_with (pv : List Nat → Option lz_json × Nat) (data : List Nat) :
    Option lz_json × Nat :=
  match data with
  | [] => (none, 0)
  | c :: rest =>
    if c ≠ 91 then (none, 0)
    else lz_json_parse_array_loop pv rest rest.length rest.length 0 .lz_j_arr_s_val [] 0

/-- The label `end` of `lz_json_parse_object`: `*n_read += i`, and the object
is returned only when `end_ch` is `'}'`. -/
def lz_json_parse_object_end (i : Nat) (js : List (List Nat × lz_json)) (end_ch : Nat) :
    Option lz_json × Nat :=
  if end_ch ≠ 125 then (none, i) else (some (.object js), i)

/-- The `for` loop of `lz_json_parse_object`, after `data++; len--`.  `pv` is
the value dispatcher; `js` holds the entries added so far and `key` the bytes
`key->string` of the key parsed last (the state `lz_j_obj_s_val` is only
entered after a key was parsed).  Fuel as in the array loop. -/
def lz_json_parse_object_loop (pv : List Nat → Option lz_json × Nat) (data : List Nat)
    (len : Nat) : Nat → Nat → lz_j_obj_state → List (List Nat × lz_json) → List Nat → Nat →
    Option lz_json × Nat
  | 0, i, _, js, _, end_ch => lz_json_parse_object_end i js end_ch
  | fuel + 1, i, state, js, key, end_ch =>
    if i < len then
      let ch := data.getD i 0
      if isspace ch then lz_json_parse_object_loop pv data len fuel (i + 1) state js key end_ch
      else
        match state with
        | .lz_j_obj_s_key =>
          if ch = 125 then
            lz_json_parse_object_loop pv data len fuel (i + 1) .lz_j_obj_s_end js key ch
          else
            match lz_json_parse_key (data.drop i) with
            | (some (.string k), b_read) =>
              lz_json_parse_object_loop pv data len fuel (i + b_read + 1) .lz_j_obj_s_delim
                js k end_ch
            | (_, b_read) => (none, i + b_read)
        | .lz_j_obj_s_delim =>
          if ch ≠ 58 then (none, i)
          else lz_json_parse_object_loop pv data len fuel (i + 1) .lz_j_obj_s_val js key end_ch
        | .lz_j_obj_s_val =>
          match pv (data.drop i) with
          | (none, b_read) => (none, i + b_read)
          | (some val, b_read) =>
            lz_json_parse_object_loop pv data len fuel (i + b_read + 1) .lz_j_obj_s_comma
              (lz_kvmap_add js key val) [] end_ch
        | .lz_j_obj_s_comma =>
          if ch = 44 then
            lz_json_parse_object_loop pv data len fuel (i + 1) .lz_j_obj_s_key js key end_ch
          else if ch = 125 then
            lz_json_parse_object_loop pv data len fuel (i + 1) .lz_j_obj_s_end js key ch
          else (none, i)
        | .lz_j_obj_s_end => lz_json_parse_object_end i js end_ch
    else lz_json_parse_object_end i js end_ch

/-- The body of `lz_json_parse_object(data, len, n_read)` with the value
dispatcher it calls as the parameter `pv`.  (On an empty span the C code reads
`*data` outside the span; that byte is taken not to be an opening brace.) -/
def lz_json_parse_object_with (pv : List Nat → Option lz_json × Nat) (data : List Nat) :
    Option lz_json × Nat :=
  match data with
  | [] => (none, 0)
  | c :: rest =>
    if c ≠ 123 then (none, 0)
    else lz_json_parse_object_loop pv rest rest.length rest.length 0 .lz_j_obj_s_key [] [] 0

/-- `lz_json_parse_value` with a bound `depth` on the nesting of the recursive
calls `parse_value → parse_array / parse_object → parse_value`.  Every nested
call receives a strictly shorter span, so a bound of `len` is never exhausted
(`lz_json_parse_value_fuel_stable`). -/
def lz_json_parse_value_fuel : Nat → List Nat → Option lz_json × Nat
  | 0, _ => (none, 0)
  | depth + 1, data =>
    match data with
    | [] => (none, 0)
    | c :: _ =>
      if c = 34 then lz_json_parse_string data
      else if c = 123 then lz_json_parse_object_with (lz_json_parse_value_fuel depth) data
      else if c = 91 then lz_json_parse_array_with (lz_json_parse_value_fuel depth) data
      else if isdigit c then lz_json_parse_number data
      else if c = 116 ∨ c = 102 then lz_json_parse_boolean data
      else if c = 110 then lz_json_parse_null data
      else (none, 0)

/-- `lz_json_parse_value(data, len, n_read)`. -/
def lz_json_parse_value (data : List Nat) : Option lz_json × Nat :=
  lz_json_parse_value_fuel data.length data

/-- `lz_json_parse_array(data, len, n_read)`. -/
def lz_json_parse_array (data : List Nat) : Option lz_json × Nat :=
  lz_json_parse_array_with lz_json_parse_value data

/-- `lz_json_parse_object(data, len, n_read)`. -/
def lz_json_parse_object (data : List Nat) : Option lz_json × Nat :=
  lz_json_parse_object_with lz_json_parse_value data

/-- The `for` loop of `lz_json_parse_buf`; `js` is the value parsed so far.
The result is `(return value, amount added to *n_read)`.  Fuel as in the
array loop. -/
def lz_json_parse_buf_loop (data : List Nat) (len : Nat) :
    Nat → Nat → lz_j_state → Option lz_json → Option lz_json × Nat
  | 0, i, _, js => (js, i)
  | fuel + 1, i, state, js =>
    if i < len then
      let ch := data.getD i 0
      if isspace ch then lz_json_parse_buf_loop data len fuel (i + 1) state js
      else
        match state with
        | .lz_j_s_start =>
          if ch = 123 then
            match lz_json_parse_object (data.drop i) with
            | (none, b_read) => (none, b_read)
            | (some v, b_read) =>
              lz_json_parse_buf_loop data len fuel (i + b_read + 1) .lz_j_s_end (some v)
          else if ch = 91 then
            match lz_json_parse_array (data.drop i) with
            | (none, b_read) => (none, b_read)
            | (some v, b_read) =>
              lz_json_parse_buf_loop data len fuel (i + b_read + 1) .lz_j_s_end (some v)
          else (none, i)
        | .lz_j_s_end => lz_json_parse_buf_loop data len fuel (i + 1) state js
    else (js, i)

/-- `lz_json_parse_buf(data, len, n_read)`. -/
def lz_json_parse_buf (data : List Nat) : Option lz_json × Nat :=
  lz_json_parse_buf_loop data data.length data.length 0 .lz_j_s_start none


/-! ## Serializer -/

/-- The write target `struct __jbuf`.  `buf` holds the bytes stored so far,
that is the positions `[0, buf_idx)` of the destination. -/
structure __jbuf where
  buf : List Nat
  buf_idx : Nat
  buf_len : Nat
  written : Int
  dynamic : Int
  escape : Bool

/-- Sequencing of two writers the way the C code chains them: a result of
`-1` aborts, anything else continues with the updated write target. -/
def jbuf_then (r : Int × __jbuf) (k : __jbuf → Int × __jbuf) : Int × __jbuf :=
  if r.1 = -1 then r else k r.2

/-- `_addbuf(jbuf, buf, len)`: append `src`, growing a dynamic target by
`len + 32` and failing with `-1` on a fixed target that is too small. -/
def _addbuf (j : __jbuf) (src : List Nat) : Int × __jbuf :=
  if src.length = 0 then (0, j)
  else if j.buf_idx + src.length > j.buf_len then
    if j.dynamic = 1 then
      (0, { j with buf := j.buf ++ src, buf_len := j.buf_len + src.length + 32,
                   buf_idx := j.buf_idx + src.length, written := j.written + src.length })
    else (-1, j)
  else
    (0, { j with buf := j.buf ++ src, buf_idx := j.buf_idx + src.length,
                 written := j.written + src.length })

/-- `_addbuf_printf(jbuf, "%s", lit)` (and `_addbuf_printf(jbuf, lit)` for a
literal without conversions): `vsnprintf` into a temporary of
`buf_len - buf_idx` bytes returns the length of `lit`; the call fails unless
that length is strictly below the size of the temporary. -/
def _addbuf_printf (j : __jbuf) (lit : List Nat) : Int × __jbuf :=
  if lit.length ≥ j.buf_len - j.buf_idx then (-1, j)
  else _addbuf j lit

/-- The table `digits`: the two-character decimal texts of 0 .. 99. -/
def digits : List Nat :=
  bytes ("0001020304050607080910111213141516171819"
    ++ "2021222324252627282930313233343536373839"
    ++ "4041424344454647484950515253545556575859"
    ++ "6061626364656667686970717273747576777879"
    ++ "8081828384858687888990919293949596979899")

/-- The loop `while (num >= 100)` of `_addbuf_number`; `out` is the text
between `buffer_end` and the terminating zero.  `num` is divided by 100 in
every iteration, so `num` units of fuel are never used up. -/
def _addbuf_number_loop : Nat → Nat → List Nat → Nat × List Nat
  | 0, num, out => (num, out)
  | fuel + 1, num, out =>
    if num ≥ 100 then
      _addbuf_number_loop fuel (num / 100)
        (digits.getD ((num % 100) * 2) 0 :: digits.getD ((num % 100) * 2 + 1) 0 :: out)
    else (num, out)

/-- The text `_addbuf_number` builds in its local buffer for `num`. -/
def _addbuf_number_text (num : Nat) : List Nat :=
  let r := _addbuf_number_loop num num []
  if r.1 < 10 then (48 + r.1) :: r.2
  else digits.getD (r.1 * 2) 0 :: digits.getD (r.1 * 2 + 1) 0 :: r.2

/-- `_addbuf_number(jbuf, num)`. -/
def _addbuf_number (j : __jbuf) (num : Nat) : Int × __jbuf :=
  _addbuf j (_addbuf_number_text num)

/-- `_lz_j_escape_string(str, len, jbuf)`. -/
def _lz_j_escape_string : List Nat → __jbuf → Int × __jbuf
  | [], j => (0, j)
  | ch :: rest, j =>
    jbuf_then
      (if ch = 10 then _addbuf j [92, 110]
       else if ch = 34 then _addbuf j [92, 34]
       else if ch = 9 then _addbuf j [92, 116]
       else if ch = 13 then _addbuf j [92, 114]
       else if ch = 92 then _addbuf j [92, 92]
       else _addbuf j [ch])
      (fun j1 => _lz_j_escape_string rest j1)

/-- `_lz_j_string_to_buffer` on the bytes of a String value. -/
def _lz_j_string_to_buffer (str : List Nat) (j : __jbuf) : Int × __jbuf :=
  jbuf_then (_addbuf j [34]) (fun j1 =>
    jbuf_then (if j1.escape = true then _lz_j_escape_string str j1 else (0, j1)) (fun j2 =>
      _addbuf j2 [34]))

/-- `_lz_j_boolean_to_buffer` on the bit of a Boolean value. -/
def _lz_j_boolean_to_buffer (b : Bool) (j : __jbuf) : Int × __jbuf :=
  _addbuf_printf j (if b = true then bytes "true" else bytes "false")

/-- `_lz_j_null_to_buffer`. -/
def _lz_j_null_to_buffer (j : __jbuf) : Int × __jbuf :=
  _addbuf_printf j (bytes "null")

mutual
/-- `_lz_j_to_buffer(json, jbuf)`, with `_lz_j_array_to_buffer` and
`_lz_j_object_to_buffer` inlined up to their loops. -/
def _lz_j_to_buffer : lz_json → __jbuf → Int × __jbuf
  | .number n, j => _addbuf_number j n
  | .array elems, j =>
    jbuf_then (_addbuf j [91]) (fun j1 =>
      jbuf_then (_lz_j_array_to_buffer_loop elems j1) (fun j2 =>
        jbuf_then (_addbuf j2 [93]) (fun j3 => (0, j3))))
  | .object ents, j =>
    jbuf_then (_addbuf j [123]) (fun j1 =>
      jbuf_then (_lz_j_object_to_buffer_loop ents j1) (fun j2 =>
        jbuf_then (_addbuf j2 [125]) (fun j3 => (0, j3))))
  | .string s, j => _lz_j_string_to_buffer s j
  | .boolean b, j => _lz_j_boolean_to_buffer b j
  | .null, j => _lz_j_null_to_buffer j
/-- The `for` loop of `_lz_j_array_to_buffer` over the elements from `elem`
on; a `','` is written when `lz_tailq_next(elem)` is not `NULL`. -/
def _lz_j_array_to_buffer_loop : List lz_json → __jbuf → Int × __jbuf
  | [], j => (0, j)
  | val :: rest, j =>
    jbuf_then (_lz_j_to_buffer val j) (fun j1 =>
      jbuf_then (if rest.isEmpty then (0, j1) else _addbuf j1 [44]) (fun j2 =>
        _lz_j_array_to_buffer_loop rest j2))
/-- The `for` loop of `_lz_j_object_to_buffer` over the entries from `ent`
on; a `','` is written when `lz_kvmap_next(ent)` is not `NULL`. -/
def _lz_j_object_to_buffer_loop : List (List Nat × lz_json) → __jbuf → Int × __jbuf
  | [], j => (0, j)
  | (key, val) :: rest, j =>
    jbuf_then (_addbuf j [34]) (fun j1 =>
      jbuf_then (_addbuf j1 key) (fun j2 =>
        jbuf_then (_addbuf j2 [34, 58]) (fun j3 =>
          jbuf_then (_lz_j_to_buffer val j3) (fun j4 =>
            jbuf_then (if rest.isEmpty then (0, j4) else _addbuf j4 [44]) (fun j5 =>
              _lz_j_object_to_buffer_loop rest j5)))))
end

/-- `lz_json_to_buffer(json, buf, buf_len)`: the return value (`-1` or
`jbuf.written`) and the bytes stored in `buf`. -/
def lz_json_to_buffer (json : lz_json) (buf_len : Nat) : Int × List Nat :=
  let r := _lz_j_to_buffer json
    { buf := [], buf_idx := 0, written := 0, buf_len := buf_len, dynamic := 0, escape := true }
  if r.1 = -1 then (-1, r.2.buf) else (r.2.written, r.2.buf)

/-- `lz_json_to_buffer_nescp(json, buf, buf_len)`. -/
def lz_json_to_buffer_nescp (json : lz_json) (buf_len : Nat) : Int × List Nat :=
  let r := _lz_j_to_buffer json
    { buf := [], buf_idx := 0, written := 0, buf_len := buf_len, dynamic := 0, escape := false }
  if r.1 = -1 then (-1, r.2.buf) else (r.2.written, r.2.buf)

/-- `lz_json_to_buffer_alloc(json, len)`: `none` (`NULL`) on failure, else the
buffer and the value stored in `*len`. -/
def lz_json_to_buffer_alloc (json : lz_json) : Option (List Nat × Int) :=
  let r := _lz_j_to_buffer json
    { buf := [], buf_idx := 0, written := 0, buf_len := 0, dynamic := 1, escape := true }
  if r.1 = -1 then none else some (r.2.buf, r.2.written)


/-! ## Path query -/

/-- The states of the path scanner, `enum path_state`. -/
inductive path_state where
  | path_state_reading_key
  | path_state_reading_array
  | path_state_reading_array_end
  deriving DecidableEq, Repr

/-- The local variables of `lz_json_path_get` that change during the scan:
`prev`, the key buffer `buf` (up to its terminating zero) and `state`.
`moved` records whether `prev` was re-assigned, which is what the final test
`prev != js` asks: every assignment stores a child of the old `prev`, and a
child is never the root. -/
structure path_vars where
  prev : lz_json
  moved : Bool
  buf : List Nat
  state : path_state

/-- `_array_index(array, offset)`. -/
def _array_index (array : lz_json) (offset : Nat) : Option lz_json :=
  match lz_json_get_array array with
  | none => none
  | some list => lz_tailq_get_at_index list offset

/-- The `switch (state)` of `lz_json_path_get` for one byte `ch` of the path;
`none` is an early `return NULL`. -/
def lz_json_path_get_step (v : path_vars) (ch : Nat) : Option path_vars :=
  match v.state with
  | .path_state_reading_key =>
    if ch = 91 then some { v with state := .path_state_reading_array }
    else if ch = 0 ∨ ch = 46 then
      match lz_json_get_object v.prev with
      | none => none
      | some object =>
        match lz_kvmap_find object v.buf with
        | none => none
        | some found => some { v with prev := found, moved := true, buf := [] }
    else some { v with buf := v.buf ++ [ch] }
  | .path_state_reading_array =>
    if ch = 93 then
      match _array_index v.prev (lz_atoi v.buf) with
      | none => none
      | some found =>
        some { prev := found, moved := true, buf := [], state := .path_state_reading_array_end }
    else some { v with buf := v.buf ++ [ch] }
  | .path_state_reading_array_end => some { v with state := .path_state_reading_key }

/-- The `return (prev != js) ? prev : NULL` of `lz_json_path_get`. -/
def lz_json_path_get_end (v : path_vars) : Option lz_json :=
  if v.moved then some v.prev else none

/-- The `for` loop of `lz_json_path_get` over the bytes `path[i ..]` of the
path including its terminating zero; the loop is left after the zero byte. -/
def lz_json_path_get_loop : List Nat → path_vars → Option lz_json
  | [], v => lz_json_path_get_end v
  | ch :: rest, v =>
    match lz_json_path_get_step v ch with
    | none => none
    | some v1 => if ch = 0 then lz_json_path_get_end v1 else lz_json_path_get_loop rest v1

/-- `lz_json_path_get(js, path)` for a non-null `js` and the C string `path`. -/
def lz_json_path_get (js : lz_json) (path : List Nat) : Option lz_json :=
  lz_json_path_get_loop (path ++ [0])
    { prev := js, moved := false, buf := [], state := .path_state_reading_key }

/-! ## Comparator -/

/-- The callback type `lz_json_key_filtercb`: called with a key and the value
stored under it; the result 1 makes the comparator skip the key. -/
abbrev lz_json_key_filtercb := List Nat → lz_json → Int

/-- The test `cb && (cb)(key, j1_val) == 1` of `_lz_j_object_compare`. -/
def key_filtered (cb : Option lz_json_key_filtercb) (key : List Nat) (val : lz_json) : Bool :=
  match cb with
  | none => false
  | some f => decide (f key val = 1)

mutual
/-- `_lz_j_compare(j1, j2, cb)` for non-null values, with the per-variant
comparisons inlined up to the loops of the array and object comparison. -/
def _lz_j_compare : lz_json → lz_json → Option lz_json_key_filtercb → Int
  | .number n, j2, _ =>
    if lz_json_get_type (.number n) ≠ lz_json_get_type j2 then -1
    else if lz_json_get_size (.number n) ≠ lz_json_get_size j2 then -1
    else if n ≠ lz_json_get_number j2 then -1
    else 0
  | .array elems, j2, cb =>
    if lz_json_get_type (.array elems) ≠ lz_json_get_type j2 then -1
    else if lz_json_get_size (.array elems) ≠ lz_json_get_size j2 then -1
    else
      match lz_json_get_array j2 with
      | none => -1
      | some j2_array => _lz_j_array_compare_loop elems j2_array 0 cb
  | .object ents, j2, cb =>
    if lz_json_get_type (.object ents) ≠ lz_json_get_type j2 then -1
    else if lz_json_get_size (.object ents) ≠ lz_json_get_size j2 then -1
    else
      match lz_json_get_object j2 with
      | none => -1
      | some j2_map => _lz_j_object_compare_loop ents j2_map cb
  | .string s, j2, _ =>
    if lz_json_get_type (.string s) ≠ lz_json_get_type j2 then -1
    else if lz_json_get_size (.string s) ≠ lz_json_get_size j2 then -1
    else
      match lz_json_get_string j2 with
      | none => -1
      | some j2_str => if cstr s ≠ cstr j2_str then -1 else 0
  | .boolean b, j2, _ =>
    if lz_json_get_type (.boolean b) ≠ lz_json_get_type j2 then -1
    else if lz_json_get_size (.boolean b) ≠ lz_json_get_size j2 then -1
    else if b ≠ lz_json_get_boolean j2 then -1
    else 0
  | .null, j2, _ =>
    if lz_json_get_type .null ≠ lz_json_get_type j2 then -1
    else if lz_json_get_size .null ≠ lz_json_get_size j2 then -1
    else 0
/-- The `for` loop of `_lz_j_array_compare` over the elements of `j1` from
`elem` on; `idx` is the position looked up in `j2_array`. -/
def _lz_j_array_compare_loop :
    List lz_json → List lz_json → Nat → Option lz_json_key_filtercb → Int
  | [], _, _, _ => 0
  | j1_val :: rest, j2_array, idx, cb =>
    match lz_tailq_get_at_index j2_array idx with
    | none => -1
    | some j2_val =>
      if _lz_j_compare j1_val j2_val cb = -1 then -1
      else _lz_j_array_compare_loop rest j2_array (idx + 1) cb
/-- The `for` loop of `_lz_j_object_compare` over the entries of `j1` from
`ent` on. -/
def _lz_j_object_compare_loop :
    List (List Nat × lz_json) → List (List Nat × lz_json) → Option lz_json_key_filtercb → Int
  | [], _, _ => 0
  | (key, j1_val) :: rest, j2_map, cb =>
    if key_filtered cb key j1_val then _lz_j_object_compare_loop rest j2_map cb
    else
      match lz_kvmap_find j2_map key with
      | none => -1
      | some j2_val =>
        if _lz_j_compare j1_val j2_val cb = -1 then -1
        else _lz_j_object_compare_loop rest j2_map cb
end

/-- `lz_json_compare(j1, j2, cb)` for non-null values. -/
def lz_json_compare (j1 j2 : lz_json) (cb : Option lz_json_key_filtercb) : Int :=
  _lz_j_compare j1 j2 cb


/-! ## Reference notions used to state the properties -/

/-- The decimal integer denoted by a run of ASCII digits, most significant
digit first: the digit at distance `k` from the end counts `10 ^ k`. -/
def decimal_value : List Nat → Nat
  | [] => 0
  | d :: ds => (d - 48) * 10 ^ ds.length + decimal_value ds


/-- The variables of `lz_json_path_get` after its loop has processed the path
bytes `pre` (none of them the terminating zero) starting from `v`; `none`
when the loop has returned `NULL` on the way. -/
def lz_json_path_get_scan : List Nat → path_vars → Option path_vars
  | [], v => some v
  | ch :: rest, v =>
    match lz_json_path_get_step v ch with
    | none => none
    | some v1 => lz_json_path_get_scan rest v1

/-- The variables of `lz_json_path_get` on entry to its loop. -/
def lz_json_path_get_init (js : lz_json) : path_vars :=
  { prev := js, moved := false, buf := [], state := .path_state_reading_key }


/-- The key `timestamp` of the comparator-filter property. -/
def timestamp_key : List Nat := bytes "timestamp"


/-- The text `_lz_j_escape_string` writes for one byte of a payload. -/
def escaped_byte (ch : Nat) : List Nat :=
  if ch = 10 then [92, 110]
  else if ch = 34 then [92, 34]
  else if ch = 9 then [92, 116]
  else if ch = 13 then [92, 114]
  else if ch = 92 then [92, 92]
  else [ch]

/-- The text `_lz_j_escape_string` writes for a payload. -/
def escaped_text : List Nat → List Nat
  | [] => []
  | ch :: rest => escaped_byte ch ++ escaped_text rest

/-- The byte that comes back for a payload byte once it was escaped by the
serializer and read by `lz_json_parse_string`, which stores the byte after a
backslash as it is: newline, tab and carriage return come back as the letters
`n`, `t` and `r`, every other byte as itself. -/
def reparsed_byte (ch : Nat) : Nat :=
  if ch = 10 then 110 else if ch = 9 then 116 else if ch = 13 then 114 else ch

/-- The write target after `src` was stored at the write offset. -/
def jbuf_put (j : __jbuf) (src : List Nat) : __jbuf :=
  { j with buf := j.buf ++ src, buf_idx := j.buf_idx + src.length,
           written := j.written + src.length }


mutual
/-- The invariant "keys unique" of the data model (spec 3), for a whole tree:
in every Object of the tree no key is stored twice. -/
def keys_unique : lz_json → Bool
  | .object ents => decide ((ents.map Prod.fst).Nodup) && keys_unique_ents ents
  | .array elems => keys_unique_list elems
  | _ => true
/-- The invariant `keys_unique` for every element of a sequence. -/
def keys_unique_list : List lz_json → Bool
  | [] => true
  | v :: rest => keys_unique v && keys_unique_list rest
/-- The invariant `keys_unique` for every value of a list of entries. -/
def keys_unique_ents : List (List Nat × lz_json) → Bool
  | [] => true
  | (_, v) :: rest => keys_unique v && keys_unique_ents rest
end


/-- The boolean parser the spec asks a reimplementation to use instead of the
masked-word fast path: plain byte comparison.  Boolean true when the span has
at least 4 bytes and starts with `true`, Boolean false when it has at least 5
bytes and starts with `false`, absent otherwise. -/
def parse_boolean_plain (data : List Nat) : Option lz_json :=
  if 4 ≤ data.length ∧ data.take 4 = [116, 114, 117, 101] then some (.boolean true)
  else if 5 ≤ data.length ∧ data.take 5 = [102, 97, 108, 115, 101] then some (.boolean false)
  else none


/-- The scan of `lz_json_parse_string_loop` without its scratch-exhaustion
test `buf_idx >= buflen`; the two agree whenever the scratch buffer has room
for the bytes still to be read (`lz_json_parse_string_loop_eq_scan`). -/
def string_scan : List Nat → Nat → List Nat → Bool → Option lz_json × Nat
  | [], i, _, _ => (none, i)
  | ch :: rest, i, buf, escaped =>
    if !lz_isascii ch then (none, i)
    else if escaped then
      if is_escape_char ch then string_scan rest (i + 1) (buf ++ [ch]) false
      else (none, i)
    else if ch = 92 then string_scan rest (i + 1) buf true
    else if ch = 34 then (some (.string buf), i + 1)
    else string_scan rest (i + 1) (buf ++ [ch]) false


/-- The scratch buffer and the escape flag of `lz_json_parse_string` after its
loop has read the bytes `pre` starting from `(buf, escaped)`; `none` when the
loop has ended on the way (closing quote or error). -/
def string_scan_to : List Nat → List Nat → Bool → Option (List Nat × Bool)
  | [], buf, escaped => some (buf, escaped)
  | ch :: rest, buf, escaped =>
    if !lz_isascii ch then none
    else if escaped then
      if is_escape_char ch then string_scan_to rest (buf ++ [ch]) false
      else none
    else if ch = 92 then string_scan_to rest buf true
    else if ch = 34 then none
    else string_scan_to rest (buf ++ [ch]) false


/-- The canonical decimal representation of `n` as ASCII bytes, most
significant digit first: the single digit `0` for zero, no leading zero
otherwise. -/
def canonical_decimal (n : Nat) : List Nat :=
  if n = 0 then [48] else (Nat.digits 10 n).reverse.map (fun d => 48 + d)


mutual
/-- The text of a value as spec 4.3 lays it out: a Number as the text
`_addbuf_number` builds for it, a String between quotes with its payload
escaped, `true`, `false`, `null`, an Array between brackets and an Object
between braces. -/
def json_text : lz_json → List Nat
  | .number n => _addbuf_number_text n
  | .array elems => 91 :: (json_text_elems elems ++ [93])
  | .object ents => 123 :: (json_text_ents ents ++ [125])
  | .string s => 34 :: (escaped_text s ++ [34])
  | .boolean b => if b = true then bytes "true" else bytes "false"
  | .null => bytes "null"
/-- The texts of the elements of an Array in sequence order, with one `','`
between consecutive elements and none after the last. -/
def json_text_elems : List lz_json → List Nat
  | [] => []
  | v :: rest => json_text v ++ ((if rest.isEmpty then [] else [44]) ++ json_text_elems rest)
/-- The texts of the entries of an Object in map order, each a quote, the key
bytes, a quote, `':'` and the text of the value, with one `','` between
consecutive entries and none after the last. -/
def json_text_ents : List (List Nat × lz_json) → List Nat
  | [] => []
  | (key, v) :: rest =>
    34 :: (key ++ (34 :: 58 :: (json_text v
      ++ ((if rest.isEmpty then [] else [44]) ++ json_text_ents rest))))
end


/-- The invariant of a fixed-capacity write target: the write offset
`buf_idx` is within the capacity `buf_len`, the written count equals the write
offset, and the bytes stored are exactly the positions below the offset. -/
def jbuf_fixed_inv (j : __jbuf) : Prop :=
  j.dynamic = 0 ∧ j.buf_idx ≤ j.buf_len ∧ j.written = (j.buf_idx : Int)
    ∧ j.buf.length = j.buf_idx

instance jbuf_fixed_inv_decidable (j : __jbuf) : Decidable (jbuf_fixed_inv j) := by
  unfold jbuf_fixed_inv
  infer_instance

/-- What a writer called on the fixed-capacity target `j` may return: the
target keeps its invariant, its capacity and its escape flag, and the writer
either fails with `-1` or returns 0 having stored exactly `txt`, which then
fitted into the capacity. -/
def jbuf_step (j : __jbuf) (r : Int × __jbuf) (txt : List Nat) : Prop :=
  jbuf_fixed_inv r.2 ∧ r.2.escape = j.escape ∧ r.2.buf_len = j.buf_len
    ∧ (r.1 = -1 ∨ (r = (0, jbuf_put j txt) ∧ j.buf_idx + txt.length ≤ j.buf_len))


/-- The width of `int` arithmetic: bit patterns are taken modulo `2 ^ 32`. -/
def INT_MOD : Nat := 2 ^ 32

/-- The conversion of an `int` to `size_t` that the comparison
`buf_idx >= buflen` of `lz_json_parse_string` performs; `x` is the 32-bit
pattern of the `int`, a pattern of `2 ^ 31` or above is a negative number and
is sign-extended to 64 bits. -/
def int_to_size_t (x : Nat) : Nat :=
  if x < 2 ^ 31 then x else x + (SIZE_MOD - INT_MOD)

/-- The `for` loop of `lz_json_parse_string` with the scratch write index
carried as the `int buf_idx` it is in the source: `buf_idx` is the 32-bit
pattern of the index, `buf_idx++` past `INT_MAX` is taken to wrap, and the
test `buf_idx >= buflen` compares the index converted to `size_t`.  `buf`
holds the bytes stored so far and `_lz_j_string_new(buf, buf_idx)` takes the
first `buf_idx` of them; `lz_json_parse_string_loop` is this loop with the
index read off as `length buf`. -/
def lz_json_parse_string_loop_int (buflen : Nat) :
    List Nat → Nat → List Nat → Nat → Bool → Option lz_json × Nat
  | [], i, _, _, _ => (none, i)
  | ch :: rest, i, buf, buf_idx, escaped =>
    if int_to_size_t buf_idx ≥ buflen then (none, i)
    else if !lz_isascii ch then (none, i)
    else if escaped then
      if is_escape_char ch then
        lz_json_parse_string_loop_int buflen rest (i + 1) (buf ++ [ch])
          ((buf_idx + 1) % INT_MOD) false
      else (none, i)
    else if ch = 92 then lz_json_parse_string_loop_int buflen rest (i + 1) buf buf_idx true
    else if ch = 34 then (some (.string (buf.take (int_to_size_t buf_idx))), i + 1)
    else
      lz_json_parse_string_loop_int buflen rest (i + 1) (buf ++ [ch])
        ((buf_idx + 1) % INT_MOD) false

/-- `lz_json_parse_string(data, len, n_read)` with the `int` write index. -/
def lz_json_parse_string_int (data : List Nat) : Option lz_json × Nat :=
  match data with
  | [] => (none, 0)
  | c :: rest =>
    if c ≠ 34 then (none, 0)
    else lz_json_parse_string_loop_int (data.length + 128) rest 0 [] 0 false

/-- The variables `(buf, buf_idx, escaped)` of `lz_json_parse_string_loop_int`
at the top of the iteration it reaches after the bytes `pre`; `none` when the
loop was left on the way, by the closing quote, by an error or by the
scratch-exhaustion test. -/
def lz_json_parse_string_int_state (buflen : Nat) :
    List Nat → List Nat → Nat → Bool → Option (List Nat × Nat × Bool)
  | [], buf, buf_idx, escaped => some (buf, buf_idx, escaped)
  | ch :: rest, buf, buf_idx, escaped =>
    if int_to_size_t buf_idx ≥ buflen then none
    else if !lz_isascii ch then none
    else if escaped then
      if is_escape_char ch then
        lz_json_parse_string_int_state buflen rest (buf ++ [ch]) ((buf_idx + 1) % INT_MOD) false
      else none
    else if ch = 92 then lz_json_parse_string_int_state buflen rest buf buf_idx true
    else if ch = 34 then none
    else lz_json_parse_string_int_state buflen rest (buf ++ [ch]) ((buf_idx + 1) % INT_MOD) false


/-! ## Concrete values used in the statements below -/

/-- The text of the end-to-end example of the spec. -/
def example_text : List Nat :=
  bytes "\x7b\"name\":\"ok\",\"count\":3,\"items\":[1,2,3],\"flag\":true,\"extra\":null\x7d"

/-- The tree of `{"a":{"b":[1,2,3]}}`. -/
def path_example_tree : lz_json :=
  .object [(bytes "a", .object [(bytes "b", .array [.number 1, .number 2, .number 3])])]

/-! ## The nesting bound of the value dispatcher is never exhausted -/

theorem lz_json_parse_array_loop_fuel (pv : List Nat → Option lz_json × Nat)
    (data : List Nat) (len : Nat) :
    ∀ (fuel i : Nat) (state : lz_j_arr_state) (js : List lz_json) (end_ch : Nat),
      len ≤ i + fuel →
      lz_json_parse_array_loop pv data len (fuel + 1) i state js end_ch
        = lz_json_parse_array_loop pv data len fuel i state js end_ch := by
  intro fuel
  induction fuel with
  | zero =>
    intro i state js end_ch h
    have hi : ¬ i < len := by omega
    simp [lz_json_parse_array_loop, hi]
  | succ n ih =>
    intro i state js end_ch h
    conv_lhs => rw [lz_json_parse_array_loop]
    conv_rhs => rw [lz_json_parse_array_loop]
    by_cases hi : i < len
    · simp only [hi, if_true]
      have e1 : ∀ st js2 e, lz_json_parse_array_loop pv data len (n + 1) (i + 1) st js2 e
          = lz_json_parse_array_loop pv data len n (i + 1) st js2 e :=
        fun st js2 e => ih (i + 1) st js2 e (by omega)
      have e2 : ∀ b st js2 e, lz_json_parse_array_loop pv data len (n + 1) (i + b + 1) st js2 e
          = lz_json_parse_array_loop pv data len n (i + b + 1) st js2 e :=
        fun b st js2 e => ih (i + b + 1) st js2 e (by omega)
      simp only [e1, e2]
    · simp only [hi, if_false]

theorem lz_json_parse_object_loop_fuel (pv : List Nat → Option lz_json × Nat)
    (data : List Nat) (len : Nat) :
    ∀ (fuel i : Nat) (state : lz_j_obj_state) (js : List (List Nat × lz_json))
      (key : List Nat) (end_ch : Nat),
      len ≤ i + fuel →
      lz_json_parse_object_loop pv data len (fuel + 1) i state js key end_ch
        = lz_json_parse_object_loop pv data len fuel i state js key end_ch := by
  intro fuel
  induction fuel with
  | zero =>
    intro i state js key end_ch h
    have hi : ¬ i < len := by omega
    simp [lz_json_parse_object_loop, hi]
  | succ n ih =>
    intro i state js key end_ch h
    conv_lhs => rw [lz_json_parse_object_loop]
    conv_rhs => rw [lz_json_parse_object_loop]
    by_cases hi : i < len
    · simp only [hi, if_true]
      have e1 : ∀ st js2 k e, lz_json_parse_object_loop pv data len (n + 1) (i + 1) st js2 k e
          = lz_json_parse_object_loop pv data len n (i + 1) st js2 k e :=
        fun st js2 k e => ih (i + 1) st js2 k e (by omega)
      have e2 : ∀ b st js2 k e,
          lz_json_parse_object_loop pv data len (n + 1) (i + b + 1) st js2 k e
            = lz_json_parse_object_loop pv data len n (i + b + 1) st js2 k e :=
        fun b st js2 k e => ih (i + b + 1) st js2 k e (by omega)
      simp only [e1, e2]
    · simp only [hi, if_false]

theorem lz_json_parse_buf_loop_fuel (data : List Nat) (len : Nat) :
    ∀ (fuel i : Nat) (state : lz_j_state) (js : Option lz_json),
      len ≤ i + fuel →
      lz_json_parse_buf_loop data len (fuel + 1) i state js
        = lz_json_parse_buf_loop data len fuel i state js := by
  intro fuel
  induction fuel with
  | zero =>
    intro i state js h
    have hi : ¬ i < len := by omega
    simp [lz_json_parse_buf_loop, hi]
  | succ n ih =>
    intro i state js h
    conv_lhs => rw [lz_json_parse_buf_loop]
    conv_rhs => rw [lz_json_parse_buf_loop]
    by_cases hi : i < len
    · simp only [hi, if_true]
      have e1 : ∀ st js2, lz_json_parse_buf_loop data len (n + 1) (i + 1) st js2
          = lz_json_parse_buf_loop data len n (i + 1) st js2 :=
        fun st js2 => ih (i + 1) st js2 (by omega)
      have e2 : ∀ b st js2, lz_json_parse_buf_loop data len (n + 1) (i + b + 1) st js2
          = lz_json_parse_buf_loop data len n (i + b + 1) st js2 :=
        fun b st js2 => ih (i + b + 1) st js2 (by omega)
      simp only [e1, e2]
    · simp only [hi, if_false]

theorem lz_json_parse_array_loop_congr (pv1 pv2 : List Nat → Option lz_json × Nat)
    (data : List Nat) (len : Nat) (h : ∀ i, pv1 (data.drop i) = pv2 (data.drop i)) :
    ∀ (fuel i : Nat) (state : lz_j_arr_state) (js : List lz_json) (end_ch : Nat),
      lz_json_parse_array_loop pv1 data len fuel i state js end_ch
        = lz_json_parse_array_loop pv2 data len fuel i state js end_ch := by
  intro fuel
  induction fuel with
  | zero => intro i state js end_ch; rfl
  | succ n ih =>
    intro i state js end_ch
    simp only [lz_json_parse_array_loop, h i, ih]

theorem lz_json_parse_object_loop_congr (pv1 pv2 : List Nat → Option lz_json × Nat)
    (data : List Nat) (len : Nat) (h : ∀ i, pv1 (data.drop i) = pv2 (data.drop i)) :
    ∀ (fuel i : Nat) (state : lz_j_obj_state) (js : List (List Nat × lz_json))
      (key : List Nat) (end_ch : Nat),
      lz_json_parse_object_loop pv1 data len fuel i state js key end_ch
        = lz_json_parse_object_loop pv2 data len fuel i state js key end_ch := by
  intro fuel
  induction fuel with
  | zero => intro i state js key end_ch; rfl
  | succ n ih =>
    intro i state js key end_ch
    simp only [lz_json_parse_object_loop, h i, ih]

theorem lz_json_parse_array_with_congr (pv1 pv2 : List Nat → Option lz_json × Nat)
    (c : Nat) (rest : List Nat) (h : ∀ i, pv1 (rest.drop i) = pv2 (rest.drop i)) :
    lz_json_parse_array_with pv1 (c :: rest) = lz_json_parse_array_with pv2 (c :: rest) := by
  simp only [lz_json_parse_array_with, lz_json_parse_array_loop_congr pv1 pv2 rest _ h]

theorem lz_json_parse_object_with_congr (pv1 pv2 : List Nat → Option lz_json × Nat)
    (c : Nat) (rest : List Nat) (h : ∀ i, pv1 (rest.drop i) = pv2 (rest.drop i)) :
    lz_json_parse_object_with pv1 (c :: rest) = lz_json_parse_object_with pv2 (c :: rest) := by
  simp only [lz_json_parse_object_with, lz_json_parse_object_loop_congr pv1 pv2 rest _ h]

theorem lz_json_parse_value_fuel_cons (depth c : Nat) (rest : List Nat) :
    lz_json_parse_value_fuel (depth + 1) (c :: rest)
      = if c = 34 then lz_json_parse_string (c :: rest)
        else if c = 123 then
          lz_json_parse_object_with (lz_json_parse_value_fuel depth) (c :: rest)
        else if c = 91 then
          lz_json_parse_array_with (lz_json_parse_value_fuel depth) (c :: rest)
        else if isdigit c then lz_json_parse_number (c :: rest)
        else if c = 116 ∨ c = 102 then lz_json_parse_boolean (c :: rest)
        else if c = 110 then lz_json_parse_null (c :: rest)
        else (none, 0) := rfl

theorem lz_json_parse_value_fuel_succ (depth : Nat) :
    ∀ data : List Nat, data.length ≤ depth →
      lz_json_parse_value_fuel (depth + 1) data = lz_json_parse_value_fuel depth data := by
  induction depth with
  | zero =>
    intro data h
    have : data = [] := List.length_eq_zero.mp (Nat.le_zero.mp h)
    subst this
    rfl
  | succ k ih =>
    intro data h
    cases data with
    | nil => rfl
    | cons c rest =>
      have hrest : ∀ i, lz_json_parse_value_fuel (k + 1) (rest.drop i)
          = lz_json_parse_value_fuel k (rest.drop i) := by
        intro i
        apply ih
        simp only [List.length_cons] at h
        simp only [List.length_drop]
        omega
      rw [lz_json_parse_value_fuel_cons, lz_json_parse_value_fuel_cons,
        lz_json_parse_array_with_congr _ _ c rest hrest,
        lz_json_parse_object_with_congr _ _ c rest hrest]

/-- Fuel adequacy: any nesting bound of at least the length of the span gives
the result of `lz_json_parse_value`. -/
theorem lz_json_parse_value_fuel_stable (depth : Nat) :
    ∀ data : List Nat, data.length ≤ depth →
      lz_json_parse_value_fuel depth data = lz_json_parse_value data := by
  induction depth with
  | zero =>
    intro data h
    have : data = [] := List.length_eq_zero.mp (Nat.le_zero.mp h)
    subst this
    rfl
  | succ k ih =>
    intro data h
    by_cases hk : data.length = k + 1
    · simp only [lz_json_parse_value, hk]
    · rw [lz_json_parse_value_fuel_succ k data (by omega)]
      exact ih data (by omega)

/-- The dispatcher unfolded once: the nested calls of the array and object
parsers are calls of `lz_json_parse_value` itself. -/
theorem lz_json_parse_value_cons (c : Nat) (rest : List Nat) :
    lz_json_parse_value (c :: rest)
      = if c = 34 then lz_json_parse_string (c :: rest)
        else if c = 123 then lz_json_parse_object (c :: rest)
        else if c = 91 then lz_json_parse_array (c :: rest)
        else if isdigit c then lz_json_parse_number (c :: rest)
        else if c = 116 ∨ c = 102 then lz_json_parse_boolean (c :: rest)
        else if c = 110 then lz_json_parse_null (c :: rest)
        else (none, 0) := by
  have hrest : ∀ i, lz_json_parse_value_fuel rest.length (rest.drop i)
      = lz_json_parse_value (rest.drop i) := by
    intro i
    apply lz_json_parse_value_fuel_stable
    simp only [List.length_drop]
    omega
  rw [lz_json_parse_value, List.length_cons, lz_json_parse_value_fuel_cons,
    lz_json_parse_array_with_congr _ lz_json_parse_value c rest hrest,
    lz_json_parse_object_with_congr _ lz_json_parse_value c rest hrest]
  rfl


/-! ## Round trip and end-to-end (C1, C2) -/

/-- Claim C1, evaluated at the tree `[null, 1]`: `lz_json_to_buffer` with a
64-byte buffer writes the 8 bytes `[null,1]`, and `lz_json_parse_buf` on these
bytes returns `NULL`, so the round trip does not yield a tree at all. -/
theorem C1_round_trip_null_then_number :
    lz_json_to_buffer (.array [.null, .number 1]) 64 = (8, bytes "[null,1]")
      ∧ lz_json_parse_buf (bytes "[null,1]") = (none, 5) := by
  constructor <;> rfl

/-- Claim C2, evaluated at the text of the end-to-end example:
`lz_json_parse_buf` returns `NULL` (after 63 bytes), because `lz_json_parse_null`
reports 4 bytes where the object scanner expects one less and so steps over
the closing brace; with one more byte between `null` and the brace the same
text is accepted. -/
theorem C2_end_to_end_text_is_rejected :
    lz_json_parse_buf example_text = (none, 63)
      ∧ (lz_json_parse_buf
          (bytes "\x7b\"name\":\"ok\",\"count\":3,\"items\":[1,2,3],\"flag\":true,\"extra\":null \x7d")).1
        = some (.object [(bytes "name", .string (bytes "ok")), (bytes "count", .number 3),
            (bytes "items", .array [.number 1, .number 2, .number 3]),
            (bytes "flag", .boolean true), (bytes "extra", .null)]) := by
  constructor <;> rfl

/-! ## Path query: the example of the spec (C4) -/

/-- Claim C4 fails at its own example: the parser builds `path_example_tree`
from the text `{"a":{"b":[1,2,3]}}`, and on that tree `lz_json_path_get`
returns `NULL` for the path `a.b[1]`.  At `'['` the scanner only changes its
state: the pending key `b` is not looked up, the digit is appended to it, and
the index is applied to the object stored under `a`. -/
theorem C4_key_then_bracket_is_absent :
    (lz_json_parse_buf (bytes "\x7b\"a\":\x7b\"b\":[1,2,3]\x7d\x7d")).1 = some path_example_tree
      ∧ lz_json_path_get path_example_tree (bytes "a.b[1]") = none := by
  constructor <;> rfl

/-! ## Parser: unterminated input, trailing content, element order (C7, C8, C9) -/

/-- Claim C7, evaluated at the span `[[]`, whose opening bracket at position 0
is never closed: `lz_json_parse_array` returns an Array (holding one empty
Array) instead of `NULL`, because after the child value the test
`(i + 1) == len` takes the last byte of the child, a `']'`, as the end
character.  The object parser rejects the corresponding span. -/
theorem C7_unterminated_array_is_accepted :
    lz_json_parse_array (bytes "[[]") = (some (.array [.array []]), 2)
      ∧ (lz_json_parse_object (bytes "\x7b\"a\":\x7b\x7d")).1 = none := by
  constructor <;> rfl

/-- Claim C8, evaluated at `s = [null]` and `t` a line feed:
`lz_json_parse_buf` succeeds on `s` and returns `NULL` on `s` followed by `t`
(and likewise for `t = x`). -/
theorem C8_trailing_byte_breaks_parse :
    (lz_json_parse_buf (bytes "[null]")).1 = some (.array [.null])
      ∧ (lz_json_parse_buf (bytes "[null]\n")).1 = none
      ∧ (lz_json_parse_buf (bytes "[null]x")).1 = none := by
  refine ⟨?_, ?_, ?_⟩ <;> rfl

/-- Claim C9, evaluated at the value texts `null` and `1`: the dispatcher
accepts `null` followed by a comma and `1` followed by a bracket, yet
`lz_json_parse_array` returns `NULL` on `[null,1]`; with the two texts in the
other order the array is parsed. -/
theorem C9_array_with_null_first_is_rejected :
    (lz_json_parse_value (bytes "null,")).1 = some .null
      ∧ (lz_json_parse_value (bytes "1]")).1 = some (.number 1)
      ∧ (lz_json_parse_array (bytes "[null,1]")).1 = none
      ∧ (lz_json_parse_array (bytes "[1,null]")).1 = some (.array [.number 1, .null]) := by
  refine ⟨?_, ?_, ?_, ?_⟩ <;> rfl


/-! ## Number parser (C10) -/

theorem lz_atoi_foldl (ds : List Nat) (acc : Nat) :
    ds.foldl (fun value ch => value * 10 + (ch - 48)) acc
      = acc * 10 ^ ds.length + decimal_value ds := by
  induction ds generalizing acc with
  | nil => simp [decimal_value]
  | cons d ds ih =>
    simp only [List.foldl_cons, List.length_cons, decimal_value, ih]
    ring

theorem lz_atoi_eq_decimal_value (ds : List Nat) : lz_atoi ds = decimal_value ds := by
  simp [lz_atoi, lz_atoi_foldl]

theorem lz_json_parse_number_loop_digits (len : Nat) (hlen : len ≠ 1) (ds : List Nat)
    (hds : ∀ c ∈ ds, isdigit c = true) (d : Nat) (hd : isdigit d = false) (rest : List Nat)
    (i : Nat) (buf : List Nat) :
    lz_json_parse_number_loop len (ds ++ d :: rest) i buf
      = (some (.number (lz_atoi (buf ++ ds) % UINT_MOD)), i + ds.length) := by
  induction ds generalizing i buf with
  | nil => simp [lz_json_parse_number_loop, hd]
  | cons c ds ih =>
    have hc : isdigit c = true := hds c (List.mem_cons_self c ds)
    have hrest : ∀ x ∈ ds, isdigit x = true := fun x hx => hds x (List.mem_cons_of_mem c hx)
    have hstep : lz_json_parse_number_loop len (c :: (ds ++ d :: rest)) i buf
        = lz_json_parse_number_loop len (ds ++ d :: rest) (i + 1) (buf ++ [c]) := by
      simp [lz_json_parse_number_loop, hc, hlen]
    rw [List.cons_append, hstep, ih hrest (i + 1) (buf ++ [c])]
    simp [List.append_assoc, Nat.add_assoc, Nat.add_comm 1]

/-- Claim C10: on a span that begins with a non-empty run `ds` of ASCII digits
followed by a byte `d` that is not a digit (and any further bytes `rest`), if
the decimal value of the run is below `2 ^ 32` then `lz_json_parse_number`
returns the Number whose value is that decimal integer. -/
theorem C10_parse_number_value (ds : List Nat) (d : Nat) (rest : List Nat)
    (hne : ds ≠ []) (hds : ∀ c ∈ ds, isdigit c = true) (hd : isdigit d = false)
    (hfit : decimal_value ds < 2 ^ 32) :
    (lz_json_parse_number (ds ++ d :: rest)).1 = some (.number (decimal_value ds)) := by
  obtain ⟨c, cs, rfl⟩ := List.exists_cons_of_ne_nil hne
  have hlen : ((c :: cs) ++ d :: rest).length ≠ 1 := by simp
  have h := lz_json_parse_number_loop_digits _ hlen (c :: cs) hds d hd rest 0 []
  simp only [List.nil_append] at h
  simp only [lz_json_parse_number, List.cons_append] at h ⊢
  rw [h, lz_atoi_eq_decimal_value, UINT_MOD, Nat.mod_eq_of_lt hfit]

/-- Witness for C10: the spans `123,` and `0]` give the Numbers 123 and 0. -/
theorem C10_parse_number_value_witness :
    (lz_json_parse_number (bytes "123,")).1 = some (.number 123)
      ∧ (lz_json_parse_number (bytes "0]")).1 = some (.number 0) :=
  ⟨C10_parse_number_value (bytes "123") 44 [] (by decide) (by decide) (by decide) (by decide),
   C10_parse_number_value (bytes "0") 93 [] (by decide) (by decide) (by decide) (by decide)⟩


/-! ## Path query: a key, a dot and a bracketed index (C4) -/

theorem lz_tailq_get_at_index_eq_get (elems : List lz_json) (i : Nat) (hi : i < elems.length) :
    lz_tailq_get_at_index elems i = some (elems.get ⟨i, hi⟩) := by
  induction elems generalizing i with
  | nil => simp at hi
  | cons e rest ih =>
    cases i with
    | zero => rfl
    | succ n =>
      simp only [lz_tailq_get_at_index, List.get_cons_succ]
      exact ih n (by simpa using hi)

theorem lz_json_path_get_loop_key (ks tail : List Nat)
    (hks : ∀ c ∈ ks, c ≠ 0 ∧ c ≠ 46 ∧ c ≠ 91) (prev : lz_json) (moved : Bool) (buf : List Nat) :
    lz_json_path_get_loop (ks ++ tail)
        { prev := prev, moved := moved, buf := buf, state := .path_state_reading_key }
      = lz_json_path_get_loop tail
        { prev := prev, moved := moved, buf := buf ++ ks, state := .path_state_reading_key } := by
  induction ks generalizing buf with
  | nil => simp
  | cons c ks ih =>
    obtain ⟨h0, h46, h91⟩ := hks c (List.mem_cons_self c ks)
    have hrest : ∀ x ∈ ks, x ≠ 0 ∧ x ≠ 46 ∧ x ≠ 91 :=
      fun x hx => hks x (List.mem_cons_of_mem c hx)
    rw [List.cons_append, lz_json_path_get_loop]
    simp only [lz_json_path_get_step, h0, h46, h91, if_false, or_self]
    rw [ih hrest (buf ++ [c])]
    simp

theorem lz_json_path_get_loop_index (ds tail : List Nat)
    (hds : ∀ c ∈ ds, c ≠ 0 ∧ c ≠ 93) (prev : lz_json) (moved : Bool) (buf : List Nat) :
    lz_json_path_get_loop (ds ++ tail)
        { prev := prev, moved := moved, buf := buf, state := .path_state_reading_array }
      = lz_json_path_get_loop tail
        { prev := prev, moved := moved, buf := buf ++ ds, state := .path_state_reading_array } := by
  induction ds generalizing buf with
  | nil => simp
  | cons c ds ih =>
    obtain ⟨h0, h93⟩ := hds c (List.mem_cons_self c ds)
    have hrest : ∀ x ∈ ds, x ≠ 0 ∧ x ≠ 93 :=
      fun x hx => hds x (List.mem_cons_of_mem c hx)
    rw [List.cons_append, lz_json_path_get_loop]
    simp only [lz_json_path_get_step, h0, h93, if_false]
    rw [ih hrest (buf ++ [c])]
    simp

theorem isdigit_ne (c : Nat) (h : isdigit c = true) : c ≠ 0 ∧ c ≠ 93 := by
  simp only [isdigit, Bool.and_eq_true, decide_eq_true_eq] at h
  omega

/-- Claim C4 as amended: in a root object whose key `ka` maps to an object
whose key `kb` maps to an array with more than `i` elements, the path
`ka.kb.[i]`, with a `'.'` between the key and the bracket and the index
written as a run `ds` of digits of decimal value `i`, resolves to the array
element at position `i`. -/
theorem C4_path_get_key_dot_index (ents inner : List (List Nat × lz_json))
    (elems : List lz_json) (ka kb ds : List Nat) (i : Nat)
    (hka : ∀ c ∈ ka, c ≠ 0 ∧ c ≠ 46 ∧ c ≠ 91) (hkb : ∀ c ∈ kb, c ≠ 0 ∧ c ≠ 46 ∧ c ≠ 91)
    (hds : ∀ c ∈ ds, isdigit c = true) (hval : decimal_value ds = i)
    (ha : lz_kvmap_find ents ka = some (.object inner))
    (hb : lz_kvmap_find inner kb = some (.array elems))
    (hi : i < elems.length) :
    lz_json_path_get (.object ents) (ka ++ 46 :: (kb ++ 46 :: 91 :: (ds ++ [93])))
      = some (elems.get ⟨i, hi⟩) := by
  have hpath : (ka ++ 46 :: (kb ++ 46 :: 91 :: (ds ++ [93]))) ++ [0]
      = ka ++ (46 :: (kb ++ (46 :: 91 :: (ds ++ [93, 0])))) := by simp
  have hds2 : ∀ c ∈ ds, c ≠ 0 ∧ c ≠ 93 := fun c hc => isdigit_ne c (hds c hc)
  have hidx := lz_tailq_get_at_index_eq_get elems i hi
  unfold lz_json_path_get
  rw [hpath, lz_json_path_get_loop_key ka _ hka]
  simp only [lz_json_path_get_loop, lz_json_path_get_step, lz_json_get_object, List.nil_append,
    ha]
  simp only [show ¬ ((46 : Nat) = 91) by decide, show ¬ ((46 : Nat) = 0) by decide, if_false,
    or_true, if_true]
  rw [lz_json_path_get_loop_key kb _ hkb]
  simp only [lz_json_path_get_loop, lz_json_path_get_step, lz_json_get_object, List.nil_append,
    hb]
  simp only [show ¬ ((46 : Nat) = 91) by decide, show ¬ ((46 : Nat) = 0) by decide,
    show ¬ ((91 : Nat) = 0) by decide, if_false, or_true, if_true]
  rw [lz_json_path_get_loop_index ds _ hds2]
  simp [lz_json_path_get_loop, lz_json_path_get_step, _array_index, lz_json_get_array,
    lz_atoi_eq_decimal_value, hval, hidx, lz_json_path_get_end]

/-- Witness for C4 as amended: on the tree of `{"a":{"b":[1,2,3]}}` the path
`a.b.[1]` yields the number 2. -/
theorem C4_path_get_key_dot_index_witness :
    lz_json_path_get path_example_tree (bytes "a.b.[1]") = some (.number 2) :=
  C4_path_get_key_dot_index
    [(bytes "a", .object [(bytes "b", .array [.number 1, .number 2, .number 3])])]
    [(bytes "b", .array [.number 1, .number 2, .number 3])]
    [.number 1, .number 2, .number 3] (bytes "a") (bytes "b") (bytes "1") 1
    (by decide) (by decide) (by decide) rfl rfl rfl (by decide)

/-! ## Path query: failed key lookups (C5) -/

theorem lz_json_path_get_loop_append (pre tail : List Nat) (hpre : ∀ c ∈ pre, c ≠ 0)
    (v : path_vars) :
    lz_json_path_get_loop (pre ++ tail) v
      = match lz_json_path_get_scan pre v with
        | none => none
        | some v1 => lz_json_path_get_loop tail v1 := by
  induction pre generalizing v with
  | nil => simp [lz_json_path_get_scan]
  | cons c pre ih =>
    have hc : c ≠ 0 := hpre c (List.mem_cons_self c pre)
    have hrest : ∀ x ∈ pre, x ≠ 0 := fun x hx => hpre x (List.mem_cons_of_mem c hx)
    simp only [List.cons_append, lz_json_path_get_loop, lz_json_path_get_scan]
    cases hstep : lz_json_path_get_step v c with
    | none => rfl
    | some v1 => simp only [hc, if_false]; exact ih hrest v1

/-- Claim C5: let the scan of `lz_json_path_get(js, path)` have processed the
bytes `pre` of the path without returning and be in the state
`path_state_reading_key` with current value `v.prev` and pending key `v.buf`.
If the next byte `ch` ends the key segment (it is `'.'` or the terminating
zero) and `v.prev` is not an object, or is an object without an entry for the
pending key, then `lz_json_path_get` returns `NULL`. -/
theorem C5_path_get_failed_key_lookup (js : lz_json) (path pre : List Nat) (ch : Nat)
    (rest : List Nat) (v : path_vars)
    (hpath : path ++ [0] = pre ++ ch :: rest)
    (hpre : ∀ c ∈ pre, c ≠ 0)
    (hscan : lz_json_path_get_scan pre (lz_json_path_get_init js) = some v)
    (hstate : v.state = .path_state_reading_key)
    (hch : ch = 0 ∨ ch = 46)
    (hfail : lz_json_get_object v.prev = none
      ∨ ∃ object, lz_json_get_object v.prev = some object ∧ lz_kvmap_find object v.buf = none) :
    lz_json_path_get js path = none := by
  have hinit : lz_json_path_get js path
      = lz_json_path_get_loop (path ++ [0]) (lz_json_path_get_init js) := rfl
  rw [hinit, hpath, lz_json_path_get_loop_append pre (ch :: rest) hpre, hscan]
  have hne : ch ≠ 91 := by rcases hch with h | h <;> omega
  have hstep : lz_json_path_get_step v ch = none := by
    rcases hfail with h | ⟨object, h1, h2⟩
    · simp [lz_json_path_get_step, hstate, hne, hch, h]
    · simp [lz_json_path_get_step, hstate, hne, hch, h1, h2]
  simp [lz_json_path_get_loop, hstep]

/-- Witness for C5: on the tree of `{"a":{"b":[1,2,3]}}` the path `a.c` yields
`NULL`, the object stored under `a` having no entry for `c`. -/
theorem C5_path_get_failed_key_lookup_witness :
    lz_json_path_get path_example_tree (bytes "a.c") = none :=
  C5_path_get_failed_key_lookup path_example_tree (bytes "a.c") (bytes "a.c") 0 []
    { prev := .object [(bytes "b", .array [.number 1, .number 2, .number 3])],
      moved := true, buf := bytes "c", state := .path_state_reading_key }
    rfl (by decide) rfl rfl (Or.inl rfl) (Or.inr ⟨_, rfl, rfl⟩)


/-! ## Comparator: a tree with unique keys equals itself -/

theorem lz_tailq_get_at_index_append (pre : List lz_json) (v : lz_json) (rest : List lz_json) :
    lz_tailq_get_at_index (pre ++ v :: rest) pre.length = some v := by
  induction pre with
  | nil => rfl
  | cons p pre ih => simpa [lz_tailq_get_at_index] using ih

theorem lz_kvmap_find_of_mem (ents : List (List Nat × lz_json))
    (hnd : (ents.map Prod.fst).Nodup) (k : List Nat) (v : lz_json) (hm : (k, v) ∈ ents) :
    lz_kvmap_find ents k = some v := by
  induction ents with
  | nil => simp at hm
  | cons e rest ih =>
    obtain ⟨k1, v1⟩ := e
    simp only [List.map_cons, List.nodup_cons] at hnd
    simp only [List.mem_cons, Prod.mk.injEq] at hm
    rcases hm with ⟨rfl, rfl⟩ | hm
    · simp [lz_kvmap_find]
    · have hne : k1 ≠ k := by
        intro h
        subst h
        exact hnd.1 (List.mem_map_of_mem Prod.fst hm)
      simp only [lz_kvmap_find, hne, if_false]
      exact ih hnd.2 hm

mutual
theorem _lz_j_compare_refl : ∀ (v : lz_json) (cb : Option lz_json_key_filtercb),
    keys_unique v = true → _lz_j_compare v v cb = 0
  | .number n, cb, _ => by simp [_lz_j_compare, lz_json_get_number]
  | .array elems, cb, h => by
    simp only [keys_unique] at h
    have := _lz_j_array_compare_loop_refl elems [] cb h
    simpa [_lz_j_compare, lz_json_get_array] using this
  | .object ents, cb, h => by
    simp only [keys_unique, Bool.and_eq_true, decide_eq_true_eq] at h
    have := _lz_j_object_compare_loop_refl ents ents cb
      (fun k v hm => lz_kvmap_find_of_mem ents h.1 k v hm) h.2
    simpa [_lz_j_compare, lz_json_get_object] using this
  | .string s, cb, _ => by simp [_lz_j_compare, lz_json_get_string]
  | .boolean b, cb, _ => by simp [_lz_j_compare, lz_json_get_boolean]
  | .null, cb, _ => by simp [_lz_j_compare]
theorem _lz_j_array_compare_loop_refl : ∀ (suf pre : List lz_json)
    (cb : Option lz_json_key_filtercb), keys_unique_list suf = true →
    _lz_j_array_compare_loop suf (pre ++ suf) pre.length cb = 0
  | [], _, _, _ => by simp [_lz_j_array_compare_loop]
  | v :: rest, pre, cb, h => by
    simp only [keys_unique_list, Bool.and_eq_true] at h
    have hv := _lz_j_compare_refl v cb h.1
    have hrest := _lz_j_array_compare_loop_refl rest (pre ++ [v]) cb h.2
    simp only [List.append_assoc, List.singleton_append, List.length_append,
      List.length_singleton] at hrest
    simp [_lz_j_array_compare_loop, lz_tailq_get_at_index_append, hv, hrest]
theorem _lz_j_object_compare_loop_refl : ∀ (suf full : List (List Nat × lz_json))
    (cb : Option lz_json_key_filtercb),
    (∀ k v, (k, v) ∈ suf → lz_kvmap_find full k = some v) → keys_unique_ents suf = true →
    _lz_j_object_compare_loop suf full cb = 0
  | [], _, _, _, _ => by simp [_lz_j_object_compare_loop]
  | (k, v) :: rest, full, cb, hfind, h => by
    simp only [keys_unique_ents, Bool.and_eq_true] at h
    have hv := _lz_j_compare_refl v cb h.1
    have hrest := _lz_j_object_compare_loop_refl rest full cb
      (fun k2 v2 hm => hfind k2 v2 (List.mem_cons_of_mem _ hm)) h.2
    have hk := hfind k v (List.mem_cons_self _ _)
    simp only [_lz_j_object_compare_loop, hk, hv, hrest]
    simp
end


/-! ## Comparator: the key filter (C6) -/

mutual
theorem _lz_j_compare_range : ∀ (j1 j2 : lz_json) (cb : Option lz_json_key_filtercb),
    _lz_j_compare j1 j2 cb = 0 ∨ _lz_j_compare j1 j2 cb = -1
  | .number n, j2, cb => by
    simp only [_lz_j_compare]; split_ifs <;> simp
  | .array elems, j2, cb => by
    simp only [_lz_j_compare]
    split_ifs
    · simp
    · simp
    · cases lz_json_get_array j2 with
      | none => simp
      | some j2_array => exact _lz_j_array_compare_loop_range elems j2_array 0 cb
  | .object ents, j2, cb => by
    simp only [_lz_j_compare]
    split_ifs
    · simp
    · simp
    · cases lz_json_get_object j2 with
      | none => simp
      | some j2_map => exact _lz_j_object_compare_loop_range ents j2_map cb
  | .string s, j2, cb => by
    simp only [_lz_j_compare]
    split_ifs
    · simp
    · simp
    · cases lz_json_get_string j2 with
      | none => simp
      | some j2_str => simp only []; split_ifs <;> simp
  | .boolean b, j2, cb => by
    simp only [_lz_j_compare]; split_ifs <;> simp
  | .null, j2, cb => by
    simp only [_lz_j_compare]; split_ifs <;> simp
theorem _lz_j_array_compare_loop_range : ∀ (elems j2_array : List lz_json) (idx : Nat)
    (cb : Option lz_json_key_filtercb),
    _lz_j_array_compare_loop elems j2_array idx cb = 0
      ∨ _lz_j_array_compare_loop elems j2_array idx cb = -1
  | [], _, _, _ => by simp [_lz_j_array_compare_loop]
  | j1_val :: rest, j2_array, idx, cb => by
    simp only [_lz_j_array_compare_loop]
    cases lz_tailq_get_at_index j2_array idx with
    | none => simp
    | some j2_val =>
      simp only []
      split_ifs
      · simp
      · exact _lz_j_array_compare_loop_range rest j2_array (idx + 1) cb
theorem _lz_j_object_compare_loop_range : ∀ (ents j2_map : List (List Nat × lz_json))
    (cb : Option lz_json_key_filtercb),
    _lz_j_object_compare_loop ents j2_map cb = 0
      ∨ _lz_j_object_compare_loop ents j2_map cb = -1
  | [], _, _ => by simp [_lz_j_object_compare_loop]
  | (key, j1_val) :: rest, j2_map, cb => by
    simp only [_lz_j_object_compare_loop]
    split_ifs
    · exact _lz_j_object_compare_loop_range rest j2_map cb
    · cases lz_kvmap_find j2_map key with
      | none => simp
      | some j2_val =>
        simp only []
        split_ifs
        · simp
        · exact _lz_j_object_compare_loop_range rest j2_map cb
end

mutual
theorem _lz_j_compare_filter_mono : ∀ (j1 j2 : lz_json) (cb : Option lz_json_key_filtercb),
    _lz_j_compare j1 j2 none ≠ -1 → _lz_j_compare j1 j2 cb ≠ -1
  | .number n, j2, cb, h => by
    simp only [_lz_j_compare] at h ⊢; exact h
  | .array elems, j2, cb, h => by
    simp only [_lz_j_compare] at h ⊢
    split_ifs at h ⊢
    · exact h
    · exact h
    · cases hj : lz_json_get_array j2 with
      | none => simp [hj] at h
      | some j2_array =>
        simp only [hj] at h ⊢
        exact _lz_j_array_compare_loop_filter_mono elems j2_array 0 cb h
  | .object ents, j2, cb, h => by
    simp only [_lz_j_compare] at h ⊢
    split_ifs at h ⊢
    · exact h
    · exact h
    · cases hj : lz_json_get_object j2 with
      | none => simp [hj] at h
      | some j2_map =>
        simp only [hj] at h ⊢
        exact _lz_j_object_compare_loop_filter_mono ents j2_map cb h
  | .string s, j2, cb, h => by
    simp only [_lz_j_compare] at h ⊢; exact h
  | .boolean b, j2, cb, h => by
    simp only [_lz_j_compare] at h ⊢; exact h
  | .null, j2, cb, h => by
    simp only [_lz_j_compare] at h ⊢; exact h
theorem _lz_j_array_compare_loop_filter_mono : ∀ (elems j2_array : List lz_json) (idx : Nat)
    (cb : Option lz_json_key_filtercb),
    _lz_j_array_compare_loop elems j2_array idx none ≠ -1 →
      _lz_j_array_compare_loop elems j2_array idx cb ≠ -1
  | [], _, _, _, _ => by simp [_lz_j_array_compare_loop]
  | j1_val :: rest, j2_array, idx, cb, h => by
    simp only [_lz_j_array_compare_loop] at h ⊢
    cases hg : lz_tailq_get_at_index j2_array idx with
    | none => simp [hg] at h
    | some j2_val =>
      simp only [hg] at h ⊢
      by_cases hc : _lz_j_compare j1_val j2_val none = -1
      · simp [hc] at h
      · have hc2 := _lz_j_compare_filter_mono j1_val j2_val cb hc
        simp only [hc, if_false] at h
        simp only [hc2, if_false]
        exact _lz_j_array_compare_loop_filter_mono rest j2_array (idx + 1) cb h
theorem _lz_j_object_compare_loop_filter_mono : ∀ (ents j2_map : List (List Nat × lz_json))
    (cb : Option lz_json_key_filtercb),
    _lz_j_object_compare_loop ents j2_map none ≠ -1 →
      _lz_j_object_compare_loop ents j2_map cb ≠ -1
  | [], _, _, _ => by simp [_lz_j_object_compare_loop]
  | (key, j1_val) :: rest, j2_map, cb, h => by
    simp only [_lz_j_object_compare_loop, key_filtered, Bool.false_eq_true, if_false] at h
    simp only [_lz_j_object_compare_loop]
    cases hg : lz_kvmap_find j2_map key with
    | none => simp [hg] at h
    | some j2_val =>
      simp only [hg] at h ⊢
      by_cases hc : _lz_j_compare j1_val j2_val none = -1
      · simp [hc] at h
      · have hc2 := _lz_j_compare_filter_mono j1_val j2_val cb hc
        simp only [hc, if_false] at h
        simp only [hc2, if_false]
        have ih := _lz_j_object_compare_loop_filter_mono rest j2_map cb h
        split_ifs
        · exact ih
        · exact ih
end

theorem _lz_j_compare_eq_zero_of_ne (j1 j2 : lz_json) (cb : Option lz_json_key_filtercb)
    (h : _lz_j_compare j1 j2 cb ≠ -1) : _lz_j_compare j1 j2 cb = 0 := by
  rcases _lz_j_compare_range j1 j2 cb with h0 | h1
  · exact h0
  · exact absurd h1 h

theorem _lz_j_object_compare_loop_filtered (cb : lz_json_key_filtercb)
    (hcb : ∀ k v, cb k v = 1 ↔ k = timestamp_key) (ents1 ents2 : List (List Nat × lz_json))
    (hother : ∀ k v1, (k, v1) ∈ ents1 → k ≠ timestamp_key →
      ∃ v2, lz_kvmap_find ents2 k = some v2 ∧ lz_json_compare v1 v2 none = 0) :
    _lz_j_object_compare_loop ents1 ents2 (some cb) = 0 := by
  induction ents1 with
  | nil => simp [_lz_j_object_compare_loop]
  | cons e rest ih =>
    obtain ⟨k, v1⟩ := e
    have ih2 := ih (fun k2 v hm hne => hother k2 v (List.mem_cons_of_mem _ hm) hne)
    simp only [_lz_j_object_compare_loop, key_filtered]
    by_cases hk : k = timestamp_key
    · have h1 : cb k v1 = 1 := (hcb k v1).2 hk
      simp [h1, ih2]
    · have h1 : ¬ cb k v1 = 1 := fun h => hk ((hcb k v1).1 h)
      obtain ⟨v2, hf, hc⟩ := hother k v1 (List.mem_cons_self _ _) hk
      have hc0 : _lz_j_compare v1 v2 none ≠ -1 := by
        have : _lz_j_compare v1 v2 none = 0 := hc
        omega
      have hc2 := _lz_j_compare_filter_mono v1 v2 (some cb) hc0
      simp [h1, hf, hc2, ih2]

theorem _lz_j_object_compare_loop_unfiltered (ents1 ents2 : List (List Nat × lz_json))
    (t1 t2 : lz_json) (ht1 : lz_kvmap_find ents1 timestamp_key = some t1)
    (ht2 : lz_kvmap_find ents2 timestamp_key = some t2)
    (hdiff : lz_json_compare t1 t2 none = -1) :
    _lz_j_object_compare_loop ents1 ents2 none = -1 := by
  induction ents1 with
  | nil => simp [lz_kvmap_find] at ht1
  | cons e rest ih =>
    obtain ⟨k, v1⟩ := e
    simp only [_lz_j_object_compare_loop, key_filtered, Bool.false_eq_true, if_false]
    by_cases hk : k = timestamp_key
    · subst hk
      simp only [lz_kvmap_find, if_true, Option.some.injEq] at ht1
      subst ht1
      have hd : _lz_j_compare v1 t2 none = -1 := hdiff
      simp [ht2, hd]
    · simp only [lz_kvmap_find, hk, if_false] at ht1
      cases hf : lz_kvmap_find ents2 k with
      | none => rfl
      | some v2 =>
        simp only []
        split_ifs
        · rfl
        · exact ih ht1

/-- The comparator on two objects of the same size in which every key of the
first other than `timestamp` is present in the second with a value the
comparator (no filter) reports equal, and whose values under `timestamp` the
comparator reports not-equal: with a callback that returns 1 exactly for the
key `timestamp` the objects are reported equal (0), with no callback not-equal
(-1). -/
theorem lz_json_compare_timestamp_filter (ents1 ents2 : List (List Nat × lz_json))
    (cb : lz_json_key_filtercb) (t1 t2 : lz_json)
    (hcb : ∀ k v, cb k v = 1 ↔ k = timestamp_key)
    (hsize : ents1.length = ents2.length)
    (hother : ∀ k v1, (k, v1) ∈ ents1 → k ≠ timestamp_key →
      ∃ v2, lz_kvmap_find ents2 k = some v2 ∧ lz_json_compare v1 v2 none = 0)
    (ht1 : lz_kvmap_find ents1 timestamp_key = some t1)
    (ht2 : lz_kvmap_find ents2 timestamp_key = some t2)
    (hdiff : lz_json_compare t1 t2 none = -1) :
    lz_json_compare (.object ents1) (.object ents2) (some cb) = 0
      ∧ lz_json_compare (.object ents1) (.object ents2) none = -1 := by
  constructor
  · simp only [lz_json_compare, _lz_j_compare, lz_json_get_type, lz_json_get_size,
      lz_json_get_object, hsize, ne_eq, not_true_eq_false, if_false]
    exact _lz_j_object_compare_loop_filtered cb hcb ents1 ents2 hother
  · simp only [lz_json_compare, _lz_j_compare, lz_json_get_type, lz_json_get_size,
      lz_json_get_object, hsize, ne_eq, not_true_eq_false, if_false]
    exact _lz_j_object_compare_loop_unfiltered ents1 ents2 t1 t2 ht1 ht2 hdiff

/-- Claim C6, evaluated at the objects `{"id":7,"timestamp":s}` with the
3-byte String `a`, zero, `b` and the 3-byte String `a`, zero, `c` for `s`: the
two objects have the same keys, the same value under `id` and different values
under `timestamp`, and `lz_json_compare` reports equal (0) with the filter on
`timestamp`, but also equal (0), not -1, with no filter, because
`_lz_j_string_compare` stops at the zero byte.  With the Numbers 100 and 200
under `timestamp` the results are 0 and -1. -/
theorem C6_timestamps_after_zero_compare_equal :
    ([97, 0, 98] : List Nat) ≠ [97, 0, 99]
      ∧ lz_json_compare
          (.object [(bytes "id", .number 7), (timestamp_key, .string [97, 0, 98])])
          (.object [(bytes "id", .number 7), (timestamp_key, .string [97, 0, 99])])
          (some (fun k _ => if k = timestamp_key then 1 else 0)) = 0
      ∧ lz_json_compare
          (.object [(bytes "id", .number 7), (timestamp_key, .string [97, 0, 98])])
          (.object [(bytes "id", .number 7), (timestamp_key, .string [97, 0, 99])]) none = 0
      ∧ lz_json_compare
          (.object [(bytes "id", .number 7), (timestamp_key, .number 100)])
          (.object [(bytes "id", .number 7), (timestamp_key, .number 200)])
          (some (fun k _ => if k = timestamp_key then 1 else 0)) = 0
      ∧ lz_json_compare
          (.object [(bytes "id", .number 7), (timestamp_key, .number 100)])
          (.object [(bytes "id", .number 7), (timestamp_key, .number 200)]) none = -1 := by
  refine ⟨by decide, rfl, rfl, rfl, rfl⟩

/-! ## Escaped strings read back (C3) -/

theorem jbuf_put_nil (j : __jbuf) : jbuf_put j [] = j := by
  cases j; simp [jbuf_put]

theorem jbuf_put_put (j : __jbuf) (a b : List Nat) :
    jbuf_put (jbuf_put j a) b = jbuf_put j (a ++ b) := by
  cases j
  simp [jbuf_put, List.append_assoc, Nat.add_assoc, Int.add_assoc]

theorem _addbuf_fixed (j : __jbuf) (src : List Nat) (_hdyn : j.dynamic = 0)
    (hroom : j.buf_idx + src.length ≤ j.buf_len) : _addbuf j src = (0, jbuf_put j src) := by
  unfold _addbuf
  by_cases h0 : src.length = 0
  · have : src = [] := List.length_eq_zero.mp h0
    subst this
    simp [jbuf_put_nil]
  · have hgt : ¬ (j.buf_idx + src.length > j.buf_len) := by omega
    simp [h0, hgt, jbuf_put]

theorem escaped_byte_length_le (ch : Nat) : (escaped_byte ch).length ≤ 2 := by
  unfold escaped_byte; split_ifs <;> simp

theorem escaped_byte_length_pos (ch : Nat) : 1 ≤ (escaped_byte ch).length := by
  unfold escaped_byte; split_ifs <;> simp

theorem escaped_text_length_le (s : List Nat) : (escaped_text s).length ≤ 2 * s.length := by
  induction s with
  | nil => simp [escaped_text]
  | cons c s ih =>
    have := escaped_byte_length_le c
    simp only [escaped_text, List.length_append, List.length_cons]; omega

theorem escaped_text_length_ge (s : List Nat) : s.length ≤ (escaped_text s).length := by
  induction s with
  | nil => simp [escaped_text]
  | cons c s ih =>
    have := escaped_byte_length_pos c
    simp only [escaped_text, List.length_append, List.length_cons]; omega

theorem _lz_j_escape_string_fixed (s : List Nat) (j : __jbuf) (hdyn : j.dynamic = 0)
    (hroom : j.buf_idx + (escaped_text s).length ≤ j.buf_len) :
    _lz_j_escape_string s j = (0, jbuf_put j (escaped_text s)) := by
  induction s generalizing j with
  | nil => simp [_lz_j_escape_string, escaped_text, jbuf_put_nil]
  | cons c s ih =>
    simp only [escaped_text, List.length_append] at hroom
    have hstep : (if c = 10 then _addbuf j [92, 110]
        else if c = 34 then _addbuf j [92, 34]
        else if c = 9 then _addbuf j [92, 116]
        else if c = 13 then _addbuf j [92, 114]
        else if c = 92 then _addbuf j [92, 92]
        else _addbuf j [c]) = (0, jbuf_put j (escaped_byte c)) := by
      have hb : _addbuf j (escaped_byte c) = (0, jbuf_put j (escaped_byte c)) :=
        _addbuf_fixed j _ hdyn (by omega)
      unfold escaped_byte at hb ⊢
      split_ifs at hb ⊢ <;> exact hb
    have hdyn1 : (jbuf_put j (escaped_byte c)).dynamic = 0 := hdyn
    have hroom1 : (jbuf_put j (escaped_byte c)).buf_idx + (escaped_text s).length
        ≤ (jbuf_put j (escaped_byte c)).buf_len := by
      simp only [jbuf_put]; omega
    simp only [_lz_j_escape_string, hstep, jbuf_then]
    rw [ih _ hdyn1 hroom1, jbuf_put_put]
    simp [escaped_text]

theorem jbuf_then_ok (j : __jbuf) (k : __jbuf → Int × __jbuf) : jbuf_then (0, j) k = k j := by
  simp [jbuf_then]

theorem _lz_j_string_to_buffer_fixed (s : List Nat) (j : __jbuf) (hdyn : j.dynamic = 0)
    (hesc : j.escape = true) (hroom : j.buf_idx + ((escaped_text s).length + 2) ≤ j.buf_len) :
    _lz_j_string_to_buffer s j = (0, jbuf_put j (34 :: (escaped_text s ++ [34]))) := by
  have ha : _addbuf j [34] = (0, jbuf_put j [34]) :=
    _addbuf_fixed j _ hdyn (by simp; omega)
  have hdyn1 : (jbuf_put j [34]).dynamic = 0 := hdyn
  have hesc1 : (jbuf_put j [34]).escape = true := hesc
  have hb := _lz_j_escape_string_fixed s (jbuf_put j [34]) hdyn1
    (by simp only [jbuf_put, List.length_singleton]; omega)
  have hdyn2 : (jbuf_put (jbuf_put j [34]) (escaped_text s)).dynamic = 0 := hdyn
  have hc := _addbuf_fixed (jbuf_put (jbuf_put j [34]) (escaped_text s)) [34] hdyn2
    (by simp only [jbuf_put, List.length_singleton]; omega)
  rw [jbuf_put_put] at hb
  rw [jbuf_put_put, jbuf_put_put] at hc
  simp only [_lz_j_string_to_buffer, ha, jbuf_then_ok, hesc1, if_true, hb, hc]
  simp

theorem lz_json_to_buffer_string (s : List Nat) (buf_len : Nat)
    (hcap : (escaped_text s).length + 2 ≤ buf_len) :
    lz_json_to_buffer (.string s) buf_len
      = ((((escaped_text s).length + 2 : Nat) : Int), 34 :: (escaped_text s ++ [34])) := by
  simp only [lz_json_to_buffer, _lz_j_to_buffer]
  rw [_lz_j_string_to_buffer_fixed s _ rfl rfl (by simp; omega)]
  simp [jbuf_put]
  omega

theorem reparsed_byte_of_plain (c : Nat) (h10 : c ≠ 10) (h9 : c ≠ 9) (h13 : c ≠ 13) :
    reparsed_byte c = c := by
  simp [reparsed_byte, h10, h9, h13]

theorem lz_json_parse_string_loop_escaped (buflen : Nat) (s : List Nat)
    (hascii : ∀ c ∈ s, c < 128) (tail : List Nat) (i : Nat) (buf : List Nat)
    (hbuf : buf.length + s.length < buflen) :
    lz_json_parse_string_loop buflen (escaped_text s ++ 34 :: tail) i buf false
      = (some (.string (buf ++ s.map reparsed_byte)), i + (escaped_text s).length + 1) := by
  induction s generalizing i buf with
  | nil =>
    have hlt : ¬ (buf.length ≥ buflen) := by simp at hbuf; omega
    simp [escaped_text, lz_json_parse_string_loop, hlt, lz_isascii]
  | cons c s ih =>
    have hc : c < 128 := hascii c (List.mem_cons_self c s)
    have hrest : ∀ x ∈ s, x < 128 := fun x hx => hascii x (List.mem_cons_of_mem c hx)
    simp only [List.length_cons] at hbuf
    have hlt : ¬ (buf.length ≥ buflen) := by omega
    have ih1 := ih hrest (i + (escaped_byte c).length) (buf ++ [reparsed_byte c])
      (by simp only [List.length_append, List.length_singleton]; omega)
    have hgoal : lz_json_parse_string_loop buflen (escaped_byte c ++ (escaped_text s ++ 34 :: tail))
        i buf false
        = lz_json_parse_string_loop buflen (escaped_text s ++ 34 :: tail)
            (i + (escaped_byte c).length) (buf ++ [reparsed_byte c]) false := by
      unfold escaped_byte reparsed_byte
      by_cases h10 : c = 10
      · subst h10
        simp [lz_json_parse_string_loop, hlt, lz_isascii, is_escape_char]
      by_cases h34 : c = 34
      · subst h34
        simp [lz_json_parse_string_loop, hlt, lz_isascii, is_escape_char]
      by_cases h9 : c = 9
      · subst h9
        simp [lz_json_parse_string_loop, hlt, lz_isascii, is_escape_char]
      by_cases h13 : c = 13
      · subst h13
        simp [lz_json_parse_string_loop, hlt, lz_isascii, is_escape_char]
      by_cases h92 : c = 92
      · subst h92
        simp [lz_json_parse_string_loop, hlt, lz_isascii, is_escape_char]
      · simp [lz_json_parse_string_loop, hlt, lz_isascii, hc, h10, h34, h9, h13, h92]
    simp only [escaped_text, List.append_assoc, hgoal, ih1]
    simp [List.length_append, List.append_assoc, Nat.add_assoc]

theorem map_reparsed_byte_eq_self_iff (s : List Nat) :
    s.map reparsed_byte = s ↔ ∀ c ∈ s, c ≠ 10 ∧ c ≠ 9 ∧ c ≠ 13 := by
  induction s with
  | nil => simp
  | cons c s ih =>
    simp only [List.map_cons, List.cons.injEq, ih, List.mem_cons, forall_eq_or_imp]
    constructor
    · rintro ⟨h1, h2⟩
      refine ⟨?_, h2⟩
      unfold reparsed_byte at h1
      split_ifs at h1 <;> omega
    · rintro ⟨⟨h10, h9, h13⟩, h2⟩
      exact ⟨reparsed_byte_of_plain c h10 h9 h13, h2⟩

/-- Claim C3, evaluated at the payload made of one newline and at the payload
`"`, `\`, newline, tab, carriage return of the claim: the serializer writes
quote, backslash, `n`, quote for the newline, and `lz_json_parse_string` reads
these four bytes back as the one-byte payload `n`, which the comparator reports
not-equal to the newline; the five-byte payload comes back as `"`, `\`, `n`,
`t`, `r`.  The parser checks the byte after a backslash against the JSON
escapes but stores it as it is. -/
theorem C3_newline_does_not_come_back :
    lz_json_to_buffer (.string [10]) 16 = (4, [34, 92, 110, 34])
      ∧ lz_json_parse_string [34, 92, 110, 34] = (some (.string [110]), 3)
      ∧ ¬ ((lz_json_parse_string (lz_json_to_buffer (.string [10]) 16).2).1
          = some (.string [10]))
      ∧ lz_json_compare (.string [110]) (.string [10]) none = -1
      ∧ (lz_json_parse_string (lz_json_to_buffer (.string [34, 92, 10, 9, 13]) 16).2).1
          = some (.string [34, 92, 110, 116, 114]) := by
  have h : (lz_json_parse_string (lz_json_to_buffer (.string [10]) 16).2).1
      = some (.string [110]) := rfl
  refine ⟨rfl, rfl, ?_, rfl, rfl⟩
  rw [h]
  simp

/-- What `lz_json_parse_string` returns for the text that `lz_json_to_buffer`
writes for a String payload `s` of ASCII bytes (capacity at least
`2 * length s + 2`): the String whose payload is `s` with every newline, tab
and carriage return replaced by the letter `n`, `t`, `r`, because the parser
does not decode the escape it has checked; this is `s` itself exactly when `s`
has no newline, tab or carriage return. -/
theorem lz_json_parse_string_of_to_buffer (s : List Nat) (buf_len : Nat)
    (hascii : ∀ c ∈ s, c < 128) (hcap : 2 * s.length + 2 ≤ buf_len) :
    (lz_json_to_buffer (.string s) buf_len).1 ≠ -1
      ∧ (lz_json_parse_string (lz_json_to_buffer (.string s) buf_len).2).1
          = some (.string (s.map reparsed_byte))
      ∧ (s.map reparsed_byte = s ↔ ∀ c ∈ s, c ≠ 10 ∧ c ≠ 9 ∧ c ≠ 13) := by
  have hle := escaped_text_length_le s
  have hge := escaped_text_length_ge s
  have hser := lz_json_to_buffer_string s buf_len (by omega)
  refine ⟨?_, ?_, map_reparsed_byte_eq_self_iff s⟩
  · rw [hser]; simp; omega
  · rw [hser]
    have hloop := lz_json_parse_string_loop_escaped
      ((34 :: (escaped_text s ++ [34])).length + 128) s hascii [] 0 []
      (by simp; omega)
    simp only [lz_json_parse_string, ne_eq, not_true_eq_false, if_false, hloop]
    simp

/-! ## Consumed-bytes counter of the number and boolean parsers (C11, C12) -/

/-- Claim C11 fails at its own example: on the span `123,` the parser returns
the Number 123 and adds 2 to the consumed-bytes counter, not 3. -/
theorem C11_number_adds_two_for_three_digits :
    lz_json_parse_number (bytes "123,") = (some (.number 123), 2)
      ∧ ¬ ((lz_json_parse_number (bytes "123,")).2 = 3) := by
  have h : lz_json_parse_number (bytes "123,") = (some (.number 123), 2) := rfl
  refine ⟨h, ?_⟩
  rw [h]
  decide

/-- Claim C11 as amended: on a span (shorter than `2 ^ 64` bytes) that begins
with a run `ds` of `k >= 1` ASCII digits followed by a byte `d` that is not a
digit, `lz_json_parse_number` succeeds and adds `k - 1` to the consumed-bytes
counter, one less than the number of digits (the caller's index then stands on
the last digit). -/
theorem C11_parse_number_consumed (ds : List Nat) (d : Nat) (rest : List Nat)
    (hne : ds ≠ []) (hds : ∀ c ∈ ds, isdigit c = true) (hd : isdigit d = false)
    (hsize : (ds ++ d :: rest).length < SIZE_MOD) :
    (lz_json_parse_number (ds ++ d :: rest)).1 ≠ none
      ∧ (lz_json_parse_number (ds ++ d :: rest)).2 = ds.length - 1 := by
  obtain ⟨c, cs, rfl⟩ := List.exists_cons_of_ne_nil hne
  have hlen : ((c :: cs) ++ d :: rest).length ≠ 1 := by simp
  have h := lz_json_parse_number_loop_digits _ hlen (c :: cs) hds d hd rest 0 []
  simp only [List.nil_append] at h
  simp only [List.length_append, List.length_cons, SIZE_MOD] at hsize
  simp only [lz_json_parse_number, List.cons_append] at h ⊢
  rw [h]
  simp only [List.length_cons, List.length_append, SIZE_MOD]
  refine ⟨by simp, ?_⟩
  rw [if_neg (by omega)]
  omega

/-- Witness for C11 as amended: the spans `123,` and `0]` add 2 and 0. -/
theorem C11_parse_number_consumed_witness :
    ((lz_json_parse_number (bytes "123,")).1 ≠ none
        ∧ (lz_json_parse_number (bytes "123,")).2 = 3 - 1)
      ∧ ((lz_json_parse_number (bytes "0]")).1 ≠ none
        ∧ (lz_json_parse_number (bytes "0]")).2 = 1 - 1) :=
  ⟨C11_parse_number_consumed (bytes "123") 44 [] (by decide) (by decide) (by decide)
      (by decide),
   C11_parse_number_consumed (bytes "0") 93 [] (by decide) (by decide) (by decide)
      (by decide)⟩

theorem load_u32_cons4 (a b c d : Nat) (rest : List Nat) :
    load_u32 (a :: b :: c :: d :: rest) 1
      = b + 256 * c + 65536 * d + 16777216 * rest.getD 0 0 := by
  simp [load_u32]

theorem J_TRUE_MASK_and (x : Nat) : x &&& J_TRUE_MASK = x % 2 ^ 24 := by
  have h := Nat.and_pow_two_sub_one_eq_mod x 24
  simpa [J_TRUE_MASK] using h

theorem J_FALSE_MASK_and (x : Nat) : x &&& J_FALSE_MASK = x % 2 ^ 32 := by
  have h := Nat.and_pow_two_sub_one_eq_mod x 32
  simpa [J_FALSE_MASK] using h

/-- Claim C12 fails at its own example: on `truefoo` the parser returns
Boolean true and adds 3 to the consumed-bytes counter, not 4. -/
theorem C12_true_adds_three :
    lz_json_parse_boolean (bytes "truefoo") = (some (.boolean true), 3)
      ∧ ¬ ((lz_json_parse_boolean (bytes "truefoo")).2 = 4) := by
  have h : lz_json_parse_boolean (bytes "truefoo") = (some (.boolean true), 3) := rfl
  refine ⟨h, ?_⟩
  rw [h]
  decide

/-- Claim C12 as amended: on every input of at least 4 bytes that begins with
the bytes `t`, `r`, `u`, `e`, whatever follows, `lz_json_parse_boolean` returns
Boolean true and adds 3 to the consumed-bytes counter. -/
theorem C12_parse_boolean_true_consumed (rest : List Nat) :
    lz_json_parse_boolean (116 :: 114 :: 117 :: 101 :: rest) = (some (.boolean true), 3) := by
  have hlen : ¬ ((116 :: 114 :: 117 :: 101 :: rest).length < 4) := by simp
  have hmask : load_u32 (116 :: 114 :: 117 :: 101 :: rest) 1 &&& J_TRUE_MASK = J_TRUE_CMP := by
    rw [J_TRUE_MASK_and, load_u32_cons4, J_TRUE_CMP]
    omega
  simp only [lz_json_parse_boolean, hlen, if_false, hmask, if_true]

/-! ## The masked-word fast path of the boolean parser (C13) -/

theorem true_word_iff (b c d : Nat) (rest : List Nat) (hb : b < 256) (hc : c < 256)
    (hd : d < 256) :
    (load_u32 (116 :: b :: c :: d :: rest) 1 &&& J_TRUE_MASK = J_TRUE_CMP)
      ↔ (b = 114 ∧ c = 117 ∧ d = 101) := by
  rw [J_TRUE_MASK_and, load_u32_cons4, J_TRUE_CMP]
  constructor
  · intro h; omega
  · rintro ⟨rfl, rfl, rfl⟩; omega

theorem false_word_iff (b c d e : Nat) (rest : List Nat) (hb : b < 256) (hc : c < 256)
    (hd : d < 256) (he : e < 256) :
    (load_u32 (102 :: b :: c :: d :: e :: rest) 1 &&& J_FALSE_MASK = J_FALSE_CMP)
      ↔ (b = 97 ∧ c = 108 ∧ d = 115 ∧ e = 101) := by
  rw [J_FALSE_MASK_and, load_u32_cons4, J_FALSE_CMP]
  simp only [List.getD_cons_zero]
  constructor
  · intro h; omega
  · rintro ⟨rfl, rfl, rfl, rfl⟩; omega

theorem lz_json_parse_boolean_t (b c d : Nat) (rest : List Nat) (hb : b < 256) (hc : c < 256)
    (hd : d < 256) :
    (lz_json_parse_boolean (116 :: b :: c :: d :: rest)).1
      = if b = 114 ∧ c = 117 ∧ d = 101 then some (.boolean true) else none := by
  have hlen : ¬ ((116 :: b :: c :: d :: rest).length < 4) := by simp
  simp only [lz_json_parse_boolean, hlen, if_false, if_true, true_word_iff b c d rest hb hc hd]
  split_ifs <;> rfl

theorem lz_json_parse_boolean_f (b c d e : Nat) (rest : List Nat) (hb : b < 256) (hc : c < 256)
    (hd : d < 256) (he : e < 256) :
    (lz_json_parse_boolean (102 :: b :: c :: d :: e :: rest)).1
      = if b = 97 ∧ c = 108 ∧ d = 115 ∧ e = 101 then some (.boolean false) else none := by
  have hlen : ¬ ((102 :: b :: c :: d :: e :: rest).length < 4) := by simp
  have hlen5 : ¬ ((102 :: b :: c :: d :: e :: rest).length < 5) := by simp
  have h1 : ¬ ((102 : Nat) = 116) := by decide
  simp only [lz_json_parse_boolean, hlen, hlen5, if_false, if_true, h1,
    false_word_iff b c d e rest hb hc hd he]
  split_ifs <;> rfl

theorem parse_boolean_plain_t (b c d : Nat) (rest : List Nat) :
    parse_boolean_plain (116 :: b :: c :: d :: rest)
      = if b = 114 ∧ c = 117 ∧ d = 101 then some (.boolean true) else none := by
  have h5 : ¬ ((116 :: b :: c :: d :: rest).take 5 = [102, 97, 108, 115, 101]) := by
    cases rest <;> simp
  simp [parse_boolean_plain, h5]

theorem parse_boolean_plain_f (b c d e : Nat) (rest : List Nat) :
    parse_boolean_plain (102 :: b :: c :: d :: e :: rest)
      = if b = 97 ∧ c = 108 ∧ d = 115 ∧ e = 101 then some (.boolean false) else none := by
  simp [parse_boolean_plain]

/-- Claim C13: on every span of bytes the masked-word comparison of
`lz_json_parse_boolean` decides as plain byte comparison does: Boolean true
exactly when the span has at least 4 bytes and starts with `true`, Boolean
false exactly when it has at least 5 bytes and starts with `false`, and absent
in every other case. -/
theorem C13_parse_boolean_refines_plain (data : List Nat) (hbyte : ∀ c ∈ data, c < 256) :
    (lz_json_parse_boolean data).1 = parse_boolean_plain data := by
  rcases data with _ | ⟨a, _ | ⟨b, _ | ⟨c, _ | ⟨d, rest⟩⟩⟩⟩
  · simp [lz_json_parse_boolean, parse_boolean_plain]
  · simp [lz_json_parse_boolean, parse_boolean_plain]
  · simp [lz_json_parse_boolean, parse_boolean_plain]
  · simp [lz_json_parse_boolean, parse_boolean_plain]
  · have hb : b < 256 := hbyte b (by simp)
    have hc : c < 256 := hbyte c (by simp)
    have hd : d < 256 := hbyte d (by simp)
    by_cases ha : a = 116
    · subst ha
      rw [lz_json_parse_boolean_t b c d rest hb hc hd, parse_boolean_plain_t]
    · by_cases hf : a = 102
      · subst hf
        rcases rest with _ | ⟨e, rest2⟩
        · simp [lz_json_parse_boolean, parse_boolean_plain]
        · have he : e < 256 := hbyte e (by simp)
          rw [lz_json_parse_boolean_f b c d e rest2 hb hc hd he, parse_boolean_plain_f]
      · have h4 : ¬ ((a :: b :: c :: d :: rest).take 4 = [116, 114, 117, 101]) := by
          simp [ha]
        have h5 : ¬ ((a :: b :: c :: d :: rest).take 5 = [102, 97, 108, 115, 101]) := by
          cases rest <;> simp [hf]
        simp [lz_json_parse_boolean, parse_boolean_plain, ha, hf, h4, h5]

/-- Witness for C13: the 3-byte span `tru` is rejected by both; the spans
`true` and `false` are accepted by both. -/
theorem C13_parse_boolean_refines_plain_witness :
    (lz_json_parse_boolean (bytes "tru")).1 = parse_boolean_plain (bytes "tru")
      ∧ (lz_json_parse_boolean (bytes "true")).1 = parse_boolean_plain (bytes "true")
      ∧ (lz_json_parse_boolean (bytes "false")).1 = parse_boolean_plain (bytes "false") :=
  ⟨C13_parse_boolean_refines_plain (bytes "tru") (by decide),
   C13_parse_boolean_refines_plain (bytes "true") (by decide),
   C13_parse_boolean_refines_plain (bytes "false") (by decide)⟩

/-! ## Consumed-bytes counter of the string parser (C14) -/

theorem lz_json_parse_string_loop_eq_scan (buflen : Nat) (l : List Nat) (i : Nat)
    (buf : List Nat) (escaped : Bool) (hroom : buf.length + l.length ≤ buflen) :
    lz_json_parse_string_loop buflen l i buf escaped = string_scan l i buf escaped := by
  induction l generalizing i buf escaped with
  | nil => rfl
  | cons ch rest ih =>
    simp only [List.length_cons] at hroom
    have hlt : ¬ (buf.length ≥ buflen) := by omega
    have h1 := ih (i + 1) (buf ++ [ch]) false
      (by simp only [List.length_append, List.length_singleton]; omega)
    have h2 := ih (i + 1) buf true (by omega)
    simp only [lz_json_parse_string_loop, string_scan, hlt, if_false, h1, h2]

theorem lz_json_parse_string_eq_scan (c : Nat) (rest : List Nat) :
    lz_json_parse_string (c :: rest)
      = if c ≠ 34 then (none, 0) else string_scan rest 0 [] false := by
  simp only [lz_json_parse_string]
  split_ifs
  · rfl
  · exact lz_json_parse_string_loop_eq_scan _ rest 0 [] false
      (by simp only [List.length_nil, List.length_cons]; omega)

theorem string_scan_success (l : List Nat) :
    ∀ (i : Nat) (buf : List Nat) (escaped : Bool) (v : lz_json) (n : Nat),
      string_scan l i buf escaped = (some v, n) →
      ∃ k, n = i + k + 1 ∧ k < l.length ∧ l.getD k 0 = 34
        ∧ string_scan (l.take (k + 1)) i buf escaped = (some v, n)
        ∧ ∀ m, m ≤ k → (string_scan (l.take m) i buf escaped).1 = none := by
  induction l with
  | nil =>
    intro i buf escaped v n h
    simp [string_scan] at h
  | cons ch rest ih =>
    intro i buf escaped v n h
    have hcont : ∀ (buf2 : List Nat) (esc2 : Bool),
        string_scan rest (i + 1) buf2 esc2 = (some v, n) →
        (∀ t : List Nat, string_scan (ch :: t) i buf escaped
          = string_scan t (i + 1) buf2 esc2) →
        ∃ k, n = i + k + 1 ∧ k < (ch :: rest).length ∧ (ch :: rest).getD k 0 = 34
          ∧ string_scan ((ch :: rest).take (k + 1)) i buf escaped = (some v, n)
          ∧ ∀ m, m ≤ k → (string_scan ((ch :: rest).take m) i buf escaped).1 = none := by
      intro buf2 esc2 hrest hstep
      obtain ⟨k, hn, hk, hq, hpre, hshort⟩ := ih (i + 1) buf2 esc2 v n hrest
      refine ⟨k + 1, by omega, by simp only [List.length_cons]; omega, by simpa using hq, ?_, ?_⟩
      · rw [List.take_succ_cons, hstep]
        exact hpre
      · intro m hm
        cases m with
        | zero => simp [string_scan]
        | succ m2 =>
          rw [List.take_succ_cons, hstep]
          exact hshort m2 (by omega)
    by_cases hascii : lz_isascii ch = true
    · by_cases hesc : escaped = true
      · by_cases hec : is_escape_char ch = true
        · have hstep : ∀ t : List Nat, string_scan (ch :: t) i buf escaped
              = string_scan t (i + 1) (buf ++ [ch]) false := by
            intro t; simp [string_scan, hascii, hesc, hec]
          rw [hstep] at h
          exact hcont _ _ h hstep
        · simp [string_scan, hascii, hesc, hec] at h
      · by_cases h92 : ch = 92
        · have hstep : ∀ t : List Nat, string_scan (ch :: t) i buf escaped
              = string_scan t (i + 1) buf true := by
            intro t; subst h92; simp [string_scan, lz_isascii, hesc]
          rw [hstep] at h
          exact hcont _ _ h hstep
        · by_cases h34 : ch = 34
          · subst h34
            have hval : string_scan (34 :: rest) i buf escaped = (some (.string buf), i + 1) := by
              simp [string_scan, lz_isascii, hesc]
            rw [hval] at h
            obtain ⟨hv, hn⟩ := Prod.mk.inj h
            refine ⟨0, by omega, by simp, by simp, ?_, ?_⟩
            · simp only [Nat.zero_add, List.take_succ_cons, List.take_zero]
              rw [← hn, ← hv]
              simp [string_scan, lz_isascii, hesc]
            · intro m hm
              have : m = 0 := by omega
              subst this
              simp [string_scan]
          · have hstep : ∀ t : List Nat, string_scan (ch :: t) i buf escaped
                = string_scan t (i + 1) (buf ++ [ch]) false := by
              intro t; simp [string_scan, hascii, hesc, h92, h34]
            rw [hstep] at h
            exact hcont _ _ h hstep
    · simp [string_scan, hascii] at h

/-- Claim C14 fails at its own example: on the five bytes `"abc"` (with both
quotes) the parser returns the String `abc` and adds 4 to the consumed-bytes
counter, not 5. -/
theorem C14_string_adds_four_for_five_bytes :
    lz_json_parse_string (bytes "\"abc\"") = (some (.string (bytes "abc")), 4)
      ∧ ¬ ((lz_json_parse_string (bytes "\"abc\"")).2 = 5) := by
  have h : lz_json_parse_string (bytes "\"abc\"") = (some (.string (bytes "abc")), 4) := rfl
  refine ⟨h, ?_⟩
  rw [h]
  decide

/-- Claim C14 as amended: whenever `lz_json_parse_string` succeeds on a span
and adds `n` to the consumed-bytes counter, `n` is the offset of the closing
quote, one less than the length of the string token: the byte at offset `n`
is a double quote inside the span, the first `n + 1` bytes of the span alone
give the same result, and no shorter prefix of the span is accepted. -/
theorem C14_parse_string_consumed (data : List Nat) (v : lz_json) (n : Nat)
    (h : lz_json_parse_string data = (some v, n)) :
    1 ≤ n ∧ n < data.length ∧ data.getD n 0 = 34
      ∧ lz_json_parse_string (data.take (n + 1)) = (some v, n)
      ∧ ∀ m, m ≤ n → (lz_json_parse_string (data.take m)).1 = none := by
  cases data with
  | nil => simp [lz_json_parse_string] at h
  | cons c rest =>
    rw [lz_json_parse_string_eq_scan] at h
    by_cases hc : c = 34
    · simp only [hc, ne_eq, not_true_eq_false, if_false] at h
      obtain ⟨k, hn, hk, hq, hpre, hshort⟩ := string_scan_success rest 0 [] false v n h
      have hn2 : n = k + 1 := by omega
      subst hn2
      refine ⟨by omega, by simp only [List.length_cons]; omega, by simpa using hq, ?_, ?_⟩
      · rw [List.take_succ_cons, lz_json_parse_string_eq_scan]
        simp only [hc, ne_eq, not_true_eq_false, if_false]
        exact hpre
      · intro m hm
        cases m with
        | zero => simp [lz_json_parse_string]
        | succ m2 =>
          rw [List.take_succ_cons, lz_json_parse_string_eq_scan]
          simp only [hc, ne_eq, not_true_eq_false, if_false]
          exact hshort m2 (by omega)
    · simp [hc] at h

/-- Witness for C14 as amended: the span `"abc"` followed by `,1]`. -/
theorem C14_parse_string_consumed_witness :
    1 ≤ 4 ∧ 4 < (bytes "\"abc\",1]").length ∧ (bytes "\"abc\",1]").getD 4 0 = 34
      ∧ lz_json_parse_string ((bytes "\"abc\",1]").take (4 + 1))
          = (some (.string (bytes "abc")), 4)
      ∧ ∀ m, m ≤ 4 → (lz_json_parse_string ((bytes "\"abc\",1]").take m)).1 = none :=
  C14_parse_string_consumed (bytes "\"abc\",1]") (.string (bytes "abc")) 4 rfl

/-! ## String parser: escapes and non-ASCII bytes (C15, C16) -/

theorem string_scan_append (pre tail : List Nat) :
    ∀ (i : Nat) (buf : List Nat) (escaped : Bool) (b : List Nat) (e : Bool),
      string_scan_to pre buf escaped = some (b, e) →
      string_scan (pre ++ tail) i buf escaped = string_scan tail (i + pre.length) b e
        ∧ b.length ≤ buf.length + pre.length := by
  induction pre with
  | nil =>
    intro i buf escaped b e h
    simp only [string_scan_to, Option.some.injEq, Prod.mk.injEq] at h
    obtain ⟨rfl, rfl⟩ := h
    simp
  | cons ch rest ih =>
    intro i buf escaped b e h
    have hcont : ∀ (buf2 : List Nat) (esc2 : Bool), buf2.length ≤ buf.length + 1 →
        string_scan_to rest buf2 esc2 = some (b, e) →
        string_scan (ch :: (rest ++ tail)) i buf escaped
          = string_scan (rest ++ tail) (i + 1) buf2 esc2 →
        string_scan (ch :: rest ++ tail) i buf escaped
            = string_scan tail (i + (ch :: rest).length) b e
          ∧ b.length ≤ buf.length + (ch :: rest).length := by
      intro buf2 esc2 hlen hrest hstep
      obtain ⟨h1, h2⟩ := ih (i + 1) buf2 esc2 b e hrest
      refine ⟨?_, by simp only [List.length_cons]; omega⟩
      rw [List.cons_append, hstep, h1]
      simp only [List.length_cons]
      congr 1
      omega
    by_cases hascii : lz_isascii ch = true
    · by_cases hesc : escaped = true
      · by_cases hec : is_escape_char ch = true
        · simp only [string_scan_to, hascii, hesc, hec, Bool.not_true, Bool.false_eq_true,
            if_false, if_true] at h
          exact hcont _ _ (by simp) h (by simp [string_scan, hascii, hesc, hec])
        · simp [string_scan_to, hascii, hesc, hec] at h
      · by_cases h92 : ch = 92
        · subst h92
          simp only [string_scan_to, hascii, hesc, Bool.not_true, Bool.false_eq_true,
            if_false, if_true] at h
          exact hcont _ _ (by omega) h (by simp [string_scan, lz_isascii, hesc])
        · by_cases h34 : ch = 34
          · subst h34
            simp [string_scan_to, lz_isascii, hesc] at h
          · simp only [string_scan_to, hascii, hesc, h92, h34, Bool.not_true,
              Bool.false_eq_true, if_false] at h
            exact hcont _ _ (by simp) h (by simp [string_scan, hascii, hesc, h92, h34])
    · simp [string_scan_to, hascii] at h

theorem string_scan_plain (post : List Nat) (tail : List Nat)
    (hpost : ∀ x ∈ post, x < 128 ∧ x ≠ 92 ∧ x ≠ 34) :
    ∀ (i : Nat) (buf : List Nat),
      string_scan (post ++ 34 :: tail) i buf false
        = (some (.string (buf ++ post)), i + post.length + 1) := by
  induction post with
  | nil =>
    intro i buf
    simp [string_scan, lz_isascii]
  | cons x post ih =>
    intro i buf
    have hx := hpost x (List.mem_cons_self _ _)
    have hascii : lz_isascii x = true := by simp [lz_isascii]; omega
    have h := ih (fun y hy => hpost y (List.mem_cons_of_mem _ hy)) (i + 1) (buf ++ [x])
    rw [List.cons_append, string_scan]
    simp only [hascii, Bool.not_true, Bool.false_eq_true, if_false, hx.2.1, hx.2.2, h]
    simp only [List.append_assoc, List.singleton_append, List.length_cons, Prod.mk.injEq,
      true_and]
    omega

theorem string_scan_non_ascii (pre : List Nat) (c : Nat) (rest : List Nat) (hc : 128 ≤ c) :
    ∀ (i : Nat) (buf : List Nat) (escaped : Bool),
      (string_scan pre i buf escaped).1 = none →
      (string_scan (pre ++ c :: rest) i buf escaped).1 = none := by
  induction pre with
  | nil =>
    intro i buf escaped _
    have hna : lz_isascii c = false := by simp [lz_isascii]; omega
    simp [string_scan, hna]
  | cons ch pre ih =>
    intro i buf escaped h
    by_cases hascii : lz_isascii ch = true
    · by_cases hesc : escaped = true
      · by_cases hec : is_escape_char ch = true
        · simp only [List.cons_append, string_scan, hascii, hesc, hec, Bool.not_true,
            Bool.false_eq_true, if_false, if_true] at h ⊢
          exact ih _ _ _ h
        · simp [string_scan, hascii, hesc, hec]
      · by_cases h92 : ch = 92
        · subst h92
          simp only [List.cons_append, string_scan, hascii, hesc, Bool.not_true,
            Bool.false_eq_true, if_false, if_true] at h ⊢
          exact ih _ _ _ h
        · by_cases h34 : ch = 34
          · subst h34
            simp [string_scan, lz_isascii, hesc] at h
          · simp only [List.cons_append, string_scan, hascii, hesc, h92, h34, Bool.not_true,
              Bool.false_eq_true, if_false] at h ⊢
            exact ih _ _ _ h
    · simp [string_scan, hascii]

/-- Claim C16: let the span be an opening quote, bytes `pre`, a byte `c` of
value `0x80` or above, and any bytes `rest`, where `pre` does not hold the
terminating unescaped quote (the opening quote followed by `pre` alone is not
accepted).  Then `lz_json_parse_string` returns `NULL`. -/
theorem C16_non_ascii_rejected (pre : List Nat) (c : Nat) (rest : List Nat)
    (hc : 128 ≤ c) (hopen : (lz_json_parse_string (34 :: pre)).1 = none) :
    (lz_json_parse_string (34 :: (pre ++ c :: rest))).1 = none := by
  rw [lz_json_parse_string_eq_scan] at hopen ⊢
  simp only [ne_eq, not_true_eq_false, if_false] at hopen ⊢
  exact string_scan_non_ascii pre c rest hc 0 [] false hopen

/-- Witness for C16: the byte `0xC3` after `ab` inside a string. -/
theorem C16_non_ascii_rejected_witness :
    (lz_json_parse_string (34 :: (bytes "ab" ++ 195 :: [169, 34]))).1 = none :=
  C16_non_ascii_rejected (bytes "ab") 195 [169, 34] (by decide) rfl

/-! ## Number serialization (C19) -/

theorem digits_table (k : Nat) (hk : k < 100) :
    digits.getD (k * 2) 0 = 48 + k / 10 ∧ digits.getD (k * 2 + 1) 0 = 48 + k % 10 := by
  have h : ∀ k, k < 100 →
      digits.getD (k * 2) 0 = 48 + k / 10 ∧ digits.getD (k * 2 + 1) 0 = 48 + k % 10 := by
    decide
  exact h k hk

theorem _addbuf_number_loop_digits (fuel : Nat) :
    ∀ (num : Nat) (out : List Nat), 1 ≤ num → num ≤ fuel →
      (if (_addbuf_number_loop fuel num out).1 < 10
        then (48 + (_addbuf_number_loop fuel num out).1) :: (_addbuf_number_loop fuel num out).2
        else digits.getD ((_addbuf_number_loop fuel num out).1 * 2) 0
          :: digits.getD ((_addbuf_number_loop fuel num out).1 * 2 + 1) 0
          :: (_addbuf_number_loop fuel num out).2)
        = ((Nat.digits 10 num).reverse.map (fun d => 48 + d)) ++ out := by
  induction fuel with
  | zero => intro num out h1 h2; omega
  | succ f ih =>
    intro num out h1 h2
    by_cases h100 : num ≥ 100
    · have hstep : _addbuf_number_loop (f + 1) num out
          = _addbuf_number_loop f (num / 100)
              (digits.getD ((num % 100) * 2) 0 :: digits.getD ((num % 100) * 2 + 1) 0 :: out) := by
        simp [_addbuf_number_loop, h100]
      rw [hstep, ih (num / 100) _ (by omega) (by omega)]
      obtain ⟨t1, t2⟩ := digits_table (num % 100) (by omega)
      rw [t1, t2]
      have hd : Nat.digits 10 num
          = (num % 10) :: ((num / 10) % 10) :: Nat.digits 10 (num / 100) := by
        rw [Nat.digits_def' (by decide) (by omega), Nat.digits_def' (by decide) (by omega)]
        congr 2
        rw [Nat.div_div_eq_div_mul]
      rw [hd]
      have e1 : num % 100 / 10 = num / 10 % 10 := by omega
      have e2 : num % 100 % 10 = num % 10 := by omega
      simp [e1, e2]
    · have hstep : _addbuf_number_loop (f + 1) num out = (num, out) := by
        simp [_addbuf_number_loop, h100]
      rw [hstep]
      by_cases h10 : num < 10
      · simp [h10, Nat.digits_of_lt 10 num (by omega) h10]
      · obtain ⟨t1, t2⟩ := digits_table num (by omega)
        have hd : Nat.digits 10 num = [num % 10, num / 10] := by
          rw [Nat.digits_def' (by decide) (by omega),
            Nat.digits_of_lt 10 (num / 10) (by omega) (by omega)]
        rw [if_neg h10, t1, t2, hd]
        simp

theorem _addbuf_number_text_eq (n : Nat) :
    _addbuf_number_text n
      = if n = 0 then [48] else (Nat.digits 10 n).reverse.map (fun d => 48 + d) := by
  by_cases h0 : n = 0
  · subst h0; rfl
  · have h := _addbuf_number_loop_digits n n [] (by omega) (Nat.le_refl n)
    simp only [List.append_nil] at h
    simp only [_addbuf_number_text, h0, if_false]
    exact h

theorem _addbuf_number_text_canonical (n : Nat) :
    _addbuf_number_text n = canonical_decimal n :=
  _addbuf_number_text_eq n

theorem canonical_decimal_length_pos (n : Nat) : 1 ≤ (canonical_decimal n).length := by
  unfold canonical_decimal
  split_ifs with h0
  · simp
  · have hne : Nat.digits 10 n ≠ [] := Nat.digits_ne_nil_iff_ne_zero.mpr h0
    have : 0 < (Nat.digits 10 n).length := List.length_pos.mpr hne
    simpa using this

theorem canonical_decimal_length_le (n : Nat) (hn : n < UINT_MOD) :
    (canonical_decimal n).length ≤ 10 := by
  unfold canonical_decimal
  split_ifs with h0
  · simp
  · have h1 := Nat.base_pow_length_digits_le 10 n (by decide) h0
    simp only [UINT_MOD] at hn
    simp only [List.length_map, List.length_reverse]
    by_contra hlen
    have h11 : 11 ≤ (Nat.digits 10 n).length := by omega
    have h2 : 10 ^ 11 ≤ 10 ^ (Nat.digits 10 n).length :=
      Nat.pow_le_pow_right (by decide) h11
    omega

theorem canonical_decimal_no_leading_zero (n : Nat) (h0 : n ≠ 0) :
    (canonical_decimal n).head? ≠ some 48 := by
  have hne : Nat.digits 10 n ≠ [] := Nat.digits_ne_nil_iff_ne_zero.mpr h0
  have hlast := Nat.getLast_digit_ne_zero 10 h0
  simp only [canonical_decimal, h0, if_false, List.head?_map, List.head?_reverse,
    List.getLast?_eq_getLast _ hne, Option.map_some', ne_eq, Option.some.injEq]
  omega

theorem _addbuf_appends (j : __jbuf) (src : List Nat)
    (hroom : j.dynamic = 1 ∨ j.buf_idx + src.length ≤ j.buf_len) :
    (_addbuf j src).1 = 0 ∧ (_addbuf j src).2.buf = j.buf ++ src
      ∧ (_addbuf j src).2.written = j.written + src.length
      ∧ (_addbuf j src).2.buf_idx = j.buf_idx + src.length := by
  unfold _addbuf
  by_cases h0 : src.length = 0
  · have : src = [] := List.length_eq_zero.mp h0
    subst this
    simp
  · by_cases hgt : j.buf_idx + src.length > j.buf_len
    · have hdyn : j.dynamic = 1 := by
        rcases hroom with h | h
        · exact h
        · omega
      simp [h0, hgt, hdyn]
    · simp [h0, hgt]

/-- Claim C19: for every unsigned 32-bit value `n`, `_addbuf_number` on a
write target that is dynamic or has room for the text appends exactly the
canonical decimal representation of `n` and advances the written count (and
the write offset) by its length; that representation has between 1 and 10
digits and, for `n` other than zero, no leading zero. -/
theorem C19_addbuf_number_canonical (n : Nat) (hn : n < UINT_MOD) (j : __jbuf)
    (hroom : j.dynamic = 1 ∨ j.buf_idx + (canonical_decimal n).length ≤ j.buf_len) :
    (_addbuf_number j n).1 = 0
      ∧ (_addbuf_number j n).2.buf = j.buf ++ canonical_decimal n
      ∧ (_addbuf_number j n).2.written = j.written + (canonical_decimal n).length
      ∧ (_addbuf_number j n).2.buf_idx = j.buf_idx + (canonical_decimal n).length
      ∧ 1 ≤ (canonical_decimal n).length ∧ (canonical_decimal n).length ≤ 10
      ∧ (n = 0 → canonical_decimal n = [48])
      ∧ (n ≠ 0 → (canonical_decimal n).head? ≠ some 48) := by
  have h := _addbuf_appends j (canonical_decimal n) hroom
  simp only [_addbuf_number, _addbuf_number_text_canonical]
  refine ⟨h.1, h.2.1, h.2.2.1, h.2.2.2, canonical_decimal_length_pos n,
    canonical_decimal_length_le n hn, ?_, canonical_decimal_no_leading_zero n⟩
  intro h0
  subst h0
  rfl

/-- Witness for C19: the value 1234 written into an empty fixed target of 10
bytes. -/
theorem C19_addbuf_number_canonical_witness :
    (_addbuf_number
        { buf := [], buf_idx := 0, buf_len := 10, written := 0, dynamic := 0, escape := true }
        1234).2.buf = [] ++ canonical_decimal 1234
      ∧ canonical_decimal 1234 = bytes "1234" :=
  ⟨(C19_addbuf_number_canonical 1234 (by decide)
      { buf := [], buf_idx := 0, buf_len := 10, written := 0, dynamic := 0, escape := true }
      (Or.inr (by
        have h := canonical_decimal_length_le 1234 (by decide)
        simpa using h))).2.1,
   by rw [← _addbuf_number_text_canonical]; rfl⟩

/-! ## Serializer: strings without escaping, strings with escaping (C17, C18) -/

/-- Claim C17, evaluated at the String `abc`: `lz_json_to_buffer_nescp` with a
16-byte buffer writes the two quotes only and returns 2; the payload, which
`_lz_j_string_to_buffer` writes inside `if (jbuf->escape == true)` alone, is
missing.  With escaping enabled the same value gives the 5 bytes `"abc"`. -/
theorem C17_nescp_drops_the_payload :
    lz_json_to_buffer_nescp (.string (bytes "abc")) 16 = (2, bytes "\"\"")
      ∧ lz_json_to_buffer (.string (bytes "abc")) 16 = (5, bytes "\"abc\"") := by
  constructor <;> rfl

/-- Claim C18: for every String value with payload `s`, `lz_json_to_buffer`
with room for the text writes a double quote, then for each byte of `s` in
order its two-character escape (for newline, double quote, tab, carriage
return and backslash) or the byte itself (for every other byte), then a double
quote, and returns the number of bytes written. -/
theorem C18_escaped_string_layout (s : List Nat) (buf_len : Nat)
    (hcap : (escaped_text s).length + 2 ≤ buf_len) :
    lz_json_to_buffer (.string s) buf_len
        = ((((escaped_text s).length + 2 : Nat) : Int), [34] ++ escaped_text s ++ [34])
      ∧ escaped_text s = (s.map escaped_byte).flatten
      ∧ escaped_byte 10 = [92, 110] ∧ escaped_byte 34 = [92, 34] ∧ escaped_byte 9 = [92, 116]
      ∧ escaped_byte 13 = [92, 114] ∧ escaped_byte 92 = [92, 92]
      ∧ ∀ c, c ≠ 10 → c ≠ 34 → c ≠ 9 → c ≠ 13 → c ≠ 92 → escaped_byte c = [c] := by
  refine ⟨?_, ?_, rfl, rfl, rfl, rfl, rfl, ?_⟩
  · rw [lz_json_to_buffer_string s buf_len hcap]
    simp
  · clear hcap
    induction s with
    | nil => rfl
    | cons c s ih => simp [escaped_text, ih]
  · intro c h10 h34 h9 h13 h92
    simp [escaped_byte, h10, h34, h9, h13, h92]

/-- Witness for C18: the payload `a`, newline, `"` in a 7-byte buffer. -/
theorem C18_escaped_string_layout_witness :
    lz_json_to_buffer (.string [97, 10, 34]) 7 = (7, bytes "\"a\\n\\\"\"") :=
  (C18_escaped_string_layout [97, 10, 34] 7 (by decide)).1

/-! ## Serializer: the layout of arrays and objects (C20) -/

theorem jbuf_then_ok2 (r : Int × __jbuf) (k : __jbuf → Int × __jbuf) (h : r.1 = 0) :
    jbuf_then r k = k r.2 := by
  simp [jbuf_then, h]

theorem _addbuf_printf_fixed (j : __jbuf) (lit : List Nat) (hdyn : j.dynamic = 0)
    (hroom : j.buf_idx + lit.length + 1 ≤ j.buf_len) :
    _addbuf_printf j lit = (0, jbuf_put j lit) := by
  have h : ¬ (lit.length ≥ j.buf_len - j.buf_idx) := by omega
  simp only [_addbuf_printf, h, if_false]
  exact _addbuf_fixed j lit hdyn (by omega)

theorem separator_fixed (j : __jbuf) (rest : List α) (hdyn : j.dynamic = 0)
    (hroom : j.buf_idx + (if rest.isEmpty then ([] : List Nat) else [44]).length ≤ j.buf_len) :
    (if rest.isEmpty then ((0 : Int), j) else _addbuf j [44])
      = (0, jbuf_put j (if rest.isEmpty then [] else [44])) := by
  cases rest with
  | nil => simp [jbuf_put_nil]
  | cons x xs =>
    simp only [List.isEmpty_cons, Bool.false_eq_true, if_false] at hroom ⊢
    exact _addbuf_fixed j [44] hdyn hroom

mutual
theorem _lz_j_to_buffer_fixed : ∀ (v : lz_json) (j : __jbuf), j.dynamic = 0 → j.escape = true →
    j.buf_idx + (json_text v).length + 1 ≤ j.buf_len →
    _lz_j_to_buffer v j = (0, jbuf_put j (json_text v))
  | .number n, j, hdyn, _, hroom => by
    simp only [json_text] at hroom
    simp only [_lz_j_to_buffer, _addbuf_number, json_text]
    exact _addbuf_fixed j _ hdyn (by omega)
  | .array elems, j, hdyn, hesc, hroom => by
    simp only [json_text, List.length_cons, List.length_append, List.length_nil] at hroom
    have h1 := _addbuf_fixed j [91] hdyn (by simp only [List.length_singleton]; omega)
    have h2 := _lz_j_array_to_buffer_loop_fixed elems (jbuf_put j [91]) hdyn hesc
      (by simp only [jbuf_put, List.length_singleton]; omega)
    have h3 := _addbuf_fixed (jbuf_put (jbuf_put j [91]) (json_text_elems elems)) [93] hdyn
      (by simp only [jbuf_put, List.length_singleton]; omega)
    simp only [jbuf_put_put] at h2 h3
    simp only [_lz_j_to_buffer, h1, jbuf_then_ok, h2, h3, json_text]
    simp
  | .object ents, j, hdyn, hesc, hroom => by
    simp only [json_text, List.length_cons, List.length_append, List.length_nil] at hroom
    have h1 := _addbuf_fixed j [123] hdyn (by simp only [List.length_singleton]; omega)
    have h2 := _lz_j_object_to_buffer_loop_fixed ents (jbuf_put j [123]) hdyn hesc
      (by simp only [jbuf_put, List.length_singleton]; omega)
    have h3 := _addbuf_fixed (jbuf_put (jbuf_put j [123]) (json_text_ents ents)) [125] hdyn
      (by simp only [jbuf_put, List.length_singleton]; omega)
    simp only [jbuf_put_put] at h2 h3
    simp only [_lz_j_to_buffer, h1, jbuf_then_ok, h2, h3, json_text]
    simp
  | .string s, j, hdyn, hesc, hroom => by
    simp only [json_text, List.length_cons, List.length_append, List.length_nil] at hroom
    simp only [_lz_j_to_buffer, json_text]
    exact _lz_j_string_to_buffer_fixed s j hdyn hesc (by omega)
  | .boolean b, j, hdyn, _, hroom => by
    simp only [_lz_j_to_buffer, _lz_j_boolean_to_buffer, json_text] at hroom ⊢
    exact _addbuf_printf_fixed j _ hdyn hroom
  | .null, j, hdyn, _, hroom => by
    simp only [_lz_j_to_buffer, _lz_j_null_to_buffer, json_text] at hroom ⊢
    exact _addbuf_printf_fixed j _ hdyn hroom
theorem _lz_j_array_to_buffer_loop_fixed : ∀ (elems : List lz_json) (j : __jbuf),
    j.dynamic = 0 → j.escape = true →
    j.buf_idx + (json_text_elems elems).length + 1 ≤ j.buf_len →
    _lz_j_array_to_buffer_loop elems j = (0, jbuf_put j (json_text_elems elems))
  | [], j, _, _, _ => by simp [_lz_j_array_to_buffer_loop, json_text_elems, jbuf_put_nil]
  | v :: rest, j, hdyn, hesc, hroom => by
    simp only [json_text_elems, List.length_append] at hroom
    have h1 := _lz_j_to_buffer_fixed v j hdyn hesc (by omega)
    have h2 := separator_fixed (jbuf_put j (json_text v)) rest hdyn
      (by simp only [jbuf_put]; omega)
    have h3 := _lz_j_array_to_buffer_loop_fixed rest
      (jbuf_put (jbuf_put j (json_text v)) (if rest.isEmpty then [] else [44])) hdyn hesc
      (by simp only [jbuf_put]; omega)
    simp only [jbuf_put_put] at h2 h3
    simp only [_lz_j_array_to_buffer_loop, h1, jbuf_then_ok, h2, h3, json_text_elems]
    simp
theorem _lz_j_object_to_buffer_loop_fixed : ∀ (ents : List (List Nat × lz_json)) (j : __jbuf),
    j.dynamic = 0 → j.escape = true →
    j.buf_idx + (json_text_ents ents).length + 1 ≤ j.buf_len →
    _lz_j_object_to_buffer_loop ents j = (0, jbuf_put j (json_text_ents ents))
  | [], j, _, _, _ => by simp [_lz_j_object_to_buffer_loop, json_text_ents, jbuf_put_nil]
  | (key, v) :: rest, j, hdyn, hesc, hroom => by
    simp only [json_text_ents, List.length_cons, List.length_append] at hroom
    have h1 := _addbuf_fixed j [34] hdyn (by simp only [List.length_singleton]; omega)
    have h2 := _addbuf_fixed (jbuf_put j [34]) key hdyn
      (by simp only [jbuf_put, List.length_singleton]; omega)
    have h3 := _addbuf_fixed (jbuf_put (jbuf_put j [34]) key) [34, 58] hdyn
      (by simp only [jbuf_put, List.length_singleton, List.length_cons, List.length_nil]; omega)
    have h4 := _lz_j_to_buffer_fixed v (jbuf_put (jbuf_put (jbuf_put j [34]) key) [34, 58])
      hdyn hesc
      (by simp only [jbuf_put, List.length_singleton, List.length_cons, List.length_nil]; omega)
    have h5 := separator_fixed
      (jbuf_put (jbuf_put (jbuf_put (jbuf_put j [34]) key) [34, 58]) (json_text v)) rest hdyn
      (by simp only [jbuf_put, List.length_singleton, List.length_cons, List.length_nil]; omega)
    have h6 := _lz_j_object_to_buffer_loop_fixed rest
      (jbuf_put (jbuf_put (jbuf_put (jbuf_put (jbuf_put j [34]) key) [34, 58]) (json_text v))
        (if rest.isEmpty then [] else [44])) hdyn hesc
      (by simp only [jbuf_put, List.length_singleton, List.length_cons, List.length_nil]; omega)
    simp only [jbuf_put_put] at h2 h3 h4 h5 h6
    simp only [_lz_j_object_to_buffer_loop, h1, jbuf_then_ok, h2, h3, h4, h5, h6,
      json_text_ents]
    simp
end

theorem json_text_elems_eq_intercalate (elems : List lz_json) :
    json_text_elems elems = List.intercalate [44] (elems.map json_text) := by
  induction elems with
  | nil => rfl
  | cons v rest ih =>
    cases rest with
    | nil => simp [json_text_elems, List.intercalate]
    | cons w rest2 =>
      simp only [json_text_elems, List.isEmpty_cons, Bool.false_eq_true, if_false] at ih ⊢
      rw [ih]
      simp [List.intercalate]

theorem json_text_ents_eq_intercalate (ents : List (List Nat × lz_json)) :
    json_text_ents ents
      = List.intercalate [44]
          (ents.map (fun e => [34] ++ e.1 ++ [34, 58] ++ json_text e.2)) := by
  induction ents with
  | nil => rfl
  | cons e rest ih =>
    obtain ⟨key, v⟩ := e
    cases rest with
    | nil => simp [json_text_ents, List.intercalate]
    | cons w rest2 =>
      obtain ⟨key2, v2⟩ := w
      simp only [json_text_ents, List.isEmpty_cons, Bool.false_eq_true, if_false] at ih ⊢
      rw [ih]
      simp [List.intercalate]

theorem json_text_length_le_elems (elems : List lz_json) (c : lz_json) (hc : c ∈ elems) :
    (json_text c).length ≤ (json_text_elems elems).length := by
  induction elems with
  | nil => simp at hc
  | cons v rest ih =>
    simp only [json_text_elems, List.length_append]
    rcases List.mem_cons.mp hc with rfl | hm
    · omega
    · have := ih hm
      omega

theorem json_text_length_le_ents (ents : List (List Nat × lz_json)) (e : List Nat × lz_json)
    (he : e ∈ ents) : (json_text e.2).length ≤ (json_text_ents ents).length := by
  induction ents with
  | nil => simp at he
  | cons x rest ih =>
    obtain ⟨key, v⟩ := x
    simp only [json_text_ents, List.length_cons, List.length_append]
    rcases List.mem_cons.mp he with rfl | hm
    · simp only []
      omega
    · have := ih hm
      omega

theorem _lz_j_to_buffer_array_fixed (elems : List lz_json) (j : __jbuf) (hdyn : j.dynamic = 0)
    (hesc : j.escape = true)
    (hroom : j.buf_idx + (json_text (.array elems)).length ≤ j.buf_len) :
    _lz_j_to_buffer (.array elems) j = (0, jbuf_put j (json_text (.array elems))) := by
  simp only [json_text, List.length_cons, List.length_append, List.length_nil] at hroom
  have h1 := _addbuf_fixed j [91] hdyn (by simp only [List.length_singleton]; omega)
  have h2 := _lz_j_array_to_buffer_loop_fixed elems (jbuf_put j [91]) hdyn hesc
    (by simp only [jbuf_put, List.length_singleton]; omega)
  have h3 := _addbuf_fixed (jbuf_put (jbuf_put j [91]) (json_text_elems elems)) [93] hdyn
    (by simp only [jbuf_put, List.length_singleton]; omega)
  simp only [jbuf_put_put] at h2 h3
  simp only [_lz_j_to_buffer, h1, jbuf_then_ok, h2, h3, json_text]
  simp

theorem _lz_j_to_buffer_object_fixed (ents : List (List Nat × lz_json)) (j : __jbuf)
    (hdyn : j.dynamic = 0) (hesc : j.escape = true)
    (hroom : j.buf_idx + (json_text (.object ents)).length ≤ j.buf_len) :
    _lz_j_to_buffer (.object ents) j = (0, jbuf_put j (json_text (.object ents))) := by
  simp only [json_text, List.length_cons, List.length_append, List.length_nil] at hroom
  have h1 := _addbuf_fixed j [123] hdyn (by simp only [List.length_singleton]; omega)
  have h2 := _lz_j_object_to_buffer_loop_fixed ents (jbuf_put j [123]) hdyn hesc
    (by simp only [jbuf_put, List.length_singleton]; omega)
  have h3 := _addbuf_fixed (jbuf_put (jbuf_put j [123]) (json_text_ents ents)) [125] hdyn
    (by simp only [jbuf_put, List.length_singleton]; omega)
  simp only [jbuf_put_put] at h2 h3
  simp only [_lz_j_to_buffer, h1, jbuf_then_ok, h2, h3, json_text]
  simp

theorem lz_json_to_buffer_of_fixed (v : lz_json) (buf_len : Nat)
    (h : _lz_j_to_buffer v
        { buf := [], buf_idx := 0, written := 0, buf_len := buf_len, dynamic := 0,
          escape := true }
      = (0, jbuf_put
        { buf := [], buf_idx := 0, written := 0, buf_len := buf_len, dynamic := 0,
          escape := true } (json_text v))) :
    lz_json_to_buffer v buf_len = ((((json_text v).length : Nat) : Int), json_text v) := by
  simp only [lz_json_to_buffer, h]
  simp [jbuf_put]

/-- With room for the text and one more byte, `lz_json_to_buffer` writes the
text of any value and returns its length. -/
theorem lz_json_to_buffer_text (v : lz_json) (buf_len : Nat)
    (hcap : (json_text v).length < buf_len) :
    lz_json_to_buffer v buf_len = ((((json_text v).length : Nat) : Int), json_text v) := by
  apply lz_json_to_buffer_of_fixed
  apply _lz_j_to_buffer_fixed _ _ rfl rfl
  show 0 + (json_text v).length + 1 ≤ buf_len
  omega

/-- With room for exactly the text, `lz_json_to_buffer` writes the text of an
Array and returns its length. -/
theorem lz_json_to_buffer_array (elems : List lz_json) (buf_len : Nat)
    (hcap : (json_text (.array elems)).length ≤ buf_len) :
    lz_json_to_buffer (.array elems) buf_len
      = ((((json_text (.array elems)).length : Nat) : Int), json_text (.array elems)) := by
  apply lz_json_to_buffer_of_fixed
  apply _lz_j_to_buffer_array_fixed _ _ rfl rfl
  show 0 + (json_text (.array elems)).length ≤ buf_len
  omega

/-- With room for exactly the text, `lz_json_to_buffer` writes the text of an
Object and returns its length. -/
theorem lz_json_to_buffer_object (ents : List (List Nat × lz_json)) (buf_len : Nat)
    (hcap : (json_text (.object ents)).length ≤ buf_len) :
    lz_json_to_buffer (.object ents) buf_len
      = ((((json_text (.object ents)).length : Nat) : Int), json_text (.object ents)) := by
  apply lz_json_to_buffer_of_fixed
  apply _lz_j_to_buffer_object_fixed _ _ rfl rfl
  show 0 + (json_text (.object ents)).length ≤ buf_len
  omega

/-- Claim C20: with room for the whole text, `lz_json_to_buffer` on an Array
writes `'['`, the serializations of the children in sequence order with one
`','` between consecutive children and none after the last, then `']'`; on an
Object it writes `'{'`, then for each entry in map order a quote, the key
bytes, a quote, `':'` and the serialization of the value, with one `','`
between consecutive entries, then `'}'`.  The serialization of a child is what
`lz_json_to_buffer` writes for the child alone, which succeeds in the same
buffer; the value returned is the number of bytes written. -/
theorem C20_container_layout (elems : List lz_json) (ents : List (List Nat × lz_json))
    (buf_len : Nat) (ha : (json_text (.array elems)).length ≤ buf_len)
    (ho : (json_text (.object ents)).length ≤ buf_len) :
    (lz_json_to_buffer (.array elems) buf_len).2
        = [91] ++ List.intercalate [44] (elems.map (fun c => (lz_json_to_buffer c buf_len).2))
            ++ [93]
      ∧ (lz_json_to_buffer (.array elems) buf_len).1
          = (((lz_json_to_buffer (.array elems) buf_len).2.length : Nat) : Int)
      ∧ (lz_json_to_buffer (.object ents) buf_len).2
          = [123] ++ List.intercalate [44]
              (ents.map (fun e => [34] ++ e.1 ++ [34, 58] ++ (lz_json_to_buffer e.2 buf_len).2))
            ++ [125]
      ∧ (lz_json_to_buffer (.object ents) buf_len).1
          = (((lz_json_to_buffer (.object ents) buf_len).2.length : Nat) : Int)
      ∧ (∀ c ∈ elems, (lz_json_to_buffer c buf_len).1 ≠ -1)
      ∧ (∀ e ∈ ents, (lz_json_to_buffer e.2 buf_len).1 ≠ -1) := by
  have hchild : ∀ c ∈ elems, lz_json_to_buffer c buf_len
      = ((((json_text c).length : Nat) : Int), json_text c) := by
    intro c hc
    apply lz_json_to_buffer_text
    have := json_text_length_le_elems elems c hc
    simp only [json_text, List.length_cons, List.length_append, List.length_nil] at ha
    omega
  have hval : ∀ e ∈ ents, lz_json_to_buffer e.2 buf_len
      = ((((json_text e.2).length : Nat) : Int), json_text e.2) := by
    intro e he
    apply lz_json_to_buffer_text
    have := json_text_length_le_ents ents e he
    simp only [json_text, List.length_cons, List.length_append, List.length_nil] at ho
    omega
  have hmap1 : elems.map (fun c => (lz_json_to_buffer c buf_len).2) = elems.map json_text :=
    List.map_congr_left (fun c hc => by rw [hchild c hc])
  have hmap2 : ents.map (fun e => [34] ++ e.1 ++ [34, 58] ++ (lz_json_to_buffer e.2 buf_len).2)
      = ents.map (fun e => [34] ++ e.1 ++ [34, 58] ++ json_text e.2) :=
    List.map_congr_left (fun e he => by rw [hval e he])
  rw [hmap1, hmap2, lz_json_to_buffer_array elems buf_len ha,
    lz_json_to_buffer_object ents buf_len ho, ← json_text_elems_eq_intercalate,
    ← json_text_ents_eq_intercalate]
  refine ⟨by simp [json_text], rfl, by simp [json_text], rfl, ?_, ?_⟩
  · intro c hc
    rw [hchild c hc]
    simp only [ne_eq]
    omega
  · intro e he
    rw [hval e he]
    simp only [ne_eq]
    omega

/-- Witness for C20: the Array `[1,null,"a"]` and the Object
`{"k":true,"":[]}` in a 16-byte buffer. -/
theorem C20_container_layout_witness :
    (lz_json_to_buffer (.array [.number 1, .null, .string [97]]) 16).2
        = [91] ++ List.intercalate [44]
            ([lz_json.number 1, .null, .string [97]].map
              (fun c => (lz_json_to_buffer c 16).2)) ++ [93]
      ∧ (lz_json_to_buffer (.array [.number 1, .null, .string [97]]) 16).2
        = bytes "[1,null,\"a\"]"
      ∧ (lz_json_to_buffer (.object [([107], .boolean true), ([], .array [])]) 16).2
        = bytes "\x7b\"k\":true,\"\":[]\x7d" :=
  ⟨(C20_container_layout [.number 1, .null, .string [97]]
      [([107], .boolean true), ([], .array [])] 16 (by decide) (by decide)).1, rfl, rfl⟩

/-! ## Serializer: fixed capacity is never exceeded (C21) -/

theorem jbuf_put_fixed_inv (j : __jbuf) (txt : List Nat) (h : jbuf_fixed_inv j)
    (hroom : j.buf_idx + txt.length ≤ j.buf_len) : jbuf_fixed_inv (jbuf_put j txt) := by
  obtain ⟨h1, h2, h3, h4⟩ := h
  refine ⟨h1, hroom, ?_, ?_⟩
  · simp only [jbuf_put, h3]
    push_cast
    rfl
  · simp only [jbuf_put, List.length_append, h4]

theorem _addbuf_step (j : __jbuf) (src : List Nat) (h : jbuf_fixed_inv j) :
    jbuf_step j (_addbuf j src) src := by
  by_cases hroom : j.buf_idx + src.length ≤ j.buf_len
  · rw [_addbuf_fixed j src h.1 hroom]
    exact ⟨jbuf_put_fixed_inv j src h hroom, rfl, rfl, Or.inr ⟨rfl, hroom⟩⟩
  · have h0 : ¬ (src.length = 0) := by
      intro h0
      have := h.2.1
      omega
    have hdyn : ¬ (j.dynamic = 1) := by rw [h.1]; decide
    have hgt : j.buf_idx + src.length > j.buf_len := by omega
    simp only [_addbuf, h0, hgt, hdyn, if_true, if_false]
    exact ⟨h, rfl, rfl, Or.inl rfl⟩

theorem _addbuf_printf_step (j : __jbuf) (lit : List Nat) (h : jbuf_fixed_inv j) :
    jbuf_step j (_addbuf_printf j lit) lit := by
  unfold _addbuf_printf
  split_ifs
  · exact ⟨h, rfl, rfl, Or.inl rfl⟩
  · exact _addbuf_step j lit h

theorem jbuf_step_nil (j : __jbuf) (h : jbuf_fixed_inv j) : jbuf_step j (0, j) [] :=
  ⟨h, rfl, rfl, Or.inr ⟨by rw [jbuf_put_nil], by simp; exact h.2.1⟩⟩

theorem jbuf_then_step (j : __jbuf) (r : Int × __jbuf) (k : __jbuf → Int × __jbuf)
    (t1 t2 : List Nat) (h1 : jbuf_step j r t1)
    (h2 : ∀ j1, jbuf_fixed_inv j1 → j1.escape = j.escape → j1.buf_len = j.buf_len →
      j1 = jbuf_put j t1 → jbuf_step j1 (k j1) t2) :
    jbuf_step j (jbuf_then r k) (t1 ++ t2) := by
  obtain ⟨hinv, hesc, hlen, hres⟩ := h1
  unfold jbuf_then
  rcases hres with hres | ⟨hres, hroom⟩
  · rw [if_pos hres]
    exact ⟨hinv, hesc, hlen, Or.inl hres⟩
  · have hne : ¬ (r.1 = -1) := by rw [hres]; simp
    rw [if_neg hne]
    have hr2 : r.2 = jbuf_put j t1 := by rw [hres]
    obtain ⟨kinv, kesc, klen, kres⟩ := h2 r.2 hinv hesc hlen hr2
    refine ⟨kinv, kesc.trans hesc, klen.trans hlen, ?_⟩
    rcases kres with kres | ⟨kres, kroom⟩
    · exact Or.inl kres
    · right
      rw [hr2] at kres kroom
      rw [jbuf_put_put] at kres
      refine ⟨by rw [hr2]; exact kres, ?_⟩
      simp only [jbuf_put, List.length_append] at kroom ⊢
      omega

theorem _lz_j_escape_string_step (s : List Nat) :
    ∀ j, jbuf_fixed_inv j → jbuf_step j (_lz_j_escape_string s j) (escaped_text s) := by
  induction s with
  | nil => intro j h; exact jbuf_step_nil j h
  | cons ch rest ih =>
    intro j h
    rw [_lz_j_escape_string, escaped_text]
    refine jbuf_then_step j _ _ _ _ ?_ (fun j1 h1 _ _ _ => ih j1 h1)
    unfold escaped_byte
    split_ifs <;> exact _addbuf_step j _ h

theorem _lz_j_string_to_buffer_step (s : List Nat) (j : __jbuf) (h : jbuf_fixed_inv j)
    (hesc : j.escape = true) :
    jbuf_step j (_lz_j_string_to_buffer s j) (34 :: (escaped_text s ++ [34])) := by
  unfold _lz_j_string_to_buffer
  refine jbuf_then_step j _ _ [34] _ (_addbuf_step j _ h) ?_
  intro j1 h1 e1 _ _
  refine jbuf_then_step j1 _ _ _ _ ?_ (fun j2 h2 _ _ _ => _addbuf_step j2 _ h2)
  rw [if_pos (e1.trans hesc)]
  exact _lz_j_escape_string_step s j1 h1

mutual
theorem _lz_j_to_buffer_step : ∀ (v : lz_json) (j : __jbuf), jbuf_fixed_inv j →
    j.escape = true → jbuf_step j (_lz_j_to_buffer v j) (json_text v)
  | .number n, j, h, _ => by
    simp only [_lz_j_to_buffer, _addbuf_number, json_text]
    exact _addbuf_step j _ h
  | .array elems, j, h, hesc => by
    simp only [_lz_j_to_buffer, json_text]
    refine jbuf_then_step j _ _ [91] _ (_addbuf_step j _ h) ?_
    intro j1 h1 e1 _ _
    refine jbuf_then_step j1 _ _ _ [93] (_lz_j_array_to_buffer_loop_step elems j1 h1 (e1.trans hesc)) ?_
    intro j2 h2 _ _ _
    have := jbuf_then_step j2 _ (fun j3 => (0, j3)) [93] [] (_addbuf_step j2 _ h2)
      (fun j3 h3 _ _ _ => jbuf_step_nil j3 h3)
    simpa using this
  | .object ents, j, h, hesc => by
    simp only [_lz_j_to_buffer, json_text]
    refine jbuf_then_step j _ _ [123] _ (_addbuf_step j _ h) ?_
    intro j1 h1 e1 _ _
    refine jbuf_then_step j1 _ _ _ [125] (_lz_j_object_to_buffer_loop_step ents j1 h1 (e1.trans hesc)) ?_
    intro j2 h2 _ _ _
    have := jbuf_then_step j2 _ (fun j3 => (0, j3)) [125] [] (_addbuf_step j2 _ h2)
      (fun j3 h3 _ _ _ => jbuf_step_nil j3 h3)
    simpa using this
  | .string s, j, h, hesc => by
    simp only [_lz_j_to_buffer, json_text]
    exact _lz_j_string_to_buffer_step s j h hesc
  | .boolean b, j, h, _ => by
    simp only [_lz_j_to_buffer, _lz_j_boolean_to_buffer, json_text]
    exact _addbuf_printf_step j _ h
  | .null, j, h, _ => by
    simp only [_lz_j_to_buffer, _lz_j_null_to_buffer, json_text]
    exact _addbuf_printf_step j _ h
theorem _lz_j_array_to_buffer_loop_step : ∀ (elems : List lz_json) (j : __jbuf),
    jbuf_fixed_inv j → j.escape = true →
    jbuf_step j (_lz_j_array_to_buffer_loop elems j) (json_text_elems elems)
  | [], j, h, _ => by
    simp only [_lz_j_array_to_buffer_loop, json_text_elems]
    exact jbuf_step_nil j h
  | val :: rest, j, h, hesc => by
    simp only [_lz_j_array_to_buffer_loop, json_text_elems]
    refine jbuf_then_step j _ _ _ _ (_lz_j_to_buffer_step val j h hesc) ?_
    intro j1 h1 e1 _ _
    refine jbuf_then_step j1 _ _ _ _ ?_
      (fun j2 h2 e2 _ _ => _lz_j_array_to_buffer_loop_step rest j2 h2 (e2.trans (e1.trans hesc)))
    split_ifs
    · exact jbuf_step_nil j1 h1
    · exact _addbuf_step j1 _ h1
theorem _lz_j_object_to_buffer_loop_step : ∀ (ents : List (List Nat × lz_json)) (j : __jbuf),
    jbuf_fixed_inv j → j.escape = true →
    jbuf_step j (_lz_j_object_to_buffer_loop ents j) (json_text_ents ents)
  | [], j, h, _ => by
    simp only [_lz_j_object_to_buffer_loop, json_text_ents]
    exact jbuf_step_nil j h
  | (key, val) :: rest, j, h, hesc => by
    simp only [_lz_j_object_to_buffer_loop, json_text_ents]
    have hcons : ∀ (a : Nat) (l : List Nat), a :: l = [a] ++ l := fun _ _ => rfl
    rw [hcons 34 (key ++ _), hcons 34 (58 :: _), hcons 58]
    rw [← List.append_assoc [34] [58]]
    refine jbuf_then_step j _ _ [34] _ (_addbuf_step j _ h) ?_
    intro j1 h1 e1 _ _
    refine jbuf_then_step j1 _ _ key _ (_addbuf_step j1 _ h1) ?_
    intro j2 h2 e2 _ _
    refine jbuf_then_step j2 _ _ [34, 58] _ (_addbuf_step j2 _ h2) ?_
    intro j3 h3 e3 _ _
    have hesc3 : j3.escape = true := e3.trans (e2.trans (e1.trans hesc))
    refine jbuf_then_step j3 _ _ _ _ (_lz_j_to_buffer_step val j3 h3 hesc3) ?_
    intro j4 h4 e4 _ _
    refine jbuf_then_step j4 _ _ _ _ ?_
      (fun j5 h5 e5 _ _ => _lz_j_object_to_buffer_loop_step rest j5 h5 (e5.trans (e4.trans hesc3)))
    split_ifs
    · exact jbuf_step_nil j4 h4
    · exact _addbuf_step j4 _ h4
end

/-- Claim C21: the write target `lz_json_to_buffer` starts from satisfies the
fixed-capacity invariant (write offset at most `buf_len`, written count equal
to the write offset); every `_addbuf` and `_addbuf_printf` on a target that
satisfies it, and every `_lz_j_to_buffer` of a value on such a target, leaves
a target that satisfies it with the same capacity, whether the write succeeds
or fails, so it holds at every point of the call; the bytes stored by
`lz_json_to_buffer` never exceed `buf_len`; and the call returns -1 whenever
the complete text of the value is longer than `buf_len`. -/
theorem C21_fixed_capacity_never_overflows (v : lz_json) (buf_len : Nat) :
    jbuf_fixed_inv { buf := [], buf_idx := 0, written := 0, buf_len := buf_len, dynamic := 0, escape := true }
      ∧ (∀ j src, jbuf_fixed_inv j →
          jbuf_fixed_inv (_addbuf j src).2 ∧ (_addbuf j src).2.buf_len = j.buf_len)
      ∧ (∀ j lit, jbuf_fixed_inv j →
          jbuf_fixed_inv (_addbuf_printf j lit).2 ∧ (_addbuf_printf j lit).2.buf_len = j.buf_len)
      ∧ (∀ w j, jbuf_fixed_inv j → j.escape = true →
          jbuf_fixed_inv (_lz_j_to_buffer w j).2 ∧ (_lz_j_to_buffer w j).2.buf_len = j.buf_len)
      ∧ (lz_json_to_buffer v buf_len).2.length ≤ buf_len
      ∧ (buf_len < (json_text v).length → (lz_json_to_buffer v buf_len).1 = -1) := by
  have h0 : jbuf_fixed_inv
      { buf := [], buf_idx := 0, written := 0, buf_len := buf_len, dynamic := 0, escape := true } :=
    ⟨rfl, Nat.zero_le _, rfl, rfl⟩
  have hs := _lz_j_to_buffer_step v _ h0 rfl
  refine ⟨h0, ?_, ?_, ?_, ?_, ?_⟩
  · intro j src h
    exact ⟨(_addbuf_step j src h).1, (_addbuf_step j src h).2.2.1⟩
  · intro j lit h
    exact ⟨(_addbuf_printf_step j lit h).1, (_addbuf_printf_step j lit h).2.2.1⟩
  · intro w j h hesc
    exact ⟨(_lz_j_to_buffer_step w j h hesc).1, (_lz_j_to_buffer_step w j h hesc).2.2.1⟩
  · obtain ⟨⟨-, hle, -, hlen⟩, -, hcap, -⟩ := hs
    have hbuf : (lz_json_to_buffer v buf_len).2 = (_lz_j_to_buffer v
        { buf := [], buf_idx := 0, written := 0, buf_len := buf_len, dynamic := 0, escape := true }).2.buf := by
      simp only [lz_json_to_buffer]
      split_ifs <;> rfl
    rw [hbuf, hlen]
    simpa [hcap] using hle
  · intro hlong
    obtain ⟨-, -, -, hres⟩ := hs
    rcases hres with hres | ⟨-, hroom⟩
    · simp only [lz_json_to_buffer, hres, if_true]
    · simp only [Nat.zero_add] at hroom
      omega

/-- Witness for C21: the Array `[1,2]`, whose text has 5 bytes, with a 4-byte
buffer. -/
theorem C21_fixed_capacity_never_overflows_witness :
    (lz_json_to_buffer (.array [.number 1, .number 2]) 4).1 = -1 :=
  (C21_fixed_capacity_never_overflows (.array [.number 1, .number 2]) 4).2.2.2.2.2 (by decide)

/-! ## Serializer: capacity in fixed and auto-growing mode (C22, C23) -/

/-- Claim C22, evaluated at the Boolean true, whose text `true` has length 4:
`lz_json_to_buffer` with a 4-byte buffer returns -1 and only a 5-byte buffer
gives 4, because `_addbuf_vprintf` formats into a temporary of
`buf_len - buf_idx` bytes and refuses a literal that fills it.  The Number
1234 and the String `ab`, which go through `_addbuf`, do fit a 4-byte buffer. -/
theorem C22_true_needs_five_bytes :
    json_text (.boolean true) = bytes "true"
      ∧ lz_json_to_buffer (.boolean true) 4 = (-1, [])
      ∧ lz_json_to_buffer (.boolean true) 5 = (4, bytes "true")
      ∧ lz_json_to_buffer (.number 1234) 4 = (4, bytes "1234")
      ∧ lz_json_to_buffer (.string (bytes "ab")) 4 = (4, bytes "\"ab\"") := by
  refine ⟨?_, ?_, ?_, ?_, ?_⟩ <;> rfl

/-- Claim C23, evaluated at the Boolean true, at Null and at an Array of seven
Booleans: `lz_json_to_buffer_alloc` returns `NULL`.  `_addbuf_vprintf` sizes
its temporary to the room left in the target and fails before `_addbuf` can
enlarge the target; an Array of six Booleans still fits the 32 spare bytes
gained with the opening bracket. -/
theorem C23_alloc_fails_on_booleans :
    lz_json_to_buffer_alloc (.boolean true) = none
      ∧ lz_json_to_buffer_alloc .null = none
      ∧ lz_json_to_buffer_alloc (.array [.boolean true, .boolean true, .boolean true,
          .boolean true, .boolean true, .boolean true, .boolean true]) = none
      ∧ lz_json_to_buffer_alloc (.array [.boolean true, .boolean true, .boolean true,
          .boolean true, .boolean true, .boolean true])
        = some (bytes "[true,true,true,true,true,true]", 31) := by
  refine ⟨?_, ?_, ?_, ?_⟩ <;> rfl

/-! ## Comparator: strings and arrays (C24, C25) -/

/-- Claim C24, evaluated at the String values with the 3-byte payloads
`a`, zero, `b` and `a`, zero, `c`, both of which `lz_json_parse_string`
returns for the quoted payload: they have the same length and differ in their
last byte, yet `lz_json_compare` reports equal (0), because
`_lz_j_string_compare` compares with `strcmp`, which stops at the zero byte. -/
theorem C24_bytes_after_zero_are_ignored :
    lz_json_compare (.string [97, 0, 98]) (.string [97, 0, 99]) none = 0
      ∧ ([97, 0, 98] : List Nat) ≠ [97, 0, 99]
      ∧ lz_json_get_size (.string [97, 0, 98]) = lz_json_get_size (.string [97, 0, 99])
      ∧ (lz_json_parse_string [34, 97, 0, 98, 34]).1 = some (.string [97, 0, 98])
      ∧ (lz_json_parse_string [34, 97, 0, 99, 34]).1 = some (.string [97, 0, 99]) := by
  refine ⟨rfl, by decide, rfl, rfl, rfl⟩

theorem lz_tailq_get_at_index_eq_getElem (l : List lz_json) (k : Nat) :
    lz_tailq_get_at_index l k = l[k]? := by
  induction l generalizing k with
  | nil => cases k <;> simp [lz_tailq_get_at_index]
  | cons x rest ih =>
    cases k with
    | zero => simp [lz_tailq_get_at_index]
    | succ n => simpa [lz_tailq_get_at_index] using ih n

theorem _lz_j_array_compare_loop_zero_iff (cb : Option lz_json_key_filtercb)
    (es b : List lz_json) :
    ∀ idx, _lz_j_array_compare_loop es b idx cb = 0
      ↔ ∀ j v, es[j]? = some v → ∃ v2, b[idx + j]? = some v2 ∧ _lz_j_compare v v2 cb = 0 := by
  induction es with
  | nil => intro idx; simp [_lz_j_array_compare_loop]
  | cons x rest ih =>
    intro idx
    simp only [_lz_j_array_compare_loop, lz_tailq_get_at_index_eq_getElem]
    constructor
    · intro h j v hj
      cases hb : b[idx]? with
      | none => simp [hb] at h
      | some w =>
        simp only [hb] at h
        by_cases hc : _lz_j_compare x w cb = -1
        · simp [hc] at h
        · simp only [hc, if_false] at h
          cases j with
          | zero =>
            simp only [List.getElem?_cons_zero, Option.some.injEq] at hj
            subst hj
            exact ⟨w, by simpa using hb, _lz_j_compare_eq_zero_of_ne x w cb hc⟩
          | succ n =>
            simp only [List.getElem?_cons_succ] at hj
            obtain ⟨v2, h1, h2⟩ := (ih (idx + 1)).1 h n v hj
            exact ⟨v2, by rw [← h1]; congr 1; omega, h2⟩
    · intro h
      obtain ⟨w, hw, hc⟩ := h 0 x (by simp)
      simp only [Nat.add_zero] at hw
      have hne : ¬ (_lz_j_compare x w cb = -1) := by omega
      simp only [hw, hne, if_false]
      apply (ih (idx + 1)).2
      intro j v hj
      obtain ⟨v2, h1, h2⟩ := h (j + 1) v (by simpa using hj)
      exact ⟨v2, by rw [← h1]; congr 1; omega, h2⟩

/-- Claim C25: for every two Array values and every filter `cb`,
`lz_json_compare` reports equal (0) exactly when the arrays have the same
length and, at every position, comparing the two elements with the same `cb`
reports equal; arrays of different length are reported not-equal (-1)
whatever their elements are. -/
theorem C25_array_compare_positional (a b : List lz_json)
    (cb : Option lz_json_key_filtercb) :
    (lz_json_compare (.array a) (.array b) cb = 0
        ↔ a.length = b.length
          ∧ ∀ k (ha : k < a.length) (hb : k < b.length),
              lz_json_compare (a.get ⟨k, ha⟩) (b.get ⟨k, hb⟩) cb = 0)
      ∧ (a.length ≠ b.length → lz_json_compare (.array a) (.array b) cb = -1) := by
  have hunfold : lz_json_compare (.array a) (.array b) cb
      = if a.length ≠ b.length then -1 else _lz_j_array_compare_loop a b 0 cb := by
    simp [lz_json_compare, _lz_j_compare, lz_json_get_type, lz_json_get_size,
      lz_json_get_array]
  rw [hunfold]
  constructor
  · by_cases hlen : a.length = b.length
    · have hn : ¬ (a.length ≠ b.length) := by simpa using hlen
      rw [if_neg hn, _lz_j_array_compare_loop_zero_iff]
      simp only [Nat.zero_add]
      constructor
      · intro h
        refine ⟨hlen, ?_⟩
        intro k ha hb
        obtain ⟨v2, h1, h2⟩ := h k (a.get ⟨k, ha⟩) (by simp)
        have : b[k]? = some (b.get ⟨k, hb⟩) := by simp
        rw [this] at h1
        simp only [Option.some.injEq] at h1
        subst h1
        exact h2
      · rintro ⟨-, h⟩ j v hj
        have ha : j < a.length := by
          by_contra hge
          have : a[j]? = none := List.getElem?_eq_none (by omega)
          rw [this] at hj
          simp at hj
        have hb : j < b.length := by omega
        refine ⟨b.get ⟨j, hb⟩, by simp, ?_⟩
        have hv : v = a.get ⟨j, ha⟩ := by
          have : a[j]? = some (a.get ⟨j, ha⟩) := by simp
          rw [this] at hj
          simp only [Option.some.injEq] at hj
          exact hj.symm
        subst hv
        exact h j ha hb
    · simp [hlen]
  · intro hlen
    simp [hlen]

/-- Witness for C25: the one-element Array `[1]` against the empty Array. -/
theorem C25_array_compare_positional_witness :
    lz_json_compare (.array [.number 1]) (.array []) none = -1 :=
  (C25_array_compare_positional [.number 1] [] none).2 (by decide)

/-! ## Parser: empty and trailing-comma arrays (C26) -/

theorem lz_json_parse_array_loop_done (pv : List Nat → Option lz_json × Nat)
    (data : List Nat) (len fuel i : Nat) (state : lz_j_arr_state) (js : List lz_json)
    (end_ch : Nat) (h : ¬ i < len) :
    lz_json_parse_array_loop pv data len fuel i state js end_ch
      = lz_json_parse_array_end i js end_ch := by
  cases fuel with
  | zero => rfl
  | succ f => simp [lz_json_parse_array_loop, h]

theorem lz_json_parse_array_loop_child (pv : List Nat → Option lz_json × Nat)
    (data : List Nat) (len fuel i : Nat) (js : List lz_json) (end_ch : Nat)
    (val : lz_json) (b_read : Nat) (hlt : i < len)
    (hsp : isspace (data.getD i 0) = false) (h93 : data.getD i 0 ≠ 93)
    (hpv : pv (data.drop i) = (some val, b_read)) :
    lz_json_parse_array_loop pv data len (fuel + 1) i .lz_j_arr_s_val js end_ch
      = lz_json_parse_array_loop pv data len fuel (i + b_read + 1) .lz_j_arr_s_comma
          (js ++ [val]) (if i + b_read + 1 = len then data.getD (i + b_read) 0 else end_ch) := by
  rw [lz_json_parse_array_loop]
  simp only [hlt, if_true, hsp, Bool.false_eq_true, if_false, h93, hpv]

theorem lz_json_parse_array_loop_close (pv : List Nat → Option lz_json × Nat)
    (data : List Nat) (len fuel i : Nat) (js : List lz_json) (end_ch : Nat)
    (hlt : i < len) (h93 : data.getD i 0 = 93) :
    lz_json_parse_array_loop pv data len (fuel + 1) i .lz_j_arr_s_val js end_ch
      = lz_json_parse_array_loop pv data len fuel (i + 1) .lz_j_arr_s_end js 93 := by
  rw [lz_json_parse_array_loop]
  have hsp : isspace 93 = false := by decide
  simp only [hlt, if_true, h93, hsp, Bool.false_eq_true, if_false]

theorem lz_json_parse_array_loop_comma (pv : List Nat → Option lz_json × Nat)
    (data : List Nat) (len fuel i : Nat) (js : List lz_json) (end_ch : Nat)
    (hlt : i < len) (h44 : data.getD i 0 = 44) :
    lz_json_parse_array_loop pv data len (fuel + 1) i .lz_j_arr_s_comma js end_ch
      = lz_json_parse_array_loop pv data len fuel (i + 1) .lz_j_arr_s_val js end_ch := by
  rw [lz_json_parse_array_loop]
  have hsp : isspace 44 = false := by decide
  simp only [hlt, if_true, h44, hsp, Bool.false_eq_true, if_false]

theorem lz_json_parse_array_loop_comma_close (pv : List Nat → Option lz_json × Nat)
    (data : List Nat) (len fuel i : Nat) (js : List lz_json) (end_ch : Nat)
    (hlt : i < len) (h93 : data.getD i 0 = 93) :
    lz_json_parse_array_loop pv data len (fuel + 1) i .lz_j_arr_s_comma js end_ch
      = lz_json_parse_array_loop pv data len fuel (i + 1) .lz_j_arr_s_end js 93 := by
  rw [lz_json_parse_array_loop]
  have hsp : isspace 93 = false := by decide
  have hne : ¬ ((93 : Nat) = 44) := by decide
  simp only [hlt, if_true, h93, hsp, Bool.false_eq_true, if_false, hne]

theorem lz_json_parse_value_first (c : Nat) (rest : List Nat) (v : lz_json) (n : Nat)
    (h : lz_json_parse_value (c :: rest) = (some v, n)) :
    isspace c = false ∧ c ≠ 93 ∧ c ≠ 44 := by
  rw [lz_json_parse_value_cons] at h
  have key : c = 34 ∨ c = 123 ∨ c = 91 ∨ isdigit c = true ∨ c = 116 ∨ c = 102 ∨ c = 110 := by
    by_contra hcon
    simp only [not_or] at hcon
    obtain ⟨a1, a2, a3, a4, a5, a6, a7⟩ := hcon
    simp [a1, a2, a3, a4, a5, a6, a7] at h
  have hd : isdigit c = true → 48 ≤ c ∧ c ≤ 57 := by
    intro hd
    simpa [isdigit] using hd
  have hs : isspace c = false ↔ ¬ (c = 32 ∨ (9 ≤ c ∧ c ≤ 13)) := by
    simp [isspace]
  rw [hs]
  rcases key with h | h | h | h | h | h | h
  all_goals first
    | omega
    | (cases hd h; omega)

theorem lz_json_parse_value_first_span (t tail : List Nat) (v : lz_json) (n : Nat)
    (htail : tail.getD 0 0 = 93 ∨ tail.getD 0 0 = 44)
    (h : lz_json_parse_value (t ++ tail) = (some v, n)) :
    0 < t.length ∧ isspace ((t ++ tail).getD 0 0) = false ∧ (t ++ tail).getD 0 0 ≠ 93 := by
  cases t with
  | nil =>
    exfalso
    cases tail with
    | nil => simp [lz_json_parse_value, lz_json_parse_value_fuel] at h
    | cons d r =>
      have := lz_json_parse_value_first d r v n h
      simp only [List.getD_cons_zero] at htail
      rcases htail with h1 | h1
      · exact this.2.1 h1
      · exact this.2.2 h1
  | cons c t =>
    have := lz_json_parse_value_first c (t ++ tail) v n h
    exact ⟨by simp, this.1, this.2.1⟩

theorem getD_append_at (t l : List Nat) (j : Nat) :
    (t ++ l).getD (t.length + j) 0 = l.getD j 0 := by
  simp [List.getD_eq_getElem?_getD, List.getElem?_append_right]


theorem lz_json_parse_array_one_close (t : List Nat) (v : lz_json) (n : Nat)
    (hn : n + 1 = t.length ∨ n = t.length)
    (h1 : lz_json_parse_value (t ++ [93]) = (some v, n)) :
    lz_json_parse_array (91 :: (t ++ [93])) = (some (.array [v]), t.length + 1) := by
  obtain ⟨hpos, hsp, h93⟩ := lz_json_parse_value_first_span t [93] v n (Or.inl rfl) h1
  have hg := getD_append_at t [93] 0
  simp only [Nat.add_zero, List.getD_cons_zero] at hg
  have hd : (t ++ [93]).drop 0 = t ++ [93] := rfl
  simp only [lz_json_parse_array, lz_json_parse_array_with, ne_eq, not_true_eq_false,
    if_false, List.length_append, List.length_cons, List.length_nil]
  rcases hn with hn | hn
  · have hlen : t.length + (0 + 1) = n + 1 + 1 := by omega
    rw [hlen, lz_json_parse_array_loop_child _ _ _ _ _ _ _ v n (by omega) hsp h93 (by rw [hd]; exact h1)]
    rw [if_neg (by omega)]
    have hi : 0 + n + 1 = t.length := by omega
    rw [hi, ← hn, lz_json_parse_array_loop_comma_close _ _ _ _ _ _ _ (by omega) (by rw [hn]; exact hg)]
    rw [lz_json_parse_array_loop_done _ _ _ _ _ _ _ _ (by omega)]
    simp [lz_json_parse_array_end]
  · have hlen : t.length + (0 + 1) = n + 1 := by omega
    rw [hlen, lz_json_parse_array_loop_child _ _ _ _ _ _ _ v n (by omega) hsp h93 (by rw [hd]; exact h1)]
    rw [if_pos (by omega)]
    rw [lz_json_parse_array_loop_done _ _ _ _ _ _ _ _ (by omega)]
    have hg2 : (t ++ [93]).getD (0 + n) 0 = 93 := by rw [Nat.zero_add, hn]; exact hg
    simp [lz_json_parse_array_end, hg2, hn]

theorem lz_json_parse_array_one_comma_close (t : List Nat) (v : lz_json) (n : Nat)
    (hn : n + 1 = t.length ∨ n = t.length)
    (h2 : lz_json_parse_value (t ++ [44, 93]) = (some v, n)) :
    lz_json_parse_array (91 :: (t ++ [44, 93])) = (some (.array [v]), t.length + 2) := by
  obtain ⟨hpos, hsp, h93⟩ := lz_json_parse_value_first_span t [44, 93] v n (Or.inr rfl) h2
  have hg0 := getD_append_at t [44, 93] 0
  have hg1 := getD_append_at t [44, 93] 1
  simp only [Nat.add_zero, List.getD_cons_zero, List.getD_cons_succ] at hg0 hg1
  have hd : (t ++ [44, 93]).drop 0 = t ++ [44, 93] := rfl
  simp only [lz_json_parse_array, lz_json_parse_array_with, ne_eq, not_true_eq_false,
    if_false, List.length_append, List.length_cons, List.length_nil]
  rcases hn with hn | hn
  · have hlen : t.length + (0 + 1 + 1) = n + 1 + 1 + 1 := by omega
    rw [hlen, lz_json_parse_array_loop_child _ _ _ _ _ _ _ v n (by omega) hsp h93 (by rw [hd]; exact h2)]
    rw [if_neg (by omega)]
    have hi : 0 + n + 1 = t.length := by omega
    rw [hi, ← hn, lz_json_parse_array_loop_comma _ _ _ _ _ _ _ (by omega) (by rw [hn]; exact hg0)]
    rw [lz_json_parse_array_loop_close _ _ _ _ _ _ _ (by omega) (by rw [hn]; exact hg1)]
    rw [lz_json_parse_array_loop_done _ _ _ _ _ _ _ _ (by omega)]
    simp [lz_json_parse_array_end]
  · have hlen : t.length + (0 + 1 + 1) = n + 1 + 1 := by omega
    rw [hlen, lz_json_parse_array_loop_child _ _ _ _ _ _ _ v n (by omega) hsp h93 (by rw [hd]; exact h2)]
    rw [if_neg (by omega)]
    have hi : 0 + n + 1 = t.length + 1 := by omega
    rw [hi, ← hn, lz_json_parse_array_loop_comma_close _ _ _ _ _ _ _ (by omega) (by rw [hn]; exact hg1)]
    rw [lz_json_parse_array_loop_done _ _ _ _ _ _ _ _ (by omega)]
    simp [lz_json_parse_array_end]

/-- Claim C26: `lz_json_parse_array` accepts `[]` and returns an Array of size
0; and for every text `t` from which the value dispatcher, called where the
array parser calls it, returns the value `v` having consumed `t` (it adds the
length of `t` minus one to the counter, or the length of `t` as it does for
`null`), the parser accepts both `[` `t` `]` and `[` `t` `,` `]` and returns
the one-element Array holding `v` for each. -/
theorem C26_empty_and_trailing_comma (t : List Nat) (v : lz_json) (n : Nat)
    (hn : n + 1 = t.length ∨ n = t.length)
    (h1 : lz_json_parse_value (t ++ [93]) = (some v, n))
    (h2 : lz_json_parse_value (t ++ [44, 93]) = (some v, n)) :
    lz_json_parse_array (bytes "[]") = (some (.array []), 1)
      ∧ lz_json_get_size (.array []) = 0
      ∧ (lz_json_parse_array (91 :: (t ++ [93]))).1 = some (.array [v])
      ∧ (lz_json_parse_array (91 :: (t ++ [44, 93]))).1
          = (lz_json_parse_array (91 :: (t ++ [93]))).1 := by
  rw [lz_json_parse_array_one_close t v n hn h1,
    lz_json_parse_array_one_comma_close t v n hn h2]
  exact ⟨rfl, rfl, rfl, rfl⟩

/-- Witness for C26: the text `12`, for which the dispatcher returns the
Number 12 and adds 1. -/
theorem C26_empty_and_trailing_comma_witness :
    lz_json_parse_array (bytes "[]") = (some (.array []), 1)
      ∧ lz_json_get_size (.array []) = 0
      ∧ (lz_json_parse_array (91 :: (bytes "12" ++ [93]))).1 = some (.array [.number 12])
      ∧ (lz_json_parse_array (91 :: (bytes "12" ++ [44, 93]))).1
          = (lz_json_parse_array (91 :: (bytes "12" ++ [93]))).1 :=
  C26_empty_and_trailing_comma (bytes "12") (.number 12) 1 (Or.inl rfl) rfl rfl

/-! ## Parser: the consumed-bytes counter stays inside the span (C27) -/

theorem lz_json_parse_string_loop_bound (buflen : Nat) (l : List Nat) :
    ∀ (i : Nat) (buf : List Nat) (escaped : Bool),
      (lz_json_parse_string_loop buflen l i buf escaped).2 ≤ i + l.length := by
  induction l with
  | nil => intro i buf escaped; simp [lz_json_parse_string_loop]
  | cons ch rest ih =>
    intro i buf escaped
    have h1 := ih (i + 1) (buf ++ [ch]) false
    have h2 := ih (i + 1) buf true
    simp only [lz_json_parse_string_loop, List.length_cons]
    split_ifs <;> omega

theorem lz_json_parse_string_bound (data : List Nat) :
    (lz_json_parse_string data).2 ≤ data.length := by
  cases data with
  | nil => simp [lz_json_parse_string]
  | cons c rest =>
    have h := lz_json_parse_string_loop_bound ((c :: rest).length + 128) rest 0 [] false
    simp only [lz_json_parse_string, List.length_cons] at h ⊢
    split_ifs <;> omega

theorem lz_json_parse_number_loop_bound (len : Nat) (l : List Nat) :
    ∀ (i : Nat) (buf : List Nat),
      i ≤ (lz_json_parse_number_loop len l i buf).2
        ∧ (lz_json_parse_number_loop len l i buf).2 ≤ i + l.length := by
  induction l with
  | nil => intro i buf; simp [lz_json_parse_number_loop]
  | cons ch rest ih =>
    intro i buf
    have h1 := ih (i + 1) (buf ++ [ch])
    simp only [lz_json_parse_number_loop, List.length_cons]
    split_ifs <;> omega

theorem lz_json_parse_number_bound (c : Nat) (rest : List Nat) (hc : isdigit c = true) :
    (lz_json_parse_number (c :: rest)).2 ≤ (c :: rest).length := by
  simp only [lz_json_parse_number, List.length_cons]
  split_ifs with h1
  · omega
  · have hstep : lz_json_parse_number_loop (rest.length + 1) (c :: rest) 0 []
        = lz_json_parse_number_loop (rest.length + 1) rest 1 [c] := by
      simp [lz_json_parse_number_loop, hc, h1]
    have hb := lz_json_parse_number_loop_bound (rest.length + 1) rest 1 [c]
    rw [hstep]
    simp only [SIZE_MOD]
    omega

theorem lz_json_parse_boolean_bound (data : List Nat) :
    (lz_json_parse_boolean data).2 ≤ data.length := by
  cases data with
  | nil => simp [lz_json_parse_boolean]
  | cons c rest =>
    simp only [lz_json_parse_boolean, List.length_cons]
    split_ifs <;> omega

theorem lz_json_parse_null_bound (data : List Nat) :
    (lz_json_parse_null data).2 ≤ data.length := by
  unfold lz_json_parse_null
  split_ifs <;> omega

theorem lz_json_parse_array_end_snd (i : Nat) (js : List lz_json) (end_ch : Nat) :
    (lz_json_parse_array_end i js end_ch).2 = i := by
  unfold lz_json_parse_array_end
  split_ifs <;> rfl

theorem lz_json_parse_object_end_snd (i : Nat) (js : List (List Nat × lz_json)) (end_ch : Nat) :
    (lz_json_parse_object_end i js end_ch).2 = i := by
  unfold lz_json_parse_object_end
  split_ifs <;> rfl

theorem lz_json_parse_array_loop_bound (pv : List Nat → Option lz_json × Nat)
    (hpv : ∀ d, (pv d).2 ≤ d.length) (data : List Nat) :
    ∀ (fuel i : Nat) (state : lz_j_arr_state) (js : List lz_json) (end_ch : Nat),
      i ≤ data.length + 1 →
      (lz_json_parse_array_loop pv data data.length fuel i state js end_ch).2
        ≤ data.length + 1 := by
  intro fuel
  induction fuel with
  | zero =>
    intro i state js end_ch hi
    simp only [lz_json_parse_array_loop, lz_json_parse_array_end_snd]
    exact hi
  | succ fuel ih =>
    intro i state js end_ch hi
    rw [lz_json_parse_array_loop]
    by_cases hlt : i < data.length
    · simp only [hlt, if_true]
      cases hsp : isspace (data.getD i 0) with
      | true =>
        simp only [if_true]
        exact ih _ _ _ _ (by omega)
      | false =>
        simp only [Bool.false_eq_true, if_false]
        cases state with
        | lz_j_arr_s_val =>
          dsimp only
          split_ifs
          · exact ih _ _ _ _ (by omega)
          · have hchild := hpv (data.drop i)
            simp only [List.length_drop] at hchild
            cases hp : pv (data.drop i) with
            | mk o b_read =>
              rw [hp] at hchild
              cases o with
              | none => dsimp only at hchild ⊢; omega
              | some val =>
                dsimp only at hchild ⊢
                exact ih _ _ _ _ (by omega)
        | lz_j_arr_s_comma =>
          dsimp only
          split_ifs
          · exact ih _ _ _ _ (by omega)
          · exact ih _ _ _ _ (by omega)
          · dsimp only; omega
        | lz_j_arr_s_end =>
          simp only [lz_json_parse_array_end_snd]
          exact hi
    · simp only [hlt, if_false, lz_json_parse_array_end_snd]
      exact hi

theorem lz_json_parse_array_with_bound (pv : List Nat → Option lz_json × Nat)
    (hpv : ∀ d, (pv d).2 ≤ d.length) (data : List Nat) :
    (lz_json_parse_array_with pv data).2 ≤ data.length := by
  cases data with
  | nil => simp [lz_json_parse_array_with]
  | cons c rest =>
    simp only [lz_json_parse_array_with, List.length_cons]
    split_ifs
    · simp
    · exact lz_json_parse_array_loop_bound pv hpv rest _ 0 _ _ _ (by omega)

theorem lz_json_parse_object_loop_bound (pv : List Nat → Option lz_json × Nat)
    (hpv : ∀ d, (pv d).2 ≤ d.length) (data : List Nat) :
    ∀ (fuel i : Nat) (state : lz_j_obj_state) (js : List (List Nat × lz_json))
      (key : List Nat) (end_ch : Nat),
      i ≤ data.length + 1 →
      (lz_json_parse_object_loop pv data data.length fuel i state js key end_ch).2
        ≤ data.length + 1 := by
  intro fuel
  induction fuel with
  | zero =>
    intro i state js key end_ch hi
    simp only [lz_json_parse_object_loop, lz_json_parse_object_end_snd]
    exact hi
  | succ fuel ih =>
    intro i state js key end_ch hi
    rw [lz_json_parse_object_loop]
    by_cases hlt : i < data.length
    · simp only [hlt, if_true]
      cases hsp : isspace (data.getD i 0) with
      | true =>
        simp only [if_true]
        exact ih _ _ _ _ _ (by omega)
      | false =>
        simp only [Bool.false_eq_true, if_false]
        cases state with
        | lz_j_obj_s_key =>
          simp only []
          split_ifs
          · exact ih _ _ _ _ _ (by omega)
          · have hchild := lz_json_parse_string_bound (data.drop i)
            simp only [List.length_drop] at hchild
            unfold lz_json_parse_key
            cases hp : lz_json_parse_string (data.drop i) with
            | mk o b_read =>
              rw [hp] at hchild
              simp only [] at hchild
              cases o with
              | none => dsimp only; omega
              | some val =>
                cases val <;> simp only [] <;> first | omega | exact ih _ _ _ _ _ (by omega)
        | lz_j_obj_s_delim =>
          simp only []
          split_ifs
          · dsimp only; omega
          · exact ih _ _ _ _ _ (by omega)
        | lz_j_obj_s_val =>
          simp only []
          have hchild := hpv (data.drop i)
          simp only [List.length_drop] at hchild
          cases hp : pv (data.drop i) with
          | mk o b_read =>
            rw [hp] at hchild
            simp only [] at hchild
            cases o with
            | none => dsimp only; omega
            | some val =>
              simp only []
              exact ih _ _ _ _ _ (by omega)
        | lz_j_obj_s_comma =>
          simp only []
          split_ifs
          · exact ih _ _ _ _ _ (by omega)
          · exact ih _ _ _ _ _ (by omega)
          · dsimp only; omega
        | lz_j_obj_s_end =>
          simp only [lz_json_parse_object_end_snd]
          exact hi
    · simp only [hlt, if_false, lz_json_parse_object_end_snd]
      exact hi

theorem lz_json_parse_object_with_bound (pv : List Nat → Option lz_json × Nat)
    (hpv : ∀ d, (pv d).2 ≤ d.length) (data : List Nat) :
    (lz_json_parse_object_with pv data).2 ≤ data.length := by
  cases data with
  | nil => simp [lz_json_parse_object_with]
  | cons c rest =>
    simp only [lz_json_parse_object_with, List.length_cons]
    split_ifs
    · simp
    · exact lz_json_parse_object_loop_bound pv hpv rest _ 0 _ _ _ _ (by omega)

theorem lz_json_parse_value_fuel_bound (depth : Nat) :
    ∀ data, (lz_json_parse_value_fuel depth data).2 ≤ data.length := by
  induction depth with
  | zero => intro data; simp [lz_json_parse_value_fuel]
  | succ depth ih =>
    intro data
    cases data with
    | nil => simp [lz_json_parse_value_fuel]
    | cons c rest =>
      rw [lz_json_parse_value_fuel_cons]
      split_ifs with h1 h2 h3 h4 h5 h6
      · exact lz_json_parse_string_bound _
      · exact lz_json_parse_object_with_bound _ ih _
      · exact lz_json_parse_array_with_bound _ ih _
      · exact lz_json_parse_number_bound c rest h4
      · exact lz_json_parse_boolean_bound _
      · exact lz_json_parse_null_bound _
      · simp

/-- Claim C27: for every input span, `lz_json_parse_value` adds at most the
length of the span to the consumed-bytes counter, whether it returns a value
or not, and so do `lz_json_parse_array` and `lz_json_parse_object`; hence the
index `i + b_read` that the array and object parsers reach after a child
parsed at index `i` of their span never passes the end of the span. -/
theorem C27_consumption_bounded (data : List Nat) :
    (lz_json_parse_value data).2 ≤ data.length
      ∧ (lz_json_parse_array data).2 ≤ data.length
      ∧ (lz_json_parse_object data).2 ≤ data.length
      ∧ ∀ i, i < data.length → i + (lz_json_parse_value (data.drop i)).2 ≤ data.length := by
  have hv : ∀ d, (lz_json_parse_value d).2 ≤ d.length :=
    fun d => lz_json_parse_value_fuel_bound d.length d
  refine ⟨hv data, lz_json_parse_array_with_bound _ hv data,
    lz_json_parse_object_with_bound _ hv data, ?_⟩
  intro i hi
  have h := hv (data.drop i)
  simp only [List.length_drop] at h
  omega

/-- Witness for C27: in the span `12,null]` of an array, the child parsed at
index 3 (`null`, for which the counter grows by 4) leaves the index inside the
8-byte span. -/
theorem C27_consumption_bounded_witness :
    3 + (lz_json_parse_value ((bytes "12,null]").drop 3)).2 ≤ (bytes "12,null]").length :=
  (C27_consumption_bounded (bytes "12,null]")).2.2.2 3 (by decide)

/-! ## Parser: the scratch buffer of the string parser (C28) -/

theorem int_to_size_t_small (x : Nat) (h : x < 2 ^ 31) : int_to_size_t x = x := by
  unfold int_to_size_t
  rw [if_pos h]

theorem int_succ_small (x : Nat) (h : x < 2 ^ 31) : (x + 1) % INT_MOD = x + 1 := by
  simp only [INT_MOD]
  omega

theorem lz_json_parse_string_loop_int_eq_scan (buflen : Nat) (l : List Nat) :
    ∀ (i : Nat) (buf : List Nat) (escaped : Bool),
      buf.length + l.length ≤ buflen → buf.length + l.length < 2 ^ 31 →
      lz_json_parse_string_loop_int buflen l i buf buf.length escaped
        = string_scan l i buf escaped := by
  induction l with
  | nil => intro i buf escaped _ _; rfl
  | cons ch rest ih =>
    intro i buf escaped hroom hint
    simp only [List.length_cons] at hroom hint
    have hsmall : buf.length < 2 ^ 31 := by omega
    have hlt : ¬ (int_to_size_t buf.length ≥ buflen) := by
      rw [int_to_size_t_small _ hsmall]; omega
    have h1 := ih (i + 1) (buf ++ [ch]) false
      (by simp only [List.length_append, List.length_singleton]; omega)
      (by simp only [List.length_append, List.length_singleton]; omega)
    have h2 := ih (i + 1) buf true (by omega) (by omega)
    simp only [List.length_append, List.length_singleton] at h1
    have hlt2 : ¬ (buf.length ≥ buflen) := by omega
    simp only [lz_json_parse_string_loop_int, string_scan, if_false,
      int_succ_small _ hsmall, int_to_size_t_small _ hsmall, hlt2, List.take_length, h1, h2]

theorem lz_json_parse_string_int_state_eq (buflen : Nat) (pre : List Nat) :
    ∀ (buf : List Nat) (escaped : Bool),
      buf.length + pre.length ≤ buflen → buf.length + pre.length < 2 ^ 31 →
      lz_json_parse_string_int_state buflen pre buf buf.length escaped
        = (string_scan_to pre buf escaped).map (fun s => (s.1, s.1.length, s.2)) := by
  induction pre with
  | nil => intro buf escaped _ _; rfl
  | cons ch rest ih =>
    intro buf escaped hroom hint
    simp only [List.length_cons] at hroom hint
    have hsmall : buf.length < 2 ^ 31 := by omega
    have hlt : ¬ (int_to_size_t buf.length ≥ buflen) := by
      rw [int_to_size_t_small _ hsmall]; omega
    have h1 := ih (buf ++ [ch]) false
      (by simp only [List.length_append, List.length_singleton]; omega)
      (by simp only [List.length_append, List.length_singleton]; omega)
    have h2 := ih buf true (by omega) (by omega)
    simp only [List.length_append, List.length_singleton] at h1
    simp only [lz_json_parse_string_int_state, string_scan_to, hlt, if_false,
      int_succ_small _ hsmall, h1, h2]
    split_ifs <;> rfl

theorem string_scan_to_length_le (pre : List Nat) :
    ∀ (buf : List Nat) (escaped : Bool) (b : List Nat) (e : Bool),
      string_scan_to pre buf escaped = some (b, e) → b.length ≤ buf.length + pre.length :=
  fun buf escaped b e h => (string_scan_append pre [] 0 buf escaped b e h).2

/-- Claim C28 as amended, for spans shorter than `2 ^ 31` bytes (first byte
`c`, then `rest`): the loop of `lz_json_parse_string`, with its `int` write index and
its scratch-exhaustion test, goes through exactly the iterations of the scan
without the test, the index being the number of bytes stored; so whenever it
has read the bytes `pre` of `rest` and stands at the scan index `length pre`
with the scratch content `b` and the index `idx`, the index is `length b`, is
at most the scan index, and as a `size_t` is strictly below `len + 128`; and
the call returns what the scan without the test returns, which is also what
`lz_json_parse_string` with the index read off the scratch content returns. -/
theorem C28_string_scratch_bound (c : Nat) (rest pre tail b : List Nat) (idx : Nat) (e : Bool)
    (hlen : (c :: rest).length < 2 ^ 31)
    (hsplit : rest = pre ++ tail)
    (hstate : lz_json_parse_string_int_state ((c :: rest).length + 128) pre [] 0 false
      = some (b, idx, e)) :
    idx = b.length
      ∧ idx ≤ pre.length
      ∧ int_to_size_t idx < (c :: rest).length + 128
      ∧ lz_json_parse_string_int_state ((c :: rest).length + 128) pre [] 0 false
          = (string_scan_to pre [] false).map (fun s => (s.1, s.1.length, s.2))
      ∧ lz_json_parse_string_int (c :: rest)
          = (if c ≠ 34 then (none, 0) else string_scan rest 0 [] false)
      ∧ lz_json_parse_string_int (c :: rest) = lz_json_parse_string (c :: rest) := by
  subst hsplit
  simp only [List.length_cons, List.length_append] at hlen
  have heq := lz_json_parse_string_int_state_eq ((c :: (pre ++ tail)).length + 128) pre [] false
    (by simp only [List.length_cons, List.length_append, List.length_nil]; omega)
    (by simp only [List.length_nil]; omega)
  simp only [List.length_nil] at heq
  have hint : lz_json_parse_string_int (c :: (pre ++ tail))
      = (if c ≠ 34 then (none, 0) else string_scan (pre ++ tail) 0 [] false) := by
    simp only [lz_json_parse_string_int]
    split_ifs
    · rfl
    · exact lz_json_parse_string_loop_int_eq_scan _ (pre ++ tail) 0 [] false
        (by simp only [List.length_cons, List.length_append, List.length_nil]; omega)
        (by simp only [List.length_append, List.length_nil]; omega)
  rw [heq] at hstate
  cases hs : string_scan_to pre [] false with
  | none => rw [hs] at hstate; simp at hstate
  | some s =>
    obtain ⟨b2, e2⟩ := s
    rw [hs] at hstate
    simp only [Option.map_some', Option.some.injEq, Prod.mk.injEq] at hstate
    obtain ⟨hb, hi, -⟩ := hstate
    subst hb
    have hle := string_scan_to_length_le pre [] false b2 e2 hs
    simp only [List.length_nil, Nat.zero_add] at hle
    refine ⟨hi.symm, by omega, ?_, ?_, hint, ?_⟩
    · rw [← hi, int_to_size_t_small _ (by omega)]
      simp only [List.length_cons, List.length_append]
      omega
    · rw [heq, hs]
    · rw [hint, lz_json_parse_string_eq_scan]

/-- Witness for C28: the span `"a\"b"`, after the scan has read `a\"`: the
scratch buffer holds `a"` and the write index is 2 at scan index 3. -/
theorem C28_string_scratch_bound_witness :
    (2 : Nat) = ([97, 34] : List Nat).length
      ∧ 2 ≤ ([97, 92, 34] : List Nat).length
      ∧ int_to_size_t 2 < (34 :: [97, 92, 34, 98, 34]).length + 128
      ∧ lz_json_parse_string_int_state ((34 :: [97, 92, 34, 98, 34]).length + 128)
            [97, 92, 34] [] 0 false
          = (string_scan_to [97, 92, 34] [] false).map (fun s => (s.1, s.1.length, s.2))
      ∧ lz_json_parse_string_int (34 :: [97, 92, 34, 98, 34])
          = (if (34 : Nat) ≠ 34 then (none, 0) else string_scan [97, 92, 34, 98, 34] 0 [] false)
      ∧ lz_json_parse_string_int (34 :: [97, 92, 34, 98, 34])
          = lz_json_parse_string (34 :: [97, 92, 34, 98, 34]) :=
  C28_string_scratch_bound 34 [97, 92, 34, 98, 34] [97, 92, 34] [98, 34] [97, 34] 2 false
    (by decide) rfl rfl

theorem lz_json_parse_string_loop_int_replicate (buflen : Nat) (hb : 2 ^ 31 ≤ buflen)
    (tail : List Nat) :
    ∀ (k i : Nat) (buf : List Nat) (idx : Nat), idx + k ≤ 2 ^ 31 →
      lz_json_parse_string_loop_int buflen (List.replicate k 97 ++ tail) i buf idx false
        = lz_json_parse_string_loop_int buflen tail (i + k) (buf ++ List.replicate k 97)
            (idx + k) false := by
  intro k
  induction k with
  | zero => intro i buf idx _; simp
  | succ k ih =>
    intro i buf idx h
    have hsmall : idx < 2 ^ 31 := by omega
    have hlt : ¬ (int_to_size_t idx ≥ buflen) := by
      rw [int_to_size_t_small _ hsmall]; omega
    have hasc : lz_isascii 97 = true := by decide
    have h92 : ¬ ((97 : Nat) = 92) := by decide
    have h34 : ¬ ((97 : Nat) = 34) := by decide
    rw [List.replicate_succ, List.cons_append, lz_json_parse_string_loop_int]
    simp only [hlt, if_false, hasc, Bool.not_true, Bool.false_eq_true, h92, h34,
      int_succ_small _ hsmall]
    rw [ih (i + 1) (buf ++ [97]) (idx + 1) (by omega)]
    have e1 : i + 1 + k = i + (k + 1) := by omega
    have e2 : idx + 1 + k = idx + (k + 1) := by omega
    rw [e1, e2, List.append_assoc, List.singleton_append]

theorem lz_json_parse_string_int_state_replicate (buflen : Nat) (hb : 2 ^ 31 ≤ buflen) :
    ∀ (k : Nat) (buf : List Nat) (idx : Nat), idx + k ≤ 2 ^ 31 →
      lz_json_parse_string_int_state buflen (List.replicate k 97) buf idx false
        = some (buf ++ List.replicate k 97, idx + k, false) := by
  intro k
  induction k with
  | zero => intro buf idx _; simp [lz_json_parse_string_int_state]
  | succ k ih =>
    intro buf idx h
    have hsmall : idx < 2 ^ 31 := by omega
    have hlt : ¬ (int_to_size_t idx ≥ buflen) := by
      rw [int_to_size_t_small _ hsmall]; omega
    have hasc : lz_isascii 97 = true := by decide
    have h92 : ¬ ((97 : Nat) = 92) := by decide
    have h34 : ¬ ((97 : Nat) = 34) := by decide
    rw [List.replicate_succ, lz_json_parse_string_int_state]
    simp only [hlt, if_false, hasc, Bool.not_true, Bool.false_eq_true, h92, h34,
      int_succ_small _ hsmall]
    rw [ih (buf ++ [97]) (idx + 1) (by omega)]
    have e2 : idx + 1 + k = idx + (k + 1) := by omega
    rw [e2, List.append_assoc, List.singleton_append]

/-- Claim C28 fails at the span made of a quote, `2 ^ 31` bytes `a` and a
quote (`len = 2 ^ 31 + 2`): the loop reaches the iteration at scan index
`2 ^ 31` with `2 ^ 31` bytes stored and the `int` write index wrapped to
`INT_MIN`, which as a `size_t` is `2 ^ 64 - 2 ^ 31`, not below `len + 128`;
the scratch-exhaustion branch is taken there and the parser returns `NULL`,
while the scan without the test returns the String. -/
theorem C28_write_index_wraps :
    lz_json_parse_string_int_state ((34 :: (List.replicate (2 ^ 31) 97 ++ [34])).length + 128)
        (List.replicate (2 ^ 31) 97) [] 0 false
        = some (List.replicate (2 ^ 31) 97, 2 ^ 31, false)
      ∧ int_to_size_t (2 ^ 31) = 2 ^ 64 - 2 ^ 31
      ∧ ¬ (int_to_size_t (2 ^ 31) < (34 :: (List.replicate (2 ^ 31) 97 ++ [34])).length + 128)
      ∧ lz_json_parse_string_int (34 :: (List.replicate (2 ^ 31) 97 ++ [34])) = (none, 2 ^ 31)
      ∧ string_scan (List.replicate (2 ^ 31) 97 ++ [34]) 0 [] false
          = (some (.string (List.replicate (2 ^ 31) 97)), 2 ^ 31 + 1) := by
  have hlen : (34 :: (List.replicate (2 ^ 31) 97 ++ [34])).length + 128 = 2 ^ 31 + 130 := by
    rw [List.length_cons, List.length_append, List.length_replicate, List.length_singleton]
  have hconv : int_to_size_t (2 ^ 31) = 2 ^ 64 - 2 ^ 31 := by
    unfold int_to_size_t
    rw [if_neg (by omega)]
    simp only [SIZE_MOD, INT_MOD]
    omega
  rw [hlen]
  refine ⟨?_, hconv, ?_, ?_, ?_⟩
  · have h := lz_json_parse_string_int_state_replicate (2 ^ 31 + 130) (by omega) (2 ^ 31) [] 0
      (by omega)
    rw [List.nil_append, Nat.zero_add] at h
    exact h
  · rw [hconv]
    omega
  · have hne : ¬ ((34 : Nat) ≠ 34) := by decide
    rw [lz_json_parse_string_int, if_neg hne, hlen]
    have h := lz_json_parse_string_loop_int_replicate (2 ^ 31 + 130) (by omega) [34]
      (2 ^ 31) 0 [] 0 (by omega)
    rw [Nat.zero_add] at h
    rw [h, lz_json_parse_string_loop_int]
    have hge : int_to_size_t (2 ^ 31) ≥ 2 ^ 31 + 130 := by rw [hconv]; omega
    rw [if_pos hge]
  · have h := string_scan_plain (List.replicate (2 ^ 31) 97) []
      (fun x hx => by rw [List.eq_of_mem_replicate hx]; omega) 0 []
    rw [List.length_replicate, List.nil_append, Nat.zero_add] at h
    exact h

/-! ## Comparator: symmetry without a filter (C29) -/

theorem _lz_j_object_compare_loop_zero_iff (ents1 ents2 : List (List Nat × lz_json)) :
    _lz_j_object_compare_loop ents1 ents2 none = 0
      ↔ ∀ k v, (k, v) ∈ ents1 →
          ∃ v2, lz_kvmap_find ents2 k = some v2 ∧ _lz_j_compare v v2 none = 0 := by
  induction ents1 with
  | nil => simp [_lz_j_object_compare_loop]
  | cons e rest ih =>
    obtain ⟨k1, v1⟩ := e
    simp only [_lz_j_object_compare_loop, key_filtered, Bool.false_eq_true, if_false]
    constructor
    · intro h k v hm
      cases hf : lz_kvmap_find ents2 k1 with
      | none => simp [hf] at h
      | some w =>
        simp only [hf] at h
        by_cases hc : _lz_j_compare v1 w none = -1
        · simp [hc] at h
        · simp only [hc, if_false] at h
          simp only [List.mem_cons, Prod.mk.injEq] at hm
          rcases hm with ⟨rfl, rfl⟩ | hm
          · exact ⟨w, hf, _lz_j_compare_eq_zero_of_ne _ _ _ hc⟩
          · exact ih.1 h k v hm
    · intro h
      obtain ⟨w, hw, hc⟩ := h k1 v1 (List.mem_cons_self _ _)
      have hne : ¬ (_lz_j_compare v1 w none = -1) := by omega
      simp only [hw, hne, if_false]
      exact ih.2 (fun k v hm => h k v (List.mem_cons_of_mem _ hm))

theorem keys_unique_list_getElem (l : List lz_json) (h : keys_unique_list l = true) :
    ∀ (j : Nat) (v : lz_json), l[j]? = some v → keys_unique v = true := by
  induction l with
  | nil => intro j v hj; simp at hj
  | cons x rest ih =>
    simp only [keys_unique_list, Bool.and_eq_true] at h
    intro j v hj
    cases j with
    | zero =>
      simp only [List.getElem?_cons_zero, Option.some.injEq] at hj
      subst hj
      exact h.1
    | succ n =>
      simp only [List.getElem?_cons_succ] at hj
      exact ih h.2 n v hj

theorem keys_unique_ents_mem (l : List (List Nat × lz_json)) (h : keys_unique_ents l = true) :
    ∀ k v, (k, v) ∈ l → keys_unique v = true := by
  induction l with
  | nil => intro k v hm; simp at hm
  | cons e rest ih =>
    obtain ⟨k1, v1⟩ := e
    simp only [keys_unique_ents, Bool.and_eq_true] at h
    intro k v hm
    simp only [List.mem_cons, Prod.mk.injEq] at hm
    rcases hm with ⟨-, rfl⟩ | hm
    · exact h.1
    · exact ih h.2 k v hm

theorem keys_subset_reverse (ents1 ents2 : List (List Nat × lz_json))
    (hn1 : (ents1.map Prod.fst).Nodup) (hlen : ents1.length = ents2.length)
    (hsub : ∀ k, k ∈ ents1.map Prod.fst → k ∈ ents2.map Prod.fst) :
    ∀ k, k ∈ ents2.map Prod.fst → k ∈ ents1.map Prod.fst := by
  have hsp : (ents1.map Prod.fst).Subperm (ents2.map Prod.fst) :=
    List.subperm_of_subset hn1 hsub
  have hperm : (ents1.map Prod.fst).Perm (ents2.map Prod.fst) :=
    hsp.perm_of_length_le (by simp [hlen])
  intro k hk
  exact hperm.symm.subset hk

theorem lz_kvmap_find_mem (ents : List (List Nat × lz_json)) (k : List Nat) (v : lz_json)
    (h : lz_kvmap_find ents k = some v) : (k, v) ∈ ents := by
  induction ents with
  | nil => simp [lz_kvmap_find] at h
  | cons e rest ih =>
    obtain ⟨k1, v1⟩ := e
    simp only [lz_kvmap_find] at h
    split_ifs at h with hk
    · simp only [Option.some.injEq] at h
      subst hk h
      exact List.mem_cons_self _ _
    · exact List.mem_cons_of_mem _ (ih h)

mutual
theorem _lz_j_compare_symm_zero : ∀ (a b : lz_json), keys_unique a = true →
    keys_unique b = true → _lz_j_compare a b none = 0 → _lz_j_compare b a none = 0
  | .number n, b, _, _, h => by
    cases b <;> simp_all [_lz_j_compare, lz_json_get_type, lz_json_get_size, lz_json_get_number]
  | .string s, b, _, _, h => by
    cases b with
    | string s2 =>
      simp only [_lz_j_compare, lz_json_get_type, lz_json_get_size, lz_json_get_string,
        ne_eq, not_true_eq_false, if_false] at h ⊢
      by_cases hlen : s.length = s2.length
      · by_cases hc : cstr s = cstr s2
        · simp [hlen, hc]
        · simp [hlen, hc] at h
      · simp [hlen] at h
    | _ => simp [_lz_j_compare, lz_json_get_type] at h
  | .boolean x, b, _, _, h => by
    cases b <;> simp_all [_lz_j_compare, lz_json_get_type, lz_json_get_size, lz_json_get_boolean]
  | .null, b, _, _, h => by
    cases b <;> simp_all [_lz_j_compare, lz_json_get_type, lz_json_get_size]
  | .array es, b, ha, hb, h => by
    cases b with
    | array fs =>
      simp only [keys_unique] at ha hb
      simp only [_lz_j_compare, lz_json_get_type, lz_json_get_size, lz_json_get_array,
        ne_eq, not_true_eq_false, if_false] at h ⊢
      by_cases hlen : es.length = fs.length
      · simp only [hlen, not_true_eq_false, if_false] at h
        simp only [hlen, not_true_eq_false, if_false]
        rw [_lz_j_array_compare_loop_zero_iff] at h ⊢
        intro j v hj
        simp only [Nat.zero_add] at h ⊢
        have hjlt : j < es.length := by
          rw [hlen]
          by_contra hge
          rw [List.getElem?_eq_none (by omega)] at hj
          simp at hj
        obtain ⟨v2, hv2, hc⟩ := h j (es.get ⟨j, hjlt⟩) (by simp)
        have hvv : v2 = v := by
          rw [hj] at hv2
          simp only [Option.some.injEq] at hv2
          exact hv2.symm
        subst hvv
        refine ⟨es.get ⟨j, hjlt⟩, by simp, ?_⟩
        exact _lz_j_compare_symm_zero_list es ha j _ (by simp) v2
          (keys_unique_list_getElem fs hb j v2 hj) hc
      · simp [hlen] at h
    | _ => simp [_lz_j_compare, lz_json_get_type] at h
  | .object ents1, b, ha, hb, h => by
    cases b with
    | object ents2 =>
      simp only [keys_unique, Bool.and_eq_true, decide_eq_true_eq] at ha hb
      simp only [_lz_j_compare, lz_json_get_type, lz_json_get_size, lz_json_get_object,
        ne_eq, not_true_eq_false, if_false] at h ⊢
      by_cases hlen : ents1.length = ents2.length
      · simp only [hlen, not_true_eq_false, if_false] at h
        simp only [hlen, not_true_eq_false, if_false]
        rw [_lz_j_object_compare_loop_zero_iff] at h ⊢
        have hsub : ∀ k, k ∈ ents1.map Prod.fst → k ∈ ents2.map Prod.fst := by
          intro k hk
          obtain ⟨⟨k0, v0⟩, hm, rfl⟩ := List.mem_map.1 hk
          obtain ⟨v2, hf, -⟩ := h k0 v0 hm
          exact List.mem_map.2 ⟨(k0, v2), lz_kvmap_find_mem ents2 k0 v2 hf, rfl⟩
        have hrev := keys_subset_reverse ents1 ents2 ha.1 hlen hsub
        intro k2 v2 hm2
        obtain ⟨⟨k0, v1⟩, hm1, hk⟩ := List.mem_map.1 (hrev k2 (List.mem_map.2 ⟨(k2, v2), hm2, rfl⟩))
        simp only at hk
        subst hk
        obtain ⟨w, hf, hc⟩ := h k0 v1 hm1
        have hw : w = v2 := by
          rw [lz_kvmap_find_of_mem ents2 hb.1 k0 v2 hm2] at hf
          simp only [Option.some.injEq] at hf
          exact hf.symm
        subst hw
        refine ⟨v1, lz_kvmap_find_of_mem ents1 ha.1 k0 v1 hm1, ?_⟩
        exact _lz_j_compare_symm_zero_ents ents1 ha.2 k0 v1 hm1 w
          (keys_unique_ents_mem ents2 hb.2 k0 w hm2) hc
      · simp [hlen] at h
    | _ => simp [_lz_j_compare, lz_json_get_type] at h
theorem _lz_j_compare_symm_zero_list : ∀ (es : List lz_json), keys_unique_list es = true →
    ∀ (j : Nat) (v : lz_json), es[j]? = some v → ∀ b, keys_unique b = true →
    _lz_j_compare v b none = 0 → _lz_j_compare b v none = 0
  | [], _, j, v, hj, _, _, _ => by simp at hj
  | x :: rest, h, j, v, hj, b, hb, hc => by
    simp only [keys_unique_list, Bool.and_eq_true] at h
    cases j with
    | zero =>
      simp only [List.getElem?_cons_zero, Option.some.injEq] at hj
      rw [← hj] at hc ⊢
      exact _lz_j_compare_symm_zero x b h.1 hb hc
    | succ n =>
      simp only [List.getElem?_cons_succ] at hj
      exact _lz_j_compare_symm_zero_list rest h.2 n v hj b hb hc
theorem _lz_j_compare_symm_zero_ents : ∀ (ents : List (List Nat × lz_json)),
    keys_unique_ents ents = true →
    ∀ (k : List Nat) (v : lz_json), (k, v) ∈ ents → ∀ b, keys_unique b = true →
    _lz_j_compare v b none = 0 → _lz_j_compare b v none = 0
  | [], _, k, v, hm, _, _, _ => by simp at hm
  | (k1, v1) :: rest, h, k, v, hm, b, hb, hc => by
    simp only [keys_unique_ents, Bool.and_eq_true] at h
    simp only [List.mem_cons, Prod.mk.injEq] at hm
    rcases hm with ⟨-, hv⟩ | hm
    · rw [hv] at hc ⊢
      exact _lz_j_compare_symm_zero v1 b h.1 hb hc
    · exact _lz_j_compare_symm_zero_ents rest h.2 k v hm b hb hc
end

theorem lz_json_parse_array_end_some (i : Nat) (js : List lz_json) (end_ch : Nat)
    (v : lz_json) (n : Nat) (h : lz_json_parse_array_end i js end_ch = (some v, n)) :
    end_ch = 93 ∧ n = i := by
  unfold lz_json_parse_array_end at h
  split_ifs at h with h1
  · simp at h
  · simp only [Prod.mk.injEq] at h
    exact ⟨by simpa using h1, h.2.symm⟩

theorem lz_json_parse_object_end_some (i : Nat) (js : List (List Nat × lz_json))
    (end_ch : Nat) (v : lz_json) (n : Nat)
    (h : lz_json_parse_object_end i js end_ch = (some v, n)) :
    end_ch = 125 ∧ n = i := by
  unfold lz_json_parse_object_end at h
  split_ifs at h with h1
  · simp at h
  · simp only [Prod.mk.injEq] at h
    exact ⟨by simpa using h1, h.2.symm⟩

theorem lz_json_parse_array_loop_success_le (pv : List Nat → Option lz_json × Nat)
    (data : List Nat) (len : Nat) :
    ∀ (fuel i : Nat) (state : lz_j_arr_state) (js : List lz_json) (end_ch : Nat),
      (end_ch = 93 → i ≤ len ∧ (state = .lz_j_arr_s_end ∨ i = len)) →
      ∀ (v : lz_json) (n : Nat),
        lz_json_parse_array_loop pv data len fuel i state js end_ch = (some v, n) →
        n ≤ len := by
  intro fuel
  induction fuel with
  | zero =>
    intro i state js end_ch hinv v n h
    simp only [lz_json_parse_array_loop] at h
    obtain ⟨h1, h2⟩ := lz_json_parse_array_end_some _ _ _ _ _ h
    rw [h2]
    exact (hinv h1).1
  | succ fuel ih =>
    intro i state js end_ch hinv v n h
    have hend : ∀ (v : lz_json) (n : Nat),
        lz_json_parse_array_end i js end_ch = (some v, n) → n ≤ len := by
      intro v n h
      obtain ⟨h1, h2⟩ := lz_json_parse_array_end_some _ _ _ _ _ h
      rw [h2]
      exact (hinv h1).1
    rw [lz_json_parse_array_loop] at h
    by_cases hlt : i < len
    · simp only [hlt, if_true] at h
      cases hsp : isspace (data.getD i 0) with
      | true =>
        simp only [hsp, if_true] at h
        refine ih _ _ _ _ ?_ v n h
        intro he
        rcases (hinv he).2 with hs | hs
        · exact ⟨by omega, Or.inl hs⟩
        · omega
      | false =>
        simp only [hsp, Bool.false_eq_true, if_false] at h
        cases state with
        | lz_j_arr_s_val =>
          dsimp only at h
          split_ifs at h with h93
          · exact ih _ _ _ _ (fun _ => ⟨by omega, Or.inl rfl⟩) v n h
          · cases hp : pv (data.drop i) with
            | mk o b_read =>
              rw [hp] at h
              cases o with
              | none => simp at h
              | some val =>
                dsimp only at h
                refine ih _ _ _ _ ?_ v n h
                intro he
                split_ifs at he with hk
                · exact ⟨by omega, Or.inr (by omega)⟩
                · rcases (hinv he).2 with hs | hs
                  · cases hs
                  · omega
        | lz_j_arr_s_comma =>
          dsimp only at h
          split_ifs at h with h44 h93
          · refine ih _ _ _ _ ?_ v n h
            intro he
            rcases (hinv he).2 with hs | hs
            · cases hs
            · omega
          · exact ih _ _ _ _ (fun _ => ⟨by omega, Or.inl rfl⟩) v n h
          · simp at h
        | lz_j_arr_s_end => exact hend v n h
    · simp only [hlt, if_false] at h
      exact hend v n h

theorem lz_json_parse_array_with_success_lt (pv : List Nat → Option lz_json × Nat)
    (data : List Nat) (v : lz_json) (n : Nat)
    (h : lz_json_parse_array_with pv data = (some v, n)) : n + 1 ≤ data.length := by
  cases data with
  | nil => simp [lz_json_parse_array_with] at h
  | cons c rest =>
    simp only [lz_json_parse_array_with] at h
    split_ifs at h
    · simp at h
    · have := lz_json_parse_array_loop_success_le pv rest rest.length _ 0 _ _ 0
        (fun he => absurd he (by decide)) v n h
      simp only [List.length_cons]
      omega

theorem lz_json_parse_object_loop_success_le (pv : List Nat → Option lz_json × Nat)
    (data : List Nat) (len : Nat) :
    ∀ (fuel i : Nat) (state : lz_j_obj_state) (js : List (List Nat × lz_json))
      (key : List Nat) (end_ch : Nat),
      (end_ch = 125 → i ≤ len ∧ state = .lz_j_obj_s_end) →
      ∀ (v : lz_json) (n : Nat),
        lz_json_parse_object_loop pv data len fuel i state js key end_ch = (some v, n) →
        n ≤ len := by
  intro fuel
  induction fuel with
  | zero =>
    intro i state js key end_ch hinv v n h
    simp only [lz_json_parse_object_loop] at h
    obtain ⟨h1, h2⟩ := lz_json_parse_object_end_some _ _ _ _ _ h
    rw [h2]
    exact (hinv h1).1
  | succ fuel ih =>
    intro i state js key end_ch hinv v n h
    have hend : ∀ (v : lz_json) (n : Nat),
        lz_json_parse_object_end i js end_ch = (some v, n) → n ≤ len := by
      intro v n h
      obtain ⟨h1, h2⟩ := lz_json_parse_object_end_some _ _ _ _ _ h
      rw [h2]
      exact (hinv h1).1
    have hno : ∀ (st : lz_j_obj_state), state ≠ .lz_j_obj_s_end → ∀ (i2 : Nat),
        end_ch = 125 → i2 ≤ len ∧ st = .lz_j_obj_s_end := by
      intro st hst i2 he
      exact absurd (hinv he).2 hst
    rw [lz_json_parse_object_loop] at h
    by_cases hlt : i < len
    · simp only [hlt, if_true] at h
      cases hsp : isspace (data.getD i 0) with
      | true =>
        simp only [hsp, if_true] at h
        refine ih _ _ _ _ _ ?_ v n h
        intro he
        exact ⟨by omega, (hinv he).2⟩
      | false =>
        simp only [hsp, Bool.false_eq_true, if_false] at h
        cases state with
        | lz_j_obj_s_key =>
          dsimp only at h
          split_ifs at h with h125
          · exact ih _ _ _ _ _ (fun _ => ⟨by omega, rfl⟩) v n h
          · cases hp : lz_json_parse_key (data.drop i) with
            | mk o b_read =>
              rw [hp] at h
              cases o with
              | none => simp at h
              | some val =>
                cases val with
                | string k =>
                  dsimp only at h
                  exact ih _ _ _ _ _ (hno _ (by decide) _) v n h
                | _ => simp at h
        | lz_j_obj_s_delim =>
          dsimp only at h
          split_ifs at h with h58
          · simp at h
          · exact ih _ _ _ _ _ (hno _ (by decide) _) v n h
        | lz_j_obj_s_val =>
          dsimp only at h
          cases hp : pv (data.drop i) with
          | mk o b_read =>
            rw [hp] at h
            cases o with
            | none => simp at h
            | some val =>
              dsimp only at h
              exact ih _ _ _ _ _ (hno _ (by decide) _) v n h
        | lz_j_obj_s_comma =>
          dsimp only at h
          split_ifs at h with h44 h125
          · exact ih _ _ _ _ _ (hno _ (by decide) _) v n h
          · exact ih _ _ _ _ _ (fun _ => ⟨by omega, rfl⟩) v n h
          · simp at h
        | lz_j_obj_s_end => exact hend v n h
    · simp only [hlt, if_false] at h
      exact hend v n h

theorem lz_json_parse_object_with_success_lt (pv : List Nat → Option lz_json × Nat)
    (data : List Nat) (v : lz_json) (n : Nat)
    (h : lz_json_parse_object_with pv data = (some v, n)) : n + 1 ≤ data.length := by
  cases data with
  | nil => simp [lz_json_parse_object_with] at h
  | cons c rest =>
    simp only [lz_json_parse_object_with] at h
    split_ifs at h
    · simp at h
    · have := lz_json_parse_object_loop_success_le pv rest rest.length _ 0 _ _ _ 0
        (fun he => absurd he (by decide)) v n h
      simp only [List.length_cons]
      omega

theorem lz_json_parse_buf_loop_success (data : List Nat) :
    ∀ (fuel i : Nat) (state : lz_j_state) (js : Option lz_json),
      data.length ≤ i + fuel →
      (state = .lz_j_s_start → js = none) →
      (state = .lz_j_s_end → i ≤ data.length) →
      ∀ (v : lz_json) (n : Nat),
        lz_json_parse_buf_loop data data.length fuel i state js = (some v, n) →
        n = data.length := by
  intro fuel
  induction fuel with
  | zero =>
    intro i state js hfuel hs he v n h
    simp only [lz_json_parse_buf_loop, Prod.mk.injEq] at h
    cases state with
    | lz_j_s_start => rw [hs rfl] at h; simp at h
    | lz_j_s_end => have := he rfl; omega
  | succ fuel ih =>
    intro i state js hfuel hs he v n h
    rw [lz_json_parse_buf_loop] at h
    by_cases hlt : i < data.length
    · simp only [hlt, if_true] at h
      cases hsp : isspace (data.getD i 0) with
      | true =>
        simp only [hsp, if_true] at h
        exact ih _ _ _ (by omega) hs (fun _ => by omega) v n h
      | false =>
        simp only [hsp, Bool.false_eq_true, if_false] at h
        cases state with
        | lz_j_s_start =>
          dsimp only at h
          split_ifs at h with h123 h91
          · cases hp : lz_json_parse_object (data.drop i) with
            | mk o b_read =>
              rw [hp] at h
              cases o with
              | none => simp at h
              | some val =>
                dsimp only at h
                have hb := lz_json_parse_object_with_success_lt _ _ _ _ hp
                simp only [List.length_drop] at hb
                exact ih _ _ _ (by omega) (fun hc => by cases hc) (fun _ => by omega) v n h
          · cases hp : lz_json_parse_array (data.drop i) with
            | mk o b_read =>
              rw [hp] at h
              cases o with
              | none => simp at h
              | some val =>
                dsimp only at h
                have hb := lz_json_parse_array_with_success_lt _ _ _ _ hp
                simp only [List.length_drop] at hb
                exact ih _ _ _ (by omega) (fun hc => by cases hc) (fun _ => by omega) v n h
          · simp at h
        | lz_j_s_end =>
          dsimp only at h
          exact ih _ _ _ (by omega) (fun hc => by cases hc) (fun _ => by omega) v n h
    · simp only [hlt, if_false, Prod.mk.injEq] at h
      cases state with
      | lz_j_s_start => rw [hs rfl] at h; simp at h
      | lz_j_s_end => have := he rfl; omega

/-- Claim C31: whenever `lz_json_parse_buf` returns a value for a span, the
amount it adds to the consumed-bytes counter is exactly the length of the
span, wherever the top-level value ended and whatever follows it. -/
theorem C31_parse_buf_consumed (data : List Nat) (v : lz_json) (n : Nat)
    (h : lz_json_parse_buf data = (some v, n)) : n = data.length :=
  lz_json_parse_buf_loop_success data data.length 0 .lz_j_s_start none (by omega)
    (fun _ => rfl) (fun hc => by cases hc) v n h

/-- Witness for C31: the 8-byte span `[1] xyz `, whose top-level Array ends
after 3 bytes; the counter grows by 8. -/
theorem C31_parse_buf_consumed_witness :
    lz_json_parse_buf (bytes "[1] xyz ") = (some (.array [.number 1]), 8)
      ∧ 8 = (bytes "[1] xyz ").length :=
  ⟨rfl, C31_parse_buf_consumed (bytes "[1] xyz ") (.array [.number 1]) 8 rfl⟩

end LzJson
